import Mathlib

/-!
# ArrowColCodec: engine column <-> wire column codec

A shallow embedding of `dbms/src/Flash/Coprocessor/ArrowColCodec.cpp` and the
properties of the codec that are proved about it.

Conventions of the embedding.

* Machine integers are `Nat`/`Int`; a conversion or an arithmetic step that can
  leave the range of its C++ type is written with an explicit reduction
  (`% 256`, `wrapSigned`).
* A C++ exception is `Failure.exception code`.  A read outside a container (a
  vector index past the end, a byte read past the end of the wire buffer, a
  null column pointer) has no defined result in the source; it is the separate
  outcome `Failure.undefinedBehaviour`.
* Floating point values are carried as their bit patterns.
-/

namespace DB

/-! ## Constants and machine arithmetic -/

/-- Modelled from the spec: `DIGITS_PER_WORD = 9` (declared in the decimal header,
which is outside this file). -/
def DIGITS_PER_WORD : Nat := 9

/-- Modelled from the spec: `MAX_WORD_BUF_LEN = 9`, the number of `Int32` words that
follow the header of a wire decimal. -/
def MAX_WORD_BUF_LEN : Nat := 9

/-- The local constant `const int word_max = int(1e9)` of `toCHDecimal`. -/
def word_max : Int := 1000000000

/-- The four decimal storage widths `Decimal32 .. Decimal256`. -/
inductive DecimalKind
  | Decimal32
  | Decimal64
  | Decimal128
  | Decimal256
  deriving DecidableEq, Repr

/-- Width in bits of `T::NativeType` (`Int32`, `Int64`, `Int128`, `Int256`). -/
def DecimalKind.bits : DecimalKind → Nat
  | .Decimal32 => 32
  | .Decimal64 => 64
  | .Decimal128 => 128
  | .Decimal256 => 256

/-- Two's-complement reduction of a mathematical integer to a signed integer of
`bits` bits: the result lies in `[-2^(bits-1), 2^(bits-1))`. -/
def wrapSigned (bits : Nat) (x : Int) : Int := Int.bmod x (2 ^ bits)

/-- Reduction to an unsigned integer of `bits` bits. -/
def wrapUnsigned (bits : Nat) (x : Int) : Nat := (x % (2 ^ bits : Int)).toNat

/-! ## Decimal: engine -> wire (`decimalToVector`) -/

/-- The first loop of `decimalToVector`:
`while (value != 0) { vec.push_back(static_cast<Int32>(value % 10)); value = value / 10; }`
with the truncating `/` and `%` of C++. -/
def decimalToVectorDigits (value : Int) (vec : List Int) : List Int :=
  if value = 0 then vec
  else decimalToVectorDigits (Int.tdiv value 10) (vec ++ [Int.tmod value 10])
termination_by value.natAbs
decreasing_by
  rw [Int.natAbs_tdiv]
  have h : 0 < value.natAbs := Int.natAbs_pos.mpr (by assumption)
  simp only [Int.reduceAbs]
  exact Nat.div_lt_self h (by decide)

/-- The second loop of `decimalToVector`:
`while (vec.size() < scale) { vec.push_back(0); }`. -/
def decimalToVectorPad (vec : List Int) (scale : Nat) : List Int :=
  if vec.length < scale then decimalToVectorPad (vec ++ [0]) scale else vec
termination_by scale - vec.length
decreasing_by
  simp only [List.length_append, List.length_singleton]
  omega

/-- The function `decimalToVector<T>(dec, vec, scale)`; `dec` is the value `dec.value`
of the decimal, widened to `Int256`, and the result is the new content of `vec`. -/
def decimalToVector (dec : Int) (vec : List Int) (scale : Nat) : List Int :=
  let value : Int := dec
  let value : Int := if value < 0 then -value else value
  decimalToVectorPad (decimalToVectorDigits value vec) scale

/-! ## Decimal: wire -> engine (`toCHDecimal`) -/

/-- The function `toCHDecimal<T>(digits_int, digits_frac, negative, word_buf)`.
`digits_int` and `digits_frac` are `UInt8` values and `word_buf` holds `Int32` values.
Arithmetic on `T::NativeType` is reduced to the width of `T`; a read outside
`word_buf` gives `none`. -/
def toCHDecimal (T : DecimalKind) (digits_int digits_frac : Nat) (negative : Bool)
    (word_buf : List Int) : Option Int :=
  let word_int : Nat := ((digits_int + DIGITS_PER_WORD - 1) / DIGITS_PER_WORD) % 256
  let word_frac : Nat := (digits_frac / DIGITS_PER_WORD) % 256
  let tailing_digit : Nat := (digits_frac % DIGITS_PER_WORD) % 256
  let step (offset : Nat) (value : Int) (i : Nat) : Option Int :=
    (word_buf[i + offset]?).map (fun w => wrapSigned T.bits (value * word_max + w))
  ((List.range word_int).foldlM (step 0) (0 : Int)).bind fun value =>
  ((List.range word_frac).foldlM (step word_int) value).bind fun value =>
  if tailing_digit > 0 then
    (word_buf[word_int + word_frac]?).map fun tail =>
      let tail : Int := (List.range (DIGITS_PER_WORD - tailing_digit)).foldl
        (fun tail _ => wrapSigned 32 (Int.tdiv tail 10)) tail
      let value : Int := (List.range tailing_digit).foldl
        (fun value _ => wrapSigned T.bits (value * 10)) value
      let value : Int := wrapSigned T.bits (value + tail)
      if negative then wrapSigned T.bits (-value) else value
  else
    some (if negative then wrapSigned T.bits (-value) else value)

/-! ## Engine types and engine columns

The engine's type and column classes are declared outside this file.  They are
modelled as closed sum types over the element types the codec distinguishes. -/

/-- Element types `T` of `ColumnVector<T>` and `DataTypeNumber<T>`. -/
inductive NumberKind
  | UInt8
  | UInt16
  | UInt32
  | UInt64
  | Int8
  | Int16
  | Int32
  | Int64
  | Float32
  | Float64
  deriving DecidableEq, Repr

/-- The trait `std::is_integral_v<T>`. -/
def NumberKind.is_integral : NumberKind → Bool
  | .Float32 => false
  | .Float64 => false
  | _ => true

/-- The trait `std::is_unsigned_v<T>`. -/
def NumberKind.is_unsigned : NumberKind → Bool
  | .UInt8 => true
  | .UInt16 => true
  | .UInt32 => true
  | .UInt64 => true
  | _ => false

/-- Width in bits of the element type. -/
def NumberKind.bits : NumberKind → Nat
  | .UInt8 => 8
  | .UInt16 => 16
  | .UInt32 => 32
  | .UInt64 => 64
  | .Int8 => 8
  | .Int16 => 16
  | .Int32 => 32
  | .Int64 => 64
  | .Float32 => 32
  | .Float64 => 64

/-- Modelled from the spec: the engine data types (`IDataType` and its subclasses are
declared outside this file).  The element types are those of the spec's data model:
the integer and float `DataTypeNumber<T>`, `DataTypeDecimal<T>` with its precision and
scale, `DataTypeString`, the packed date-time types `DataTypeMyDate` and
`DataTypeMyDateTime`, and the wrapper `DataTypeNullable`. -/
inductive DataType
  | Number (T : NumberKind)
  | Decimal (T : DecimalKind) (precision scale : Nat)
  | String
  | MyDate
  | MyDateTime (fraction : Nat)
  | Nullable (nested : DataType)
  deriving DecidableEq, Repr

/-- The method `IDataType::isNullable()`. -/
def DataType.isNullable : DataType → Bool
  | .Nullable _ => true
  | _ => false

/-- The method `DataTypeNullable::getNestedType()` (the type itself when it is no wrapper). -/
def DataType.getNestedType : DataType → DataType
  | .Nullable nested => nested
  | t => t

/-- The method `IDataType::isInteger()`: true for `DataTypeNumber<T>` with integral `T`. -/
def DataType.isInteger : DataType → Bool
  | .Number T => T.is_integral
  | _ => false

/-- The method `IDataType::isUnsignedInteger()`. -/
def DataType.isUnsignedInteger : DataType → Bool
  | .Number T => T.is_integral && T.is_unsigned
  | _ => false

/-- The method `IDataType::isDateOrDateTime()`. -/
def DataType.isDateOrDateTime : DataType → Bool
  | .MyDate => true
  | .MyDateTime _ => true
  | _ => false

/-- The method `IDataType::isDecimal()`. -/
def DataType.isDecimal : DataType → Bool
  | .Decimal _ _ _ => true
  | _ => false

/-- The test `checkDataType<DataTypeNumber<T>>(type)`. -/
def DataType.checkNumber (T : NumberKind) : DataType → Bool
  | .Number U => decide (U = T)
  | _ => false

/-- The test `checkDataType<DataTypeString>(type)`. -/
def DataType.checkString : DataType → Bool
  | .String => true
  | _ => false

/-- The casts `checkAndGetDataType<DataTypeDecimal<T>>(type)` and `checkDecimal<T>(type)`:
the scale (`getScale()`) of the decimal type when the type is a `DataTypeDecimal<T>`,
`none` for a null pointer. -/
def DataType.checkDecimal (T : DecimalKind) : DataType → Option Nat
  | .Decimal U _ scale => if U = T then some scale else none
  | _ => none

/-- A byte. -/
abbrev Byte := Fin 256

/-- Modelled from the spec: the engine column containers (`IColumn` and its subclasses
are declared outside this file): `ColumnVector<T>`, `ColumnDecimal<T>`,
`ColumnString` (one byte string per row) and `ColumnNullable` (a nested column and
its null map).  An element of a float column is its bit pattern. -/
inductive IColumn
  | Vector (T : NumberKind) (data : List Int)
  | Decimal (T : DecimalKind) (data : List Int)
  | String (data : List (List Byte))
  | Nullable (nested : IColumn) (null_map : List Bool)
  deriving DecidableEq, Repr

/-- The method `IColumn::isColumnNullable()`. -/
def IColumn.isColumnNullable : IColumn → Bool
  | .Nullable _ _ => true
  | _ => false

/-- The method `IColumn::isNullAt(i)`: the null map entry of a `ColumnNullable`, false
for every other column; `none` when `i` is outside the null map. -/
def IColumn.isNullAt : IColumn → Nat → Option Bool
  | .Nullable _ null_map, i => null_map[i]?
  | _, _ => some false

/-- The cast `checkAndGetColumn<ColumnVector<T>>(col)`: the data, `none` for a null pointer. -/
def IColumn.checkAndGetVector (T : NumberKind) : IColumn → Option (List Int)
  | .Vector U data => if U = T then some data else none
  | _ => none

/-- The cast `checkAndGetColumn<ColumnDecimal<T>>(col)`. -/
def IColumn.checkAndGetDecimal (T : DecimalKind) : IColumn → Option (List Int)
  | .Decimal U data => if U = T then some data else none
  | _ => none

/-- The cast `checkAndGetColumn<ColumnString>(col)`. -/
def IColumn.checkAndGetString : IColumn → Option (List (List Byte))
  | .String data => some data
  | _ => none

/-- The function `getNestedCol(flash_col)`. -/
def getNestedCol (flash_col : IColumn) : IColumn :=
  match flash_col with
  | .Nullable nested _ => nested
  | c => c

/-- An engine column with its type (`ColumnWithTypeAndName`; the name only appears in
error messages). -/
structure ColumnWithTypeAndName where
  column : IColumn
  type : DataType
  deriving DecidableEq, Repr

/-! ## Wire field types and the wire column -/

/-- Modelled from the spec: the protocol type codes (`TiDB::TP`, declared outside this
file).  The supported closed set is the integer family, the float family, the time
family, `TypeNewDecimal` and the byte-string family; the other constructors are the
remaining codes of the protocol. -/
inductive TP
  | TypeDecimal
  | TypeTiny
  | TypeShort
  | TypeLong
  | TypeFloat
  | TypeDouble
  | TypeNull
  | TypeTimestamp
  | TypeLongLong
  | TypeInt24
  | TypeDate
  | TypeTime
  | TypeDatetime
  | TypeYear
  | TypeNewDate
  | TypeVarchar
  | TypeBit
  | TypeJSON
  | TypeNewDecimal
  | TypeEnum
  | TypeSet
  | TypeTinyBlob
  | TypeMediumBlob
  | TypeLongBlob
  | TypeBlob
  | TypeVarString
  | TypeString
  | TypeGeometry
  deriving DecidableEq, Repr

/-- Modelled from the spec: the flag bit `NOT NULL` (`TiDB::ColumnFlagNotNull`). -/
def ColumnFlagNotNull : Nat := 1

/-- Modelled from the spec: the flag bit `UNSIGNED` (`TiDB::ColumnFlagUnsigned`). -/
def ColumnFlagUnsigned : Nat := 32

/-- The wire field declaration `tipb::FieldType`: type code and flags. -/
structure FieldType where
  tp : TP
  flag : Nat
  deriving DecidableEq, Repr

/-- The column description `TiDB::ColumnInfo`: type code and flags. -/
structure ColumnInfo where
  tp : TP
  flag : Nat
  deriving DecidableEq, Repr

/-- Modelled from the spec: `fieldTypeToColumnInfo` (declared in `DAGUtils.h`) carries
the type code and the flags of the wire field over. -/
def fieldTypeToColumnInfo (field_type : FieldType) : ColumnInfo :=
  { tp := field_type.tp, flag := field_type.flag }

/-- The method `ColumnInfo::hasNotNullFlag()`. -/
def ColumnInfo.hasNotNullFlag (c : ColumnInfo) : Bool :=
  c.flag &&& ColumnFlagNotNull != 0

/-- The method `ColumnInfo::hasUnsignedFlag()`. -/
def ColumnInfo.hasUnsignedFlag (c : ColumnInfo) : Bool :=
  c.flag &&& ColumnFlagUnsigned != 0

/-- The wire decimal `TiDBDecimal(scale, digits, negative)` as built by the encoder. -/
structure TiDBDecimal where
  scale : Nat
  digits : List Int
  negative : Bool
  deriving DecidableEq, Repr

/-- The wire time `TiDBTime(packed, field_type)` as built by the encoder. -/
structure TiDBTime where
  packed : Int
  field_type : FieldType
  deriving DecidableEq, Repr

/-- Modelled from the spec: one row appended to the wire column, by the appender that
was called: `appendNull()`, `append(UInt64)`, `append(Int64)`, `append(Float32)`,
`append(Float64)`, `append(StringRef)`, `append(TiDBDecimal)`, `append(TiDBTime)`. -/
inductive Row
  | null
  | u64 (v : Nat)
  | i64 (v : Int)
  | f32 (bits : Int)
  | f64 (bits : Int)
  | bytes (s : List Byte)
  | decimal (d : TiDBDecimal)
  | time (t : TiDBTime)
  deriving DecidableEq, Repr

/-- Modelled from the spec: the wire column `TiDBColumn` as an ordered append sink: the
rows appended so far. -/
abbrev TiDBColumn := List Row

/-! ## Outcomes -/

/-- The error codes used by the codec; `UNSPECIFIED` is an `Exception` built without a
code. -/
inductive ErrorCode
  | LOGICAL_ERROR
  | UNKNOWN_EXCEPTION
  | NOT_IMPLEMENTED
  | UNSPECIFIED
  deriving DecidableEq, Repr

/-- How a call can end without returning. -/
inductive Failure
  | exception (code : ErrorCode)
  | undefinedBehaviour
  deriving DecidableEq, Repr

/-- Result of an encoder: the value it returns, or the failure together with the wire
column as it stands when the failure occurs. -/
abbrev EncodeResult (α : Type) := Except (Failure × TiDBColumn) α

/-! ## Engine -> wire -/

/-- The row loop of the leaf encoders, `for (size_t i = start_index; i < end_index; i++)`,
for a loop body that appends the row `body i` (an undefined read when `none`). -/
def appendRows (body : Nat → Option Row) (dag_column : TiDBColumn)
    (start_index end_index : Nat) : EncodeResult TiDBColumn :=
  (List.range' start_index (end_index - start_index)).foldlM
    (fun dag i =>
      match body i with
      | some row => Except.ok (dag ++ [row])
      | none => Except.error (Failure.undefinedBehaviour, dag))
    dag_column

/-- The head of every loop body:
`if constexpr (is_nullable) { if (flash_col_untyped->isNullAt(i)) { dag_column.appendNull(); continue; } }`
followed by the rest of the body, which appends `value`. -/
def nullOr (is_nullable : Bool) (flash_col_untyped : IColumn) (i : Nat)
    (value : Option Row) : Option Row :=
  if is_nullable then
    (flash_col_untyped.isNullAt i).bind fun is_null => if is_null then some Row.null else value
  else value

/-- The function `flashDecimalColToArrowColInternal<T, is_nullable>`: the returned flag
and the new wire column. -/
def flashDecimalColToArrowColInternal (T : DecimalKind) (is_nullable : Bool)
    (dag_column : TiDBColumn) (flash_col_untyped : IColumn) (start_index end_index : Nat)
    (data_type : DataType) : EncodeResult (Bool × TiDBColumn) :=
  let nested_col := getNestedCol flash_col_untyped
  match nested_col.checkAndGetDecimal T, data_type.checkDecimal T with
  | some flash_col, some type_scale =>
    (appendRows
      (fun i => nullOr is_nullable flash_col_untyped i
        ((flash_col[i]?).map fun dec =>
          let scale := type_scale
          let digits := decimalToVector dec [] scale
          Row.decimal { scale := scale, digits := digits, negative := decide (dec < 0) }))
      dag_column start_index end_index).map fun dag => (true, dag)
  | _, _ => Except.ok (false, dag_column)

/-- The chain `p1 || p2 || ...` of width probes: the first probe that returns true ends
the chain; when all return false the caller throws `UNKNOWN_EXCEPTION`. -/
def firstProbe {K : Type} (probe : K → TiDBColumn → EncodeResult (Bool × TiDBColumn)) :
    List K → TiDBColumn → EncodeResult TiDBColumn
  | [], dag => Except.error (Failure.exception ErrorCode.UNKNOWN_EXCEPTION, dag)
  | T :: rest, dag =>
    match probe T dag with
    | Except.ok (true, dag1) => Except.ok dag1
    | Except.ok (false, dag1) => firstProbe probe rest dag1
    | Except.error e => Except.error e

/-- The function `flashDecimalColToArrowCol<is_nullable>`. -/
def flashDecimalColToArrowCol (is_nullable : Bool) (dag_column : TiDBColumn)
    (flash_col_untyped : IColumn) (start_index end_index : Nat) (data_type : DataType) :
    EncodeResult TiDBColumn :=
  firstProbe
    (fun T dag => flashDecimalColToArrowColInternal T is_nullable dag flash_col_untyped
      start_index end_index data_type)
    [DecimalKind.Decimal32, DecimalKind.Decimal64, DecimalKind.Decimal128,
      DecimalKind.Decimal256]
    dag_column

/-- The function `flashIntegerColToArrowColInternal<T, is_nullable>`. -/
def flashIntegerColToArrowColInternal (T : NumberKind) (is_nullable : Bool)
    (dag_column : TiDBColumn) (flash_col_untyped : IColumn) (start_index end_index : Nat) :
    EncodeResult (Bool × TiDBColumn) :=
  let nested_col := getNestedCol flash_col_untyped
  match nested_col.checkAndGetVector T with
  | some flash_col =>
    let is_unsigned := T.is_unsigned
    (appendRows
      (fun i => nullOr is_nullable flash_col_untyped i
        ((flash_col[i]?).map fun x =>
          if is_unsigned then Row.u64 (wrapUnsigned 64 x) else Row.i64 (wrapSigned 64 x)))
      dag_column start_index end_index).map fun dag => (true, dag)
  | none => Except.ok (false, dag_column)

/-- The function `flashDoubleColToArrowCol<T, is_nullable>` (`T` is `Float32` or `Float64`). -/
def flashDoubleColToArrowCol (T : NumberKind) (is_nullable : Bool) (dag_column : TiDBColumn)
    (flash_col_untyped : IColumn) (start_index end_index : Nat) : EncodeResult TiDBColumn :=
  let nested_col := getNestedCol flash_col_untyped
  match nested_col.checkAndGetVector T with
  | some flash_col =>
    appendRows
      (fun i => nullOr is_nullable flash_col_untyped i
        ((flash_col[i]?).map fun x => if T = NumberKind.Float32 then Row.f32 x else Row.f64 x))
      dag_column start_index end_index
  | none => Except.error (Failure.exception ErrorCode.UNKNOWN_EXCEPTION, dag_column)

/-- The function `flashIntegerColToArrowCol<is_nullable>`. -/
def flashIntegerColToArrowCol (is_nullable : Bool) (dag_column : TiDBColumn)
    (flash_col_untyped : IColumn) (start_index end_index : Nat) : EncodeResult TiDBColumn :=
  firstProbe
    (fun T dag => flashIntegerColToArrowColInternal T is_nullable dag flash_col_untyped
      start_index end_index)
    [NumberKind.UInt8, NumberKind.UInt16, NumberKind.UInt32, NumberKind.UInt64,
      NumberKind.Int8, NumberKind.Int16, NumberKind.Int32, NumberKind.Int64]
    dag_column

/-- The function `flashDateOrDateTimeColToArrowCol<is_nullable>`; the column pointer of
the cast to `ColumnVector<UInt64>` is not checked before it is used. -/
def flashDateOrDateTimeColToArrowCol (is_nullable : Bool) (dag_column : TiDBColumn)
    (flash_col_untyped : IColumn) (start_index end_index : Nat) (field_type : FieldType) :
    EncodeResult TiDBColumn :=
  let nested_col := getNestedCol flash_col_untyped
  let flash_col := nested_col.checkAndGetVector NumberKind.UInt64
  appendRows
    (fun i => nullOr is_nullable flash_col_untyped i
      (flash_col.bind fun data =>
        (data[i]?).map fun x => Row.time { packed := x, field_type := field_type }))
    dag_column start_index end_index

/-- The function `flashStringColToArrowCol<is_nullable>`; the column pointer of the cast
to `ColumnString` is not checked before it is used. -/
def flashStringColToArrowCol (is_nullable : Bool) (dag_column : TiDBColumn)
    (flash_col_untyped : IColumn) (start_index end_index : Nat) : EncodeResult TiDBColumn :=
  let nested_col := getNestedCol flash_col_untyped
  let flash_col := nested_col.checkAndGetString
  appendRows
    (fun i => nullOr is_nullable flash_col_untyped i
      (flash_col.bind fun data => (data[i]?).map fun s => Row.bytes s))
    dag_column start_index end_index

/-- The function `flashColToArrowCol`. -/
def flashColToArrowCol (dag_column : TiDBColumn) (flash_col : ColumnWithTypeAndName)
    (field_type : FieldType) (start_index end_index : Nat) : EncodeResult TiDBColumn :=
  let col := flash_col.column
  let type := flash_col.type
  let tidb_column_info := fieldTypeToColumnInfo field_type
  if type.isNullable && tidb_column_info.hasNotNullFlag then
    Except.error (Failure.exception ErrorCode.LOGICAL_ERROR, dag_column)
  else
    let type := if type.isNullable then type.getNestedType else type
    match tidb_column_info.tp with
    | .TypeTiny | .TypeShort | .TypeInt24 | .TypeLong | .TypeLongLong | .TypeYear =>
      if !type.isInteger then
        Except.error (Failure.exception ErrorCode.LOGICAL_ERROR, dag_column)
      else if type.isUnsignedInteger != tidb_column_info.hasUnsignedFlag then
        Except.error (Failure.exception ErrorCode.LOGICAL_ERROR, dag_column)
      else if tidb_column_info.hasNotNullFlag then
        flashIntegerColToArrowCol false dag_column col start_index end_index
      else
        flashIntegerColToArrowCol true dag_column col start_index end_index
    | .TypeFloat =>
      if !type.checkNumber NumberKind.Float32 then
        Except.error (Failure.exception ErrorCode.LOGICAL_ERROR, dag_column)
      else if tidb_column_info.hasNotNullFlag then
        flashDoubleColToArrowCol NumberKind.Float32 false dag_column col start_index end_index
      else
        flashDoubleColToArrowCol NumberKind.Float32 true dag_column col start_index end_index
    | .TypeDouble =>
      if !type.checkNumber NumberKind.Float64 then
        Except.error (Failure.exception ErrorCode.LOGICAL_ERROR, dag_column)
      else if tidb_column_info.hasNotNullFlag then
        flashDoubleColToArrowCol NumberKind.Float64 false dag_column col start_index end_index
      else
        flashDoubleColToArrowCol NumberKind.Float64 true dag_column col start_index end_index
    | .TypeDate | .TypeDatetime | .TypeTimestamp =>
      if !type.isDateOrDateTime then
        Except.error (Failure.exception ErrorCode.LOGICAL_ERROR, dag_column)
      else if tidb_column_info.hasNotNullFlag then
        flashDateOrDateTimeColToArrowCol false dag_column col start_index end_index field_type
      else
        flashDateOrDateTimeColToArrowCol true dag_column col start_index end_index field_type
    | .TypeNewDecimal =>
      if !type.isDecimal then
        Except.error (Failure.exception ErrorCode.LOGICAL_ERROR, dag_column)
      else if tidb_column_info.hasNotNullFlag then
        flashDecimalColToArrowCol false dag_column col start_index end_index type
      else
        flashDecimalColToArrowCol true dag_column col start_index end_index type
    | .TypeVarchar | .TypeVarString | .TypeString | .TypeBlob | .TypeLongBlob
    | .TypeMediumBlob | .TypeTinyBlob =>
      if !type.checkString then
        Except.error (Failure.exception ErrorCode.LOGICAL_ERROR, dag_column)
      else if tidb_column_info.hasNotNullFlag then
        flashStringColToArrowCol false dag_column col start_index end_index
      else
        flashStringColToArrowCol true dag_column col start_index end_index
    | _ => Except.error (Failure.exception ErrorCode.NOT_IMPLEMENTED, dag_column)

/-! ## Wire -> engine -/

/-- Byte order of the host the codec runs on. -/
inductive Endian
  | little
  | big
  deriving DecidableEq, Repr

/-- Value of a byte sequence read least significant byte first. -/
def littleEndianValue : List Byte → Nat
  | [] => 0
  | b :: rest => b.val + 256 * littleEndianValue rest

/-- The `n` bytes of `x`, least significant first. -/
def littleEndianBytes : Nat → Nat → List Byte
  | 0, _ => []
  | n + 1, x => ⟨x % 256, Nat.mod_lt x (by decide)⟩ :: littleEndianBytes n (x / 256)

/-- The load `*(reinterpret_cast<const U *>(pos))` of an unsigned `n`-byte integer in the
byte order of the host; `none` when the bytes are not all inside the wire buffer. -/
def loadNative (host : Endian) (buf : List Byte) (pos n : Nat) : Option Nat :=
  if pos + n ≤ buf.length then
    let bytes := (buf.drop pos).take n
    match host with
    | .little => some (littleEndianValue bytes)
    | .big => some (littleEndianValue bytes.reverse)
  else none

/-- Modelled from the spec: `toLittleEndian` (declared in `IO/Endian.h`) on an unsigned
`n`-byte integer: the identity on a little-endian host, a byte swap on a big-endian
host. -/
def toLittleEndian (host : Endian) (n : Nat) (x : Nat) : Nat :=
  match host with
  | .little => x
  | .big => littleEndianValue (littleEndianBytes n x).reverse

/-- The read `toLittleEndian(*(reinterpret_cast<const U *>(pos)))` of an unsigned `n`-byte
integer. -/
def readUnsigned (host : Endian) (buf : List Byte) (pos n : Nat) : Option Nat :=
  (loadNative host buf pos n).map (toLittleEndian host n)

/-- The same read for a signed `n`-byte integer (`Int32`, `Int64`). -/
def readSigned (host : Endian) (buf : List Byte) (pos n : Nat) : Option Int :=
  (readUnsigned host buf pos n).map fun (u : Nat) => wrapSigned (8 * n) (Int.ofNat u)

/-- Modelled from the spec: a value handed to `IColumn::insert` (`Field` and
`DecimalField<T>` are declared outside this file).  `Float64OfFloat32 bits` is the
`Float64` obtained by widening the `Float32` with the bit pattern `bits`. -/
inductive Field
  | Null
  | UInt64 (v : Nat)
  | Int64 (v : Int)
  | Float64 (bits : Nat)
  | Float64OfFloat32 (bits : Nat)
  | String (value : List Byte)
  | Decimal (T : DecimalKind) (value : Int) (scale : Nat)
  deriving DecidableEq, Repr

/-- Modelled from the spec: the engine column on the decode path, a typed append-only
sink: the fields inserted so far (`col.column->assumeMutable()->insert(field)` appends
one) and the declared type `col.type`. -/
structure MutableColumnWithType where
  column : List Field
  type : DataType
  deriving DecidableEq, Repr

/-- The calendar value `MyDateTime(year, month, day, hour, minute, second, micro_second)`. -/
structure MyDateTime where
  year : Nat
  month : Nat
  day : Nat
  hour : Nat
  minute : Nat
  second : Nat
  micro_second : Nat
  deriving DecidableEq, Repr

/-- Modelled from the spec: `MyDateTime::toPackedUInt()` (declared outside this file), the
packed 64-bit calendar integer; the codec treats it as opaque. -/
def MyDateTime.toPackedUInt (mt : MyDateTime) : Nat :=
  let ymd := (((mt.year * 13 + mt.month) <<< 5) ||| mt.day)
  let hms := ((mt.hour <<< 12) ||| (mt.minute <<< 6) ||| mt.second)
  ((((ymd <<< 17) ||| hms) <<< 24) ||| mt.micro_second) % 2 ^ 64

/-- Result of a decoder: the returned cursor and the engine column, or the failure. -/
abbrev DecodeResult := Except Failure (Nat × List Field)

/-- The function `checkNull(i, null_count, null_bitmap, col)`: the returned flag and the
engine column after the call. -/
def checkNull (i null_count : Nat) (null_bitmap : List Byte) (column : List Field) :
    Except Failure (Bool × List Field) :=
  if null_count > 0 then
    let index := i >>> 3
    let p := i &&& 7
    match null_bitmap[index]? with
    | none => Except.error Failure.undefinedBehaviour
    | some b =>
      if (b.val &&& (1 <<< p)) = 0 then Except.ok (true, column ++ [Field.Null])
      else Except.ok (false, column)
  else Except.ok (false, column)

/-- One iteration of the loop of `arrowStringColToFlashCol`. -/
def arrowStringColToFlashColRow (buf : List Byte) (pos null_count : Nat)
    (null_bitmap : List Byte) (offsets : List Nat) (column : List Field) (i : Nat) :
    Except Failure (List Field) :=
  match checkNull i null_count null_bitmap column with
  | Except.error e => Except.error e
  | Except.ok (true, column) => Except.ok column
  | Except.ok (false, column) =>
    match offsets[i]?, offsets[i + 1]? with
    | some first, some last =>
      if first ≤ last ∧ pos + last ≤ buf.length then
        let value := (buf.drop (pos + first)).take (last - first)
        Except.ok (column ++ [Field.String value])
      else Except.error Failure.undefinedBehaviour
    | _, _ => Except.error Failure.undefinedBehaviour

/-- The function `arrowStringColToFlashCol`; `buf` is the memory the cursor `pos` points
into. -/
def arrowStringColToFlashCol (buf : List Byte) (pos : Nat) (_field_length : Nat)
    (null_count : Nat) (null_bitmap : List Byte) (offsets : List Nat)
    (col : MutableColumnWithType) (_col_info : ColumnInfo) (length : Nat) : DecodeResult :=
  match (List.range length).foldlM
      (arrowStringColToFlashColRow buf pos null_count null_bitmap offsets) col.column with
  | Except.error e => Except.error e
  | Except.ok column =>
    match offsets[length]? with
    | some last => Except.ok (pos + last, column)
    | none => Except.error Failure.undefinedBehaviour

/-- The part of the loop body of `arrowDecimalColToFlashCol` after the words are read: the
probe of the four decimal widths; no branch is taken when none matches. -/
def arrowDecimalColToFlashColInsert (decimal_type : DataType) (digits_int digits_frac : Nat)
    (negative : Nat) (word_buf : List Int) (column : List Field) : Except Failure (List Field) :=
  let convert (T : DecimalKind) (scale : Nat) : Except Failure (List Field) :=
    match toCHDecimal T digits_int digits_frac (negative != 0) word_buf with
    | some res => Except.ok (column ++ [Field.Decimal T res scale])
    | none => Except.error Failure.undefinedBehaviour
  match decimal_type.checkDecimal DecimalKind.Decimal32 with
  | some scale => convert DecimalKind.Decimal32 scale
  | none =>
    match decimal_type.checkDecimal DecimalKind.Decimal64 with
    | some scale => convert DecimalKind.Decimal64 scale
    | none =>
      match decimal_type.checkDecimal DecimalKind.Decimal128 with
      | some scale => convert DecimalKind.Decimal128 scale
      | none =>
        match decimal_type.checkDecimal DecimalKind.Decimal256 with
        | some scale => convert DecimalKind.Decimal256 scale
        | none => Except.ok column

/-- One iteration of the loop of `arrowDecimalColToFlashCol`, from the cursor and the
column before it to the cursor and the column after it. -/
def arrowDecimalColToFlashColRow (host : Endian) (buf : List Byte) (field_length null_count : Nat)
    (null_bitmap : List Byte) (col_type : DataType) (state : Nat × List Field) (i : Nat) :
    DecodeResult :=
  match checkNull i null_count null_bitmap state.2 with
  | Except.error e => Except.error e
  | Except.ok (true, column) => Except.ok (state.1 + field_length, column)
  | Except.ok (false, column) =>
    let pos := state.1
    match readUnsigned host buf pos 1, readUnsigned host buf (pos + 1) 1,
        readUnsigned host buf (pos + 3) 1,
        (List.range MAX_WORD_BUF_LEN).mapM (fun j => readSigned host buf (pos + 4 + 4 * j) 4) with
    | some digits_int, some digits_frac, some negative, some word_buf =>
      let decimal_type := if col_type.isNullable then col_type.getNestedType else col_type
      match arrowDecimalColToFlashColInsert decimal_type digits_int digits_frac negative
          word_buf column with
      | Except.ok column => Except.ok (pos + 4 + 4 * MAX_WORD_BUF_LEN, column)
      | Except.error e => Except.error e
    | _, _, _, _ => Except.error Failure.undefinedBehaviour

/-- The function `arrowDecimalColToFlashCol`. -/
def arrowDecimalColToFlashCol (host : Endian) (buf : List Byte) (pos : Nat) (field_length : Nat)
    (null_count : Nat) (null_bitmap : List Byte) (_offsets : List Nat)
    (col : MutableColumnWithType) (_col_info : ColumnInfo) (length : Nat) : DecodeResult :=
  (List.range length).foldlM
    (arrowDecimalColToFlashColRow host buf field_length null_count null_bitmap col.type)
    (pos, col.column)

/-- One iteration of the loop of `arrowDateColToFlashCol`. -/
def arrowDateColToFlashColRow (host : Endian) (buf : List Byte) (field_length null_count : Nat)
    (null_bitmap : List Byte) (state : Nat × List Field) (i : Nat) : DecodeResult :=
  match checkNull i null_count null_bitmap state.2 with
  | Except.error e => Except.error e
  | Except.ok (true, column) => Except.ok (state.1 + field_length, column)
  | Except.ok (false, column) =>
    let pos := state.1
    match readUnsigned host buf pos 4, readUnsigned host buf (pos + 4) 4,
        readUnsigned host buf (pos + 8) 2, readUnsigned host buf (pos + 10) 1,
        readUnsigned host buf (pos + 11) 1, readUnsigned host buf (pos + 12) 1,
        readUnsigned host buf (pos + 13) 1 with
    | some hour, some micro_second, some year, some month, some day, some minute, some second =>
      let mt : MyDateTime :=
        { year := year, month := month, day := day, hour := hour, minute := minute,
          second := second, micro_second := micro_second }
      Except.ok (pos + 20, column ++ [Field.UInt64 mt.toPackedUInt])
    | _, _, _, _, _, _, _ => Except.error Failure.undefinedBehaviour

/-- The function `arrowDateColToFlashCol`. -/
def arrowDateColToFlashCol (host : Endian) (buf : List Byte) (pos : Nat) (field_length : Nat)
    (null_count : Nat) (null_bitmap : List Byte) (_offsets : List Nat)
    (col : MutableColumnWithType) (_col_info : ColumnInfo) (length : Nat) : DecodeResult :=
  (List.range length).foldlM
    (arrowDateColToFlashColRow host buf field_length null_count null_bitmap)
    (pos, col.column)

/-- The `switch (col_info.tp)` of `arrowNumColToFlashCol` for a row that is not null: the
engine column after the insertion. -/
def arrowNumColToFlashColInsert (host : Endian) (buf : List Byte) (pos : Nat)
    (col_info : ColumnInfo) (column : List Field) : Except Failure (List Field) :=
  match col_info.tp with
  | .TypeTiny | .TypeShort | .TypeInt24 | .TypeLong | .TypeLongLong | .TypeYear =>
    if col_info.flag &&& ColumnFlagUnsigned ≠ 0 then
      match readUnsigned host buf pos 8 with
      | some u64 => Except.ok (column ++ [Field.UInt64 u64])
      | none => Except.error Failure.undefinedBehaviour
    else
      match readSigned host buf pos 8 with
      | some i64 => Except.ok (column ++ [Field.Int64 i64])
      | none => Except.error Failure.undefinedBehaviour
  | .TypeFloat =>
    match readUnsigned host buf pos 4 with
    | some u32 => Except.ok (column ++ [Field.Float64OfFloat32 u32])
    | none => Except.error Failure.undefinedBehaviour
  | .TypeDouble =>
    match readUnsigned host buf pos 8 with
    | some u64 => Except.ok (column ++ [Field.Float64 u64])
    | none => Except.error Failure.undefinedBehaviour
  | _ => Except.error (Failure.exception ErrorCode.LOGICAL_ERROR)

/-- One iteration of the loop of `arrowNumColToFlashCol`, the increment
`i++, pos += field_length` included. -/
def arrowNumColToFlashColRow (host : Endian) (buf : List Byte) (field_length null_count : Nat)
    (null_bitmap : List Byte) (col_info : ColumnInfo) (state : Nat × List Field) (i : Nat) :
    DecodeResult :=
  match checkNull i null_count null_bitmap state.2 with
  | Except.error e => Except.error e
  | Except.ok (true, column) => Except.ok (state.1 + field_length, column)
  | Except.ok (false, column) =>
    match arrowNumColToFlashColInsert host buf state.1 col_info column with
    | Except.ok column => Except.ok (state.1 + field_length, column)
    | Except.error e => Except.error e

/-- The function `arrowNumColToFlashCol`. -/
def arrowNumColToFlashCol (host : Endian) (buf : List Byte) (pos : Nat) (field_length : Nat)
    (null_count : Nat) (null_bitmap : List Byte) (_offsets : List Nat)
    (col : MutableColumnWithType) (col_info : ColumnInfo) (length : Nat) : DecodeResult :=
  (List.range length).foldlM
    (arrowNumColToFlashColRow host buf field_length null_count null_bitmap col_info)
    (pos, col.column)

/-- The function `arrowColToFlashCol`. -/
def arrowColToFlashCol (host : Endian) (buf : List Byte) (pos : Nat) (field_length : Nat)
    (null_count : Nat) (null_bitmap : List Byte) (offsets : List Nat)
    (flash_col : MutableColumnWithType) (col_info : ColumnInfo) (length : Nat) : DecodeResult :=
  match col_info.tp with
  | .TypeTiny | .TypeShort | .TypeInt24 | .TypeLong | .TypeLongLong | .TypeYear
  | .TypeFloat | .TypeDouble =>
    arrowNumColToFlashCol host buf pos field_length null_count null_bitmap offsets flash_col
      col_info length
  | .TypeDatetime | .TypeDate | .TypeTimestamp =>
    arrowDateColToFlashCol host buf pos field_length null_count null_bitmap offsets flash_col
      col_info length
  | .TypeNewDecimal =>
    arrowDecimalColToFlashCol host buf pos field_length null_count null_bitmap offsets flash_col
      col_info length
  | .TypeVarString | .TypeVarchar | .TypeBlob | .TypeString | .TypeTinyBlob | .TypeMediumBlob
  | .TypeLongBlob =>
    arrowStringColToFlashCol buf pos field_length null_count null_bitmap offsets flash_col
      col_info length
  | _ => Except.error (Failure.exception ErrorCode.UNSPECIFIED)

/-- Equality of outcomes is decidable. -/
instance instDecidableEqExcept {ε α : Type} [DecidableEq ε] [DecidableEq α] :
    DecidableEq (Except ε α)
  | .ok a, .ok b =>
    if h : a = b then isTrue (by rw [h]) else isFalse (fun h2 => h (Except.ok.inj h2))
  | .error a, .error b =>
    if h : a = b then isTrue (by rw [h]) else isFalse (fun h2 => h (Except.error.inj h2))
  | .ok _, .error _ => isFalse (fun h => Except.noConfusion h)
  | .error _, .ok _ => isFalse (fun h => Except.noConfusion h)

/-! ## Specification of the decoded decimal value -/

/-- The high part `H` of a wire decimal: the sum over `k < n` of
`w[k] * (10^9)^(n - 1 - k)`. -/
def wordSum (w : List Int) (n : Nat) : Int :=
  ∑ k ∈ Finset.range n, w.getD k 0 * (10 ^ 9) ^ (n - 1 - k)

/-- The magnitude `V` for given word counts `wi`, `wf` and tail digit count `t`:
`H` when `t = 0`, and `H * 10^t + floor(w[wi + wf] / 10^(9 - t))` when `t > 0`. -/
def magnitudeOf (w : List Int) (wi wf t : Nat) : Int :=
  if t = 0 then wordSum w (wi + wf)
  else wordSum w (wi + wf) * 10 ^ t + w.getD (wi + wf) 0 / 10 ^ (9 - t)

/-- The magnitude `V` a wire decimal stands for, with `wi = ceil(digits_int / 9)`,
`wf = floor(digits_frac / 9)` and `t = digits_frac mod 9`. -/
def decodedMagnitude (digits_int digits_frac : Nat) (w : List Int) : Int :=
  magnitudeOf w ((digits_int + 8) / 9) (digits_frac / 9) (digits_frac % 9)

/-- The number a digit sequence stands for, least significant digit first: the sum of
`d[i] * 10^i`. -/
def digitSum (d : List Int) : Int :=
  ∑ i ∈ Finset.range d.length, d.getD i 0 * 10 ^ i


/-! ## The wire decimal record built by the encoder

The constructor of `TiDBDecimal` and the serialisation of the wire column are outside
this file; the record they produce is modelled from the description of the wire
format. -/

/-- Value of a digit sequence written most significant digit first, in base `base`. -/
def hornerValue (base : Int) (ds : List Int) : Int :=
  ds.foldl (fun acc d => acc * base + d) 0

/-- Modelled from the spec: the nine base-10^9 words of the wire decimal laid out from
the digit sequence `digits` (least significant first) at scale `scale`.  The digits
above the scale are the integer part, right-aligned in `ceil(digits_int / 9)` words;
the lowest `scale` digits are the fraction, which follows in full words with the
trailing digits left-aligned in their word; all other digit positions are zero.  Every
word is the value of its nine decimal digits. -/
def wireDecimalWords (digits : List Int) (scale : Nat) : List Int :=
  let int_digits := (digits.drop scale).reverse
  let frac_digits := (digits.take scale).reverse
  let word_int := (int_digits.length + 8) / 9
  let positions := List.replicate (9 * word_int - int_digits.length) 0 ++ int_digits
    ++ frac_digits ++ List.replicate 81 0
  (List.range MAX_WORD_BUF_LEN).map fun k => hornerValue 10 ((positions.drop (9 * k)).take 9)

/-- The byte with value `n mod 256`. -/
def toByte (n : Nat) : Byte := ⟨n % 256, Nat.mod_lt n (by decide)⟩

/-- The words of a wire decimal as bytes: four little-endian bytes for each `Int32`. -/
def wireDecimalWordBytes : List Int → List Byte
  | [] => []
  | w :: rest => littleEndianBytes 4 (wrapUnsigned 32 w) ++ wireDecimalWordBytes rest

/-- Modelled from the spec: the 40 bytes of the wire decimal record for a digit sequence
and a sign: the header bytes `digits_int = digits.len - scale`, `digits_frac = scale`,
`result_frac` (reserved) and `negative`, then the nine words. -/
def wireDecimalRecord (digits : List Int) (scale : Nat) (negative : Bool) (result_frac : Byte) :
    List Byte :=
  [toByte (digits.length - scale), toByte scale, result_frac, toByte (if negative then 1 else 0)]
    ++ wireDecimalWordBytes (wireDecimalWords digits scale)

/-! ## Well-formed engine columns and the compatibility matrix -/

/-- The value `x` is a value of the element type `T` (a bit pattern for a float type). -/
def NumberKind.inRange (T : NumberKind) (x : Int) : Bool :=
  if T.is_integral && !T.is_unsigned then
    decide (-(2 : Int) ^ (T.bits - 1) ≤ x ∧ x < (2 : Int) ^ (T.bits - 1))
  else decide (0 ≤ x ∧ x < (2 : Int) ^ T.bits)

/-- The number of rows of a column (`IColumn::size()`). -/
def IColumn.size : IColumn → Nat
  | .Vector _ data => data.length
  | .Decimal _ data => data.length
  | .String data => data.length
  | .Nullable nested _ => nested.size

/-- The container `col` is the container of the element type `t`, neither being
nullable: `ColumnVector<T>` with elements of `T` for `DataTypeNumber<T>`,
`ColumnVector<UInt64>` for the packed date-time types, `ColumnDecimal<T>` for
`DataTypeDecimal<T>`, `ColumnString` for `DataTypeString`. -/
def IColumn.matchesElementType : IColumn → DataType → Bool
  | .Vector T data, .Number U => decide (T = U) && data.all T.inRange
  | .Vector T data, .MyDate => decide (T = NumberKind.UInt64) && data.all T.inRange
  | .Vector T data, .MyDateTime _ => decide (T = NumberKind.UInt64) && data.all T.inRange
  | .Decimal T _, .Decimal U _ _ => decide (T = U)
  | .String _, .String => true
  | _, _ => false

/-- The container of an engine column matches its declared type: a nullable type has a
`ColumnNullable` whose null map has one entry per row and whose nested column matches
the nested type; any other type has the matching plain container. -/
def ColumnWithTypeAndName.wellFormed (c : ColumnWithTypeAndName) : Bool :=
  match c.column, c.type with
  | .Nullable nested null_map, .Nullable t =>
    nested.matchesElementType t && decide (null_map.length = nested.size)
  | col, t => col.matchesElementType t

/-- The integer family of wire types. -/
def TP.isIntegerFamily : TP → Bool
  | .TypeTiny | .TypeShort | .TypeInt24 | .TypeLong | .TypeLongLong | .TypeYear => true
  | _ => false

/-- The time family of wire types. -/
def TP.isTimeFamily : TP → Bool
  | .TypeDate | .TypeDatetime | .TypeTimestamp => true
  | _ => false

/-- The byte-string family of wire types. -/
def TP.isStringFamily : TP → Bool
  | .TypeVarchar | .TypeVarString | .TypeString | .TypeBlob | .TypeTinyBlob | .TypeMediumBlob
  | .TypeLongBlob => true
  | _ => false

/-- The supported closed set of wire types. -/
def TP.isSupported (tp : TP) : Bool :=
  tp.isIntegerFamily || tp == TP.TypeFloat || tp == TP.TypeDouble || tp.isTimeFamily
    || tp == TP.TypeNewDecimal || tp.isStringFamily

/-- The incompatible pairs of an engine type and a wire field, as the compatibility
matrix lists them; `stripped` is the engine type without its nullable wrapper. -/
def incompatible (type : DataType) (field_type : FieldType) : Prop :=
  let stripped := type.getNestedType
  let info := fieldTypeToColumnInfo field_type
  (type.isNullable = true ∧ info.hasNotNullFlag = true)
  ∨ (field_type.tp.isIntegerFamily = true
      ∧ (stripped.isInteger = false ∨ stripped.isUnsignedInteger ≠ info.hasUnsignedFlag))
  ∨ (field_type.tp = TP.TypeFloat ∧ stripped ≠ DataType.Number NumberKind.Float32)
  ∨ (field_type.tp = TP.TypeDouble ∧ stripped ≠ DataType.Number NumberKind.Float64)
  ∨ (field_type.tp.isTimeFamily = true ∧ stripped.isDateOrDateTime = false)
  ∨ (field_type.tp = TP.TypeNewDecimal ∧ stripped.isDecimal = false)
  ∨ (field_type.tp.isStringFamily = true ∧ stripped ≠ DataType.String)
  ∨ field_type.tp.isSupported = false

/-- The incompatibility of a pair is decidable. -/
instance instDecidableIncompatible (type : DataType) (field_type : FieldType) :
    Decidable (incompatible type field_type) := by
  unfold incompatible
  infer_instance

/-- The converted value of the engine row `i` that is not null: a 64-bit integer equal to
the element, unsigned for an unsigned element type and signed otherwise; the float; the
wire time of the packed date-time; the wire decimal with the scale of the type, the
digits of the value and its sign; the bytes of the string.  `none` when the column has
no row `i`. -/
def convertedValue (c : ColumnWithTypeAndName) (field_type : FieldType) (i : Nat) : Option Row :=
  match c.type.getNestedType, getNestedCol c.column with
  | .Number T, .Vector _ data =>
    (data[i]?).map fun x =>
      if T.is_integral then (if T.is_unsigned then Row.u64 x.toNat else Row.i64 x)
      else if T = NumberKind.Float32 then Row.f32 x else Row.f64 x
  | .MyDate, .Vector _ data =>
    (data[i]?).map fun x => Row.time { packed := x, field_type := field_type }
  | .MyDateTime _, .Vector _ data =>
    (data[i]?).map fun x => Row.time { packed := x, field_type := field_type }
  | .Decimal _ _ scale, .Decimal _ data =>
    (data[i]?).map fun x =>
      Row.decimal { scale := scale, digits := decimalToVector x [] scale, negative := decide (x < 0) }
  | .String, .String data => (data[i]?).map fun s => Row.bytes s
  | _, _ => none

/-- The wire row for the engine row `i`: a null for a null row, the converted value
otherwise. -/
def encodedRow (c : ColumnWithTypeAndName) (field_type : FieldType) (i : Nat) : Option Row :=
  (c.column.isNullAt i).bind fun is_null =>
    if is_null then some Row.null else convertedValue c field_type i

/-- The families of wire types the dispatcher distinguishes in its `switch`. -/
inductive WireFamily
  | integer
  | float
  | double
  | time
  | decimal
  | string
  | unsupported
  deriving DecidableEq, Repr

/-- The `case` group of the dispatcher a wire type falls in. -/
def TP.family : TP → WireFamily
  | .TypeTiny | .TypeShort | .TypeInt24 | .TypeLong | .TypeLongLong | .TypeYear =>
    WireFamily.integer
  | .TypeFloat => WireFamily.float
  | .TypeDouble => WireFamily.double
  | .TypeDate | .TypeDatetime | .TypeTimestamp => WireFamily.time
  | .TypeNewDecimal => WireFamily.decimal
  | .TypeVarchar | .TypeVarString | .TypeString | .TypeBlob | .TypeLongBlob | .TypeMediumBlob
  | .TypeTinyBlob => WireFamily.string
  | _ => WireFamily.unsupported

/-- The body of the `case` group `fam` of `flashColToArrowCol`. -/
def dispatchFamily (fam : WireFamily) (dag_column : TiDBColumn) (col : IColumn)
    (type : DataType) (tidb_column_info : ColumnInfo) (field_type : FieldType)
    (start_index end_index : Nat) : EncodeResult TiDBColumn :=
  match fam with
  | .integer =>
    if !type.isInteger then
      Except.error (Failure.exception ErrorCode.LOGICAL_ERROR, dag_column)
    else if type.isUnsignedInteger != tidb_column_info.hasUnsignedFlag then
      Except.error (Failure.exception ErrorCode.LOGICAL_ERROR, dag_column)
    else if tidb_column_info.hasNotNullFlag then
      flashIntegerColToArrowCol false dag_column col start_index end_index
    else
      flashIntegerColToArrowCol true dag_column col start_index end_index
  | .float =>
    if !type.checkNumber NumberKind.Float32 then
      Except.error (Failure.exception ErrorCode.LOGICAL_ERROR, dag_column)
    else if tidb_column_info.hasNotNullFlag then
      flashDoubleColToArrowCol NumberKind.Float32 false dag_column col start_index end_index
    else
      flashDoubleColToArrowCol NumberKind.Float32 true dag_column col start_index end_index
  | .double =>
    if !type.checkNumber NumberKind.Float64 then
      Except.error (Failure.exception ErrorCode.LOGICAL_ERROR, dag_column)
    else if tidb_column_info.hasNotNullFlag then
      flashDoubleColToArrowCol NumberKind.Float64 false dag_column col start_index end_index
    else
      flashDoubleColToArrowCol NumberKind.Float64 true dag_column col start_index end_index
  | .time =>
    if !type.isDateOrDateTime then
      Except.error (Failure.exception ErrorCode.LOGICAL_ERROR, dag_column)
    else if tidb_column_info.hasNotNullFlag then
      flashDateOrDateTimeColToArrowCol false dag_column col start_index end_index field_type
    else
      flashDateOrDateTimeColToArrowCol true dag_column col start_index end_index field_type
  | .decimal =>
    if !type.isDecimal then
      Except.error (Failure.exception ErrorCode.LOGICAL_ERROR, dag_column)
    else if tidb_column_info.hasNotNullFlag then
      flashDecimalColToArrowCol false dag_column col start_index end_index type
    else
      flashDecimalColToArrowCol true dag_column col start_index end_index type
  | .string =>
    if !type.checkString then
      Except.error (Failure.exception ErrorCode.LOGICAL_ERROR, dag_column)
    else if tidb_column_info.hasNotNullFlag then
      flashStringColToArrowCol false dag_column col start_index end_index
    else
      flashStringColToArrowCol true dag_column col start_index end_index
  | .unsupported => Except.error (Failure.exception ErrorCode.NOT_IMPLEMENTED, dag_column)

/-! ## Specification of the fixed-width decoders -/

/-- Row `i` is null on the wire: the column has nulls and bit `i & 7` of `bitmap[i >> 3]`
is clear. -/
def rowIsNull (null_count : Nat) (null_bitmap : List Byte) (i : Nat) : Bool :=
  decide (null_count > 0) && !((null_bitmap.getD (i / 8) 0).val.testBit (i % 8))

/-- The value of the `n` bytes `b_0 .. b_(n-1)` at `pos` read little-endian: the sum of
`b_j * 256^j`. -/
def littleEndianAt (buf : List Byte) (pos n : Nat) : Nat :=
  ∑ j ∈ Finset.range n, (buf.getD (pos + j) 0).val * 256 ^ j

/-- The two's-complement reading of an unsigned 64-bit pattern. -/
def twosComplement64 (v : Nat) : Int :=
  if v < 2 ^ 63 then (v : Int) else (v : Int) - 2 ^ 64

/-- The field the integer decoder inserts for row `i`: a null for a null row, else the 8
bytes at `pos + i * field_length` read little-endian, unsigned with the `UNSIGNED` flag
and two's-complement signed without it. -/
def decodedIntegerField (buf : List Byte) (pos field_length null_count : Nat)
    (null_bitmap : List Byte) (col_info : ColumnInfo) (i : Nat) : Field :=
  if rowIsNull null_count null_bitmap i then Field.Null
  else if col_info.hasUnsignedFlag then
    Field.UInt64 (littleEndianAt buf (pos + i * field_length) 8)
  else Field.Int64 (twosComplement64 (littleEndianAt buf (pos + i * field_length) 8))

/-! ## The wire decimal of a value, the digit count -/

/-- The wire decimal `TiDBDecimal(scale, digits, dec.value < 0)` that the loop body of
`flashDecimalColToArrowColInternal` builds for the value `v` of a column of scale `S`. -/
def encodeDecimal (v : Int) (S : Nat) : TiDBDecimal :=
  { scale := S, digits := decimalToVector v [] S, negative := decide (v < 0) }

/-- The number of decimal digits of `n`: 0 for `n = 0`, and the `d` with
`10^(d-1) <= n < 10^d` otherwise. -/
def decimalDigitCount (n : Nat) : Nat :=
  if n = 0 then 0 else Nat.log 10 n + 1

/-! ## Specification of the date-time, decimal and bytes decoders -/

/-- The field the date-time decoder inserts for the 20-byte record at `p`: the packed
value of `MyDateTime(year, month, day, hour, minute, second, micro_second)` with the hour
the little-endian `u32` at offset 0, the microsecond the little-endian `u32` at offset 4,
the year the little-endian `u16` at offset 8, and month, day, minute, second the bytes at
offsets 10, 11, 12, 13. -/
def decodedDateField (buf : List Byte) (p : Nat) : Field :=
  Field.UInt64 (MyDateTime.toPackedUInt
    { year := littleEndianAt buf (p + 8) 2,
      month := (buf.getD (p + 10) 0).val,
      day := (buf.getD (p + 11) 0).val,
      hour := littleEndianAt buf p 4,
      minute := (buf.getD (p + 12) 0).val,
      second := (buf.getD (p + 13) 0).val,
      micro_second := littleEndianAt buf (p + 4) 4 })

/-- The field the bytes decoder inserts for row `i`: a null for a null row, else the byte
string `pos[offsets[i] .. offsets[i+1])`. -/
def decodedStringField (buf : List Byte) (pos null_count : Nat) (null_bitmap : List Byte)
    (offsets : List Nat) (i : Nat) : Field :=
  if rowIsNull null_count null_bitmap i then Field.Null
  else Field.String ((buf.drop (pos + offsets.getD i 0)).take
    (offsets.getD (i + 1) 0 - offsets.getD i 0))

/-- The number of rows among the first `length` that are null on the wire. -/
def nullRows (null_count : Nat) (null_bitmap : List Byte) (length : Nat) : Nat :=
  (List.range length).countP (fun i => rowIsNull null_count null_bitmap i)

/-- The number of rows among the first `length` that are not null on the wire. -/
def nonNullRows (null_count : Nat) (null_bitmap : List Byte) (length : Nat) : Nat :=
  (List.range length).countP (fun i => !rowIsNull null_count null_bitmap i)

/-! ## The integer wire column as bytes

The serialisation of the wire column (`TiDBColumn::append`, `appendNull`) is outside this
file; it is modelled from the description of the wire format. -/

/-- Modelled from the spec: the 8-byte slot of a row of an integer wire column: the
little-endian bytes of the value, in two's complement for a signed value; the slot of a
null row is present and holds zeros. -/
def wireIntegerSlot : Row → List Byte
  | .u64 v => littleEndianBytes 8 v
  | .i64 v => littleEndianBytes 8 (wrapUnsigned 64 v)
  | _ => List.replicate 8 0

/-- Modelled from the spec: the data bytes of an integer wire column, one 8-byte slot for
each row in row order. -/
def wireIntegerData : List Row → List Byte
  | [] => []
  | r :: rest => wireIntegerSlot r ++ wireIntegerData rest

/-- The number with the given bits, least significant first. -/
def bitsValue : List Bool → Nat
  | [] => 0
  | b :: rest => (if b then 1 else 0) + 2 * bitsValue rest

/-- Modelled from the spec: the null bitmap of a wire column: bit `i & 7` of byte `i >> 3`
is set exactly when row `i` is present. -/
def wireNullBitmap (rows : List Row) : List Byte :=
  (List.range ((rows.length + 7) / 8)).map fun j =>
    toByte (bitsValue (((rows.drop (8 * j)).take 8).map fun r => decide (r ≠ Row.null)))

/-- Modelled from the spec: the `null_count` of a wire column, the number of its null
rows. -/
def wireNullCount (rows : List Row) : Nat :=
  rows.countP fun r => decide (r = Row.null)

/-- The field that stands for a wire row of an integer column: the null, the unsigned or
the signed 64-bit value. -/
def rowField : Row → Field
  | .u64 v => Field.UInt64 v
  | .i64 v => Field.Int64 v
  | _ => Field.Null

/-- The engine row `i` of an integer column as a field: a null for a null row, else the
element as an unsigned 64-bit value for an unsigned element type and as a signed 64-bit
value otherwise. -/
def engineIntegerField (c : ColumnWithTypeAndName) (i : Nat) : Field :=
  match c.column.isNullAt i with
  | some true => Field.Null
  | _ =>
    match getNestedCol c.column with
    | .Vector T data =>
      if T.is_unsigned then Field.UInt64 (data.getD i 0).toNat else Field.Int64 (data.getD i 0)
    | _ => Field.Null

/-! ## The reads of the word buffer -/

/-- The indices at which `toCHDecimal` subscripts `word_buf`, in the order of the reads:
`word_buf[i]` for `i < word_int`, `word_buf[i + word_int]` for `i < word_frac`, and
`word_buf[word_int + word_frac]` when `tailing_digit > 0`. -/
def toCHDecimalReads (digits_int digits_frac : Nat) : List Nat :=
  let word_int : Nat := ((digits_int + DIGITS_PER_WORD - 1) / DIGITS_PER_WORD) % 256
  let word_frac : Nat := (digits_frac / DIGITS_PER_WORD) % 256
  let tailing_digit : Nat := (digits_frac % DIGITS_PER_WORD) % 256
  (List.range word_int).map (fun i => i + 0)
    ++ (List.range word_frac).map (fun i => i + word_int)
    ++ (if tailing_digit > 0 then [word_int + word_frac] else [])

/-- The number of 9-digit words that hold `digits` decimal digits, `ceil(digits / 9)`. -/
def wordsFor (digits : Nat) : Nat :=
  (digits + 8) / 9

/-! ## The dispatch of the decoder -/

/-- The four leaf decoders that `arrowColToFlashCol` can call. -/
inductive Decoder
  | Num
  | Date
  | Decimal
  | String
  deriving DecidableEq, Repr

/-- The callee selected by the `switch (col_info.tp)` of `arrowColToFlashCol`, label by
label; `none` stands for the `default` label, which throws without calling a decoder. -/
def arrowColToFlashColCallee : TP → Option Decoder
  | .TypeTiny | .TypeShort | .TypeInt24 | .TypeLong | .TypeLongLong | .TypeYear
  | .TypeFloat | .TypeDouble => some Decoder.Num
  | .TypeDatetime | .TypeDate | .TypeTimestamp => some Decoder.Date
  | .TypeNewDecimal => some Decoder.Decimal
  | .TypeVarString | .TypeVarchar | .TypeBlob | .TypeString | .TypeTinyBlob | .TypeMediumBlob
  | .TypeLongBlob => some Decoder.String
  | _ => none

/-- The wire types named by the `case` labels of the `switch (col_info.tp)` inside
`arrowNumColToFlashCol`: `TINY`, `SHORT`, `INT24`, `LONG`, `LONGLONG`, `YEAR`, `FLOAT`,
`DOUBLE`; every other type falls to the `default` label. -/
def TP.isPrimitive : TP → Bool
  | .TypeTiny | .TypeShort | .TypeInt24 | .TypeLong | .TypeLongLong | .TypeYear
  | .TypeFloat | .TypeDouble => true
  | _ => false
/-! # Properties

## Machine arithmetic and the decimal helpers -/

theorem wrapSigned_eq_self (bits : Nat) (hb : 0 < bits) (x : Int)
    (h1 : -(2 : Int) ^ (bits - 1) ≤ x) (h2 : x < (2 : Int) ^ (bits - 1)) :
    wrapSigned bits x = x := by
  obtain ⟨k, rfl⟩ : ∃ k, bits = k + 1 := ⟨bits - 1, by omega⟩
  simp only [Nat.add_sub_cancel] at h1 h2
  have hp : (0 : Int) < 2 ^ k := by positivity
  have hpow : ((2 ^ (k + 1) : Nat) : Int) = 2 * 2 ^ k := by
    push_cast
    ring
  unfold wrapSigned
  rw [Int.bmod_def, hpow]
  have hhalf : (2 * (2 : Int) ^ k + 1) / 2 = 2 ^ k := by omega
  rw [hhalf]
  by_cases hx : 0 ≤ x
  · have hm : x % (2 * 2 ^ k) = x := Int.emod_eq_of_lt hx (by omega)
    rw [hm, if_pos h2]
  · have hm : x % (2 * 2 ^ k) = x + 2 * 2 ^ k := by
      have := Int.add_mul_emod_self_left x (2 * 2 ^ k) 1
      rw [mul_one] at this
      rw [← this]
      exact Int.emod_eq_of_lt (by omega) (by omega)
    rw [hm, if_neg (by omega)]
    omega

theorem wordSum_zero (w : List Int) : wordSum w 0 = 0 := by
  simp [wordSum]

theorem wordSum_succ (w : List Int) (n : Nat) :
    wordSum w (n + 1) = wordSum w n * 10 ^ 9 + w.getD n 0 := by
  unfold wordSum
  rw [Finset.sum_range_succ, Finset.sum_mul]
  congr 1
  · apply Finset.sum_congr rfl
    intro k hk
    have hk2 : k < n := Finset.mem_range.mp hk
    have he : n + 1 - 1 - k = (n - 1 - k) + 1 := by omega
    rw [he, pow_succ]
    ring
  · simp

theorem getD_nonneg (w : List Int) (hw : ∀ x ∈ w, 0 ≤ x) (k : Nat) : 0 ≤ w.getD k 0 := by
  by_cases hk : k < w.length
  · rw [List.getD_eq_getElem w 0 hk]
    exact hw _ (List.getElem_mem hk)
  · rw [List.getD_eq_default w 0 (by omega)]

theorem wordSum_nonneg (w : List Int) (hw : ∀ x ∈ w, 0 ≤ x) (n : Nat) : 0 ≤ wordSum w n := by
  induction n with
  | zero => rw [wordSum_zero]
  | succ n ih =>
    rw [wordSum_succ]
    have := getD_nonneg w hw n
    positivity

theorem wordSum_le_succ (w : List Int) (hw : ∀ x ∈ w, 0 ≤ x) (n : Nat) :
    wordSum w n ≤ wordSum w (n + 1) := by
  rw [wordSum_succ]
  have h1 := getD_nonneg w hw n
  have h2 := wordSum_nonneg w hw n
  nlinarith

theorem foldlM_words (bits : Nat) (hb : 0 < bits) (w : List Int) (hw : ∀ x ∈ w, 0 ≤ x)
    (m n : Nat) (hlen : m + n ≤ w.length)
    (hbound : wordSum w (m + n) < (2 : Int) ^ (bits - 1)) :
    (List.range n).foldlM
        (fun value i => (w[i + m]?).map (fun x => wrapSigned bits (value * word_max + x)))
        (wordSum w m) = some (wordSum w (m + n)) := by
  induction n with
  | zero => simp
  | succ n ih =>
    have hle := wordSum_le_succ w hw (m + n)
    have hnn := wordSum_nonneg w hw (m + n + 1)
    rw [List.range_succ, List.foldlM_append, ih (by omega) (lt_of_le_of_lt hle hbound)]
    have hget : w[n + m]? = some (w.getD (m + n) 0) := by
      rw [List.getD_eq_getElem w 0 (by omega), List.getElem?_eq_getElem (by omega)]
      simp [Nat.add_comm]
    simp only [List.foldlM_cons, List.foldlM_nil, hget, Option.map_some', Option.some_bind,
      Option.bind_eq_bind, bind_pure, Option.bind_some]
    have hs : wordSum w (m + n) * word_max + w.getD (m + n) 0 = wordSum w (m + (n + 1)) := by
      rw [← Nat.add_assoc, wordSum_succ]
      rfl
    rw [hs, wrapSigned_eq_self bits hb _ (by
      have : (0 : Int) < 2 ^ (bits - 1) := by positivity
      rw [← Nat.add_assoc]
      omega) hbound]

theorem int_div_pow_succ (n : Nat) (k : Nat) :
    (n : Int) / 10 ^ k / 10 = (n : Int) / 10 ^ (k + 1) := by
  have h1 : (n : Int) / 10 ^ k = ((n / 10 ^ k : Nat) : Int) := by
    rw [Int.natCast_div, Nat.cast_pow]
    rfl
  have h2 : (n : Int) / 10 ^ (k + 1) = ((n / 10 ^ (k + 1) : Nat) : Int) := by
    rw [Int.natCast_div, Nat.cast_pow]
    rfl
  have h3 : n / 10 ^ (k + 1) = n / 10 ^ k / 10 := by
    rw [Nat.div_div_eq_div_mul, pow_succ]
  rw [h1, h2, h3, Int.natCast_div]
  rfl

theorem foldl_tail_div (tail : Int) (h0 : 0 ≤ tail) (h1 : tail < 2 ^ 31) (k : Nat) :
    (List.range k).foldl (fun tail _ => wrapSigned 32 (Int.tdiv tail 10)) tail
      = tail / 10 ^ k := by
  induction k with
  | zero => simp
  | succ k ih =>
    rw [List.range_succ, List.foldl_append, ih]
    simp only [List.foldl_cons, List.foldl_nil]
    have hq0 : 0 ≤ tail / 10 ^ k := Int.ediv_nonneg h0 (by positivity)
    have hq1 : tail / 10 ^ k ≤ tail := Int.ediv_le_self _ h0
    have key : tail / 10 ^ k / 10 = tail / 10 ^ (k + 1) := by
      obtain ⟨n, hn⟩ := Int.eq_ofNat_of_zero_le h0
      rw [hn]
      exact int_div_pow_succ n k
    rw [Int.tdiv_eq_ediv hq0 (by norm_num), key]
    have hr0 : 0 ≤ tail / 10 ^ (k + 1) := Int.ediv_nonneg h0 (by positivity)
    have hr1 : tail / 10 ^ (k + 1) ≤ tail := Int.ediv_le_self _ h0
    exact wrapSigned_eq_self 32 (by decide) _ (by norm_num; omega) (by norm_num; omega)

theorem foldl_times_ten (bits : Nat) (hb : 0 < bits) (value : Int) (h0 : 0 ≤ value) (t : Nat)
    (h1 : value * 10 ^ t < (2 : Int) ^ (bits - 1)) :
    (List.range t).foldl (fun value _ => wrapSigned bits (value * 10)) value
      = value * 10 ^ t := by
  induction t with
  | zero => simp
  | succ t ih =>
    have hstep : value * 10 ^ t ≤ value * 10 ^ (t + 1) := by
      rw [pow_succ]
      have : 0 ≤ value * 10 ^ t := by positivity
      nlinarith
    rw [List.range_succ, List.foldl_append, ih (lt_of_le_of_lt hstep h1)]
    simp only [List.foldl_cons, List.foldl_nil]
    have hp : (0 : Int) < 2 ^ (bits - 1) := by positivity
    have he : value * 10 ^ t * 10 = value * 10 ^ (t + 1) := by ring
    rw [he]
    have hnn : 0 ≤ value * 10 ^ (t + 1) := by positivity
    exact wrapSigned_eq_self bits hb _ (by omega) h1


theorem wordSum_mono (w : List Int) (hw : ∀ x ∈ w, 0 ≤ x) (m n : Nat) (h : m ≤ n) :
    wordSum w m ≤ wordSum w n := by
  induction n with
  | zero =>
    have : m = 0 := by omega
    rw [this]
  | succ n ih =>
    by_cases hm : m = n + 1
    · rw [hm]
    · exact le_trans (ih (by omega)) (wordSum_le_succ w hw n)

theorem toCHDecimal_core (bits : Nat) (hb : 0 < bits) (w : List Int) (wi wf t : Nat)
    (negative : Bool) (hlen : w.length = 9) (hw : ∀ x ∈ w, 0 ≤ x ∧ x < 10 ^ 9)
    (hfit : wi + wf + (if t > 0 then 1 else 0) ≤ 9) (ht : t < 9)
    (hov : magnitudeOf w wi wf t < (2 : Int) ^ (bits - 1)) :
    (((List.range wi).foldlM
        (fun value i => (w[i + 0]?).map (fun x => wrapSigned bits (value * word_max + x)))
        (0 : Int)).bind fun value =>
      ((List.range wf).foldlM
        (fun value i => (w[i + wi]?).map (fun x => wrapSigned bits (value * word_max + x)))
        value).bind fun value =>
      if t > 0 then
        (w[wi + wf]?).map fun tail =>
          let tail : Int := (List.range (DIGITS_PER_WORD - t)).foldl
            (fun tail _ => wrapSigned 32 (Int.tdiv tail 10)) tail
          let value : Int := (List.range t).foldl
            (fun value _ => wrapSigned bits (value * 10)) value
          let value : Int := wrapSigned bits (value + tail)
          if negative then wrapSigned bits (-value) else value
      else
        some (if negative then wrapSigned bits (-value) else value))
      = some ((if negative then -1 else 1) * magnitudeOf w wi wf t) := by
  have hw0 : ∀ x ∈ w, 0 ≤ x := fun x hx => (hw x hx).1
  have hp : (0 : Int) < 2 ^ (bits - 1) := by positivity
  have hH0 : 0 ≤ wordSum w (wi + wf) := wordSum_nonneg w hw0 _
  have hsplit : wi + wf + (if t > 0 then 1 else 0) ≤ 9 := hfit
  by_cases ht0 : t = 0
  · subst ht0
    simp only [magnitudeOf, if_true] at hov
    simp only [magnitudeOf, if_true]
    have h1 := foldlM_words bits hb w hw0 0 wi (by simp at hsplit; omega)
      (lt_of_le_of_lt (by
        rw [Nat.zero_add]
        exact wordSum_mono w hw0 wi (wi + wf) (by omega)) hov)
    rw [wordSum_zero, Nat.zero_add] at h1
    have h2 := foldlM_words bits hb w hw0 wi wf (by simp at hsplit; omega) hov
    rw [h1, Option.some_bind, h2, Option.some_bind]
    simp only [gt_iff_lt, lt_self_iff_false, if_false]
    cases negative
    · simp
    · simp only [if_true]
      rw [wrapSigned_eq_self bits hb _ (by omega) (by omega), neg_one_mul]
  · have htpos : t > 0 := Nat.pos_of_ne_zero ht0
    simp only [magnitudeOf, if_neg ht0] at hov
    simp only [magnitudeOf, if_neg ht0]
    rw [if_pos htpos] at hsplit
    have hidx : wi + wf < w.length := by omega
    have htail_mem : w.getD (wi + wf) 0 ∈ w := by
      rw [List.getD_eq_getElem w 0 hidx]
      exact List.getElem_mem hidx
    have htail0 := (hw _ htail_mem).1
    have htail1 := (hw _ htail_mem).2
    have hq0 : 0 ≤ w.getD (wi + wf) 0 / 10 ^ (9 - t) := Int.ediv_nonneg htail0 (by positivity)
    have hten : (1 : Int) ≤ 10 ^ t := one_le_pow₀ (by norm_num)
    have hHt : wordSum w (wi + wf) ≤ wordSum w (wi + wf) * 10 ^ t := by nlinarith
    have hHlt : wordSum w (wi + wf) < 2 ^ (bits - 1) := by omega
    have h1 := foldlM_words bits hb w hw0 0 wi (by omega)
      (lt_of_le_of_lt (by
        rw [Nat.zero_add]
        exact wordSum_mono w hw0 wi (wi + wf) (by omega)) hHlt)
    rw [wordSum_zero, Nat.zero_add] at h1
    have h2 := foldlM_words bits hb w hw0 wi wf (by omega) hHlt
    have hget : w[wi + wf]? = some (w.getD (wi + wf) 0) := by
      rw [List.getD_eq_getElem w 0 hidx, List.getElem?_eq_getElem hidx]
    rw [h1, Option.some_bind, h2, Option.some_bind, if_pos htpos, hget, Option.map_some']
    have hdiv := foldl_tail_div (w.getD (wi + wf) 0) htail0
      (lt_trans htail1 (by norm_num)) (9 - t)
    have hmul := foldl_times_ten bits hb (wordSum w (wi + wf)) hH0 t (by omega)
    simp only [DIGITS_PER_WORD, hdiv, hmul]
    have hnn : 0 ≤ wordSum w (wi + wf) * 10 ^ t + w.getD (wi + wf) 0 / 10 ^ (9 - t) := by
      omega
    rw [wrapSigned_eq_self bits hb _ (by omega) hov]
    cases negative
    · simp
    · simp only [if_true]
      rw [wrapSigned_eq_self bits hb _ (by omega) (by omega), neg_one_mul]

theorem DecimalKind.bits_pos (T : DecimalKind) : 0 < T.bits := by
  cases T <;> decide

theorem toCHDecimal_eq_magnitude (T : DecimalKind) (digits_int digits_frac : Nat)
    (negative : Bool) (w : List Int) (hdi : digits_int < 256) (hdf : digits_frac < 256)
    (hlen : w.length = 9) (hw : ∀ x ∈ w, 0 ≤ x ∧ x < 10 ^ 9)
    (hfit : (digits_int + 8) / 9 + digits_frac / 9
      + (if digits_frac % 9 > 0 then 1 else 0) ≤ 9)
    (hov : decodedMagnitude digits_int digits_frac w < (2 : Int) ^ (T.bits - 1)) :
    toCHDecimal T digits_int digits_frac negative w
      = some ((if negative then -1 else 1) * decodedMagnitude digits_int digits_frac w) := by
  have h_wi : (digits_int + DIGITS_PER_WORD - 1) / DIGITS_PER_WORD % 256
      = (digits_int + 8) / 9 := by
    simp only [DIGITS_PER_WORD]
    omega
  have h_wf : digits_frac / DIGITS_PER_WORD % 256 = digits_frac / 9 := by
    simp only [DIGITS_PER_WORD]
    omega
  have h_t : digits_frac % DIGITS_PER_WORD % 256 = digits_frac % 9 := by
    simp only [DIGITS_PER_WORD]
    omega
  have hmag : decodedMagnitude digits_int digits_frac w
      = magnitudeOf w ((digits_int + 8) / 9) (digits_frac / 9) (digits_frac % 9) := rfl
  rw [hmag] at hov ⊢
  unfold toCHDecimal
  simp only [h_wi, h_wf, h_t]
  exact toCHDecimal_core T.bits T.bits_pos w _ _ _ negative hlen hw hfit
    (Nat.mod_lt _ (by decide)) hov

theorem decimalToVectorDigits_natCast (n : Nat) (vec : List Int) :
    decimalToVectorDigits (n : Int) vec = vec ++ List.map Int.ofNat (Nat.digits 10 n) := by
  induction n using Nat.strong_induction_on generalizing vec with
  | _ n ih =>
    rw [decimalToVectorDigits]
    by_cases hn : n = 0
    · subst hn
      simp
    · have hne : (n : Int) ≠ 0 := by exact_mod_cast hn
      rw [if_neg hne]
      have hd : Int.tdiv (n : Int) 10 = ((n / 10 : Nat) : Int) := by
        rw [Int.tdiv_eq_ediv (Int.ofNat_nonneg n) (by norm_num)]
        norm_cast
      have hm : Int.tmod (n : Int) 10 = ((n % 10 : Nat) : Int) := by
        rw [Int.tmod_eq_emod (Int.ofNat_nonneg n) (by norm_num)]
        norm_cast
      rw [hd, hm, ih (n / 10) (Nat.div_lt_self (Nat.pos_of_ne_zero hn) (by decide))]
      have hdig : Nat.digits 10 n = (n % 10) :: Nat.digits 10 (n / 10) :=
        Nat.digits_def' (by decide) (Nat.pos_of_ne_zero hn)
      rw [hdig]
      simp

theorem decimalToVectorPad_eq (vec : List Int) (scale : Nat) :
    decimalToVectorPad vec scale = vec ++ List.replicate (scale - vec.length) 0 := by
  generalize h : scale - vec.length = k
  induction k generalizing vec with
  | zero =>
    rw [decimalToVectorPad, if_neg (by omega)]
    simp
  | succ k ih =>
    rw [decimalToVectorPad, if_pos (by omega)]
    rw [ih (vec ++ [0]) (by simp; omega)]
    simp [List.replicate_succ]

theorem decimalToVector_eq (v : Int) (scale : Nat) :
    decimalToVector v [] scale =
      List.map Int.ofNat (Nat.digits 10 v.natAbs) ++
        List.replicate (scale - (Nat.digits 10 v.natAbs).length) 0 := by
  have habs : (if v < 0 then -v else v) = ((v.natAbs : Nat) : Int) := by
    split <;> omega
  simp only [decimalToVector]
  rw [habs, decimalToVectorDigits_natCast, decimalToVectorPad_eq]
  simp

theorem digitSum_nil : digitSum [] = 0 := by
  simp [digitSum]

theorem digitSum_cons (a : Int) (l : List Int) : digitSum (a :: l) = a + 10 * digitSum l := by
  unfold digitSum
  rw [List.length_cons, Finset.sum_range_succ', Finset.mul_sum]
  simp only [List.getD_cons_succ, List.getD_cons_zero, pow_zero, mul_one]
  rw [add_comm]
  congr 1
  apply Finset.sum_congr rfl
  intro i _
  rw [pow_succ]
  ring

theorem digitSum_replicate_zero (k : Nat) : digitSum (List.replicate k 0) = 0 := by
  induction k with
  | zero => exact digitSum_nil
  | succ k ih => rw [List.replicate_succ, digitSum_cons, ih]; rfl

theorem digitSum_digits_append (l : List Nat) (k : Nat) :
    digitSum (List.map Int.ofNat l ++ List.replicate k 0) = ((Nat.ofDigits 10 l : Nat) : Int) := by
  induction l with
  | nil => simpa using digitSum_replicate_zero k
  | cons a l ih =>
    rw [List.map_cons, List.cons_append, digitSum_cons, ih, Nat.ofDigits_cons]
    push_cast
    rfl

theorem digitSum_decimalToVector (v : Int) (scale : Nat) :
    digitSum (decimalToVector v [] scale) = |v| := by
  rw [decimalToVector_eq, digitSum_digits_append, Nat.ofDigits_digits]
  exact Int.natCast_natAbs v

theorem decimalToVector_digit_range (v : Int) (scale : Nat) :
    ∀ d ∈ decimalToVector v [] scale, 0 ≤ d ∧ d ≤ 9 := by
  intro d hd
  rw [decimalToVector_eq, List.mem_append] at hd
  rcases hd with hd | hd
  · obtain ⟨n, hn, rfl⟩ := List.mem_map.mp hd
    have := Nat.digits_lt_base (by decide : 1 < 10) hn
    constructor
    · exact Int.ofNat_nonneg n
    · show (n : Int) ≤ 9
      omega
  · rw [List.eq_of_mem_replicate hd]
    decide

theorem appendRows_single (body : Nat → Option Row) (dag : TiDBColumn) (i : Nat) (r : Row)
    (h : body i = some r) : appendRows body dag i (i + 1) = Except.ok (dag ++ [r]) := by
  simp only [appendRows, Nat.add_sub_cancel_left, List.range'_one, List.foldlM_cons,
    List.foldlM_nil, h]
  rfl

theorem getElem?_middle {α : Type} (before after : List α) (v : α) :
    (before ++ v :: after)[before.length]? = some v := by
  rw [List.getElem?_append_right (le_refl _)]
  simp

theorem decimalInternal_single (T : DecimalKind) (is_nullable : Bool) (dag : TiDBColumn)
    (before after : List Int) (v : Int) (precision S : Nat) :
    flashDecimalColToArrowColInternal T is_nullable dag
        (IColumn.Decimal T (before ++ v :: after)) before.length (before.length + 1)
        (DataType.Decimal T precision S)
      = Except.ok (true, dag ++ [Row.decimal
          { scale := S, digits := decimalToVector v [] S, negative := decide (v < 0) }]) := by
  simp only [flashDecimalColToArrowColInternal, getNestedCol, IColumn.checkAndGetDecimal,
    DataType.checkDecimal, if_true]
  rw [appendRows_single _ dag before.length (Row.decimal
    { scale := S, digits := decimalToVector v [] S, negative := decide (v < 0) })]
  · rfl
  · simp only [nullOr, IColumn.isNullAt, getElem?_middle, Option.map_some', Option.some_bind]
    cases is_nullable <;> rfl

/-! ## The layout of the wire decimal words -/

theorem foldl_horner (base : Int) (l : List Int) (a : Int) :
    l.foldl (fun acc d => acc * base + d) a
      = a * base ^ l.length + l.foldl (fun acc d => acc * base + d) 0 := by
  induction l generalizing a with
  | nil => simp
  | cons x l ih =>
    simp only [List.foldl_cons, List.length_cons]
    rw [ih (a * base + x), ih (0 * base + x), pow_succ]
    ring

theorem hornerValue_append (base : Int) (l1 l2 : List Int) :
    hornerValue base (l1 ++ l2)
      = hornerValue base l1 * base ^ l2.length + hornerValue base l2 := by
  unfold hornerValue
  rw [List.foldl_append, foldl_horner]

theorem hornerValue_nil (base : Int) : hornerValue base [] = 0 := rfl

theorem hornerValue_replicate_zero (base : Int) (k : Nat) :
    hornerValue base (List.replicate k 0) = 0 := by
  induction k with
  | zero => rfl
  | succ k ih =>
    rw [List.replicate_succ', hornerValue_append, ih]
    simp [hornerValue]

theorem hornerValue_reverse (l : List Int) : hornerValue 10 l.reverse = digitSum l := by
  induction l with
  | nil => rw [List.reverse_nil, hornerValue_nil, digitSum_nil]
  | cons a l ih =>
    rw [List.reverse_cons, hornerValue_append, ih, digitSum_cons]
    simp only [hornerValue, List.foldl_cons, List.foldl_nil, List.length_singleton, pow_one]
    ring

theorem hornerValue_bounds (l : List Int) (h : ∀ d ∈ l, 0 ≤ d ∧ d ≤ 9) :
    0 ≤ hornerValue 10 l ∧ hornerValue 10 l < 10 ^ l.length := by
  induction l using List.reverseRecOn with
  | nil => simp [hornerValue]
  | append_singleton l a ih =>
    have hl := ih (fun d hd => h d (List.mem_append_left _ hd))
    have ha := h a (List.mem_append_right _ (List.mem_singleton_self a))
    have hs : hornerValue 10 [a] = a := by simp [hornerValue]
    rw [hornerValue_append, hs]
    simp only [List.length_append, List.length_singleton, pow_one, pow_succ]
    have h0 := hl.1
    have h1 := hl.2
    have h2 := ha.1
    have h3 := ha.2
    constructor <;> linarith

/-- The words cut from a sequence of digit positions. -/
theorem wordSum_chunks (P : List Int) (hP : 81 ≤ P.length) (n : Nat) (hn : n ≤ 9) :
    wordSum ((List.range MAX_WORD_BUF_LEN).map
        fun k => hornerValue 10 ((P.drop (9 * k)).take 9)) n
      = hornerValue 10 (P.take (9 * n)) := by
  induction n with
  | zero => simp [wordSum_zero, hornerValue]
  | succ n ih =>
    rw [wordSum_succ, ih (by omega)]
    have hget : ((List.range MAX_WORD_BUF_LEN).map
        fun k => hornerValue 10 ((P.drop (9 * k)).take 9)).getD n 0
        = hornerValue 10 ((P.drop (9 * n)).take 9) := by
      rw [List.getD_eq_getElem?_getD, List.getElem?_map,
        List.getElem?_range (by simp only [MAX_WORD_BUF_LEN]; omega)]
      rfl
    have hlen : ((P.drop (9 * n)).take 9).length = 9 := by
      rw [List.length_take, List.length_drop]
      omega
    rw [hget, Nat.mul_succ, List.take_add, hornerValue_append, hlen]

theorem wireDecimalWords_length (digits : List Int) (scale : Nat) :
    (wireDecimalWords digits scale).length = 9 := by
  simp [wireDecimalWords, MAX_WORD_BUF_LEN]

theorem wireDecimalWords_bounds (digits : List Int) (scale : Nat)
    (hd : ∀ d ∈ digits, 0 ≤ d ∧ d ≤ 9) :
    ∀ x ∈ wireDecimalWords digits scale, 0 ≤ x ∧ x < 10 ^ 9 := by
  intro x hx
  simp only [wireDecimalWords, List.mem_map] at hx
  obtain ⟨k, _, rfl⟩ := hx
  have hall : ∀ d ∈ List.take 9 (List.drop (9 * k)
      (List.replicate (9 * (((digits.drop scale).reverse.length + 8) / 9)
        - (digits.drop scale).reverse.length) 0
        ++ (digits.drop scale).reverse ++ (digits.take scale).reverse
        ++ List.replicate 81 0)), 0 ≤ d ∧ d ≤ 9 := by
    intro d hdm
    have hdm2 := List.mem_of_mem_drop (List.mem_of_mem_take hdm)
    simp only [List.mem_append, List.mem_reverse] at hdm2
    rcases hdm2 with ((h1 | h1) | h1) | h1
    · rw [List.eq_of_mem_replicate h1]
      decide
    · exact hd d (List.mem_of_mem_drop h1)
    · exact hd d (List.mem_of_mem_take h1)
    · rw [List.eq_of_mem_replicate h1]
      decide
  have hb := hornerValue_bounds _ hall
  refine ⟨hb.1, lt_of_lt_of_le hb.2 ?_⟩
  apply pow_le_pow_right₀ (by norm_num)
  rw [List.length_take]
  omega

theorem layout_magnitude (int_digits frac_digits : List Int)
    (hfit : (int_digits.length + 8) / 9 + (frac_digits.length + 8) / 9 ≤ 9) :
    magnitudeOf
        ((List.range MAX_WORD_BUF_LEN).map fun k => hornerValue 10
          (((List.replicate (9 * ((int_digits.length + 8) / 9) - int_digits.length) 0
            ++ int_digits ++ frac_digits ++ List.replicate 81 0).drop (9 * k)).take 9))
        ((int_digits.length + 8) / 9) (frac_digits.length / 9) (frac_digits.length % 9)
      = hornerValue 10 (int_digits ++ frac_digits) := by
  generalize hwi : (int_digits.length + 8) / 9 = wi at hfit ⊢
  generalize hwf : frac_digits.length / 9 = wf
  generalize ht : frac_digits.length % 9 = t
  have hS : frac_digits.length = 9 * wf + t := by omega
  have ht9 : t < 9 := by omega
  have hdi : int_digits.length ≤ 9 * wi := by omega
  generalize hA : List.replicate (9 * wi - int_digits.length) 0 ++ int_digits = A
  have hAlen : A.length = 9 * wi := by
    rw [← hA, List.length_append, List.length_replicate]
    omega
  have hAval : hornerValue 10 A = hornerValue 10 int_digits := by
    rw [← hA, hornerValue_append, hornerValue_replicate_zero]
    ring
  have hPlen : 81 ≤ (A ++ frac_digits ++ List.replicate 81 0).length := by
    simp only [List.length_append, List.length_replicate]
    omega
  have hsum : wordSum ((List.range MAX_WORD_BUF_LEN).map fun k => hornerValue 10
        (((A ++ frac_digits ++ List.replicate 81 0).drop (9 * k)).take 9)) (wi + wf)
      = hornerValue 10 int_digits * 10 ^ (9 * wf)
        + hornerValue 10 (frac_digits.take (9 * wf)) := by
    rw [wordSum_chunks _ hPlen (wi + wf) (by omega)]
    have htake : (A ++ frac_digits ++ List.replicate 81 0).take (9 * (wi + wf))
        = A ++ frac_digits.take (9 * wf) := by
      rw [List.take_append_of_le_length (by
        rw [List.length_append]
        omega)]
      have : 9 * (wi + wf) = A.length + 9 * wf := by omega
      rw [this, List.take_append]
    rw [htake, hornerValue_append, hAval, List.length_take]
    have : min (9 * wf) frac_digits.length = 9 * wf := by omega
    rw [this]
  have hfrac : hornerValue 10 frac_digits
      = hornerValue 10 (frac_digits.take (9 * wf)) * 10 ^ t
        + hornerValue 10 (frac_digits.drop (9 * wf)) := by
    conv_lhs => rw [← List.take_append_drop (9 * wf) frac_digits]
    rw [hornerValue_append, List.length_drop]
    have : frac_digits.length - 9 * wf = t := by omega
    rw [this]
  unfold magnitudeOf
  rw [hsum, hornerValue_append, hfrac, hS]
  by_cases ht0 : t = 0
  · rw [if_pos ht0]
    subst ht0
    have hdrop : frac_digits.drop (9 * wf) = [] := by
      apply List.drop_eq_nil_of_le
      omega
    rw [hdrop, hornerValue_nil]
    ring
  · rw [if_neg ht0]
    have hget : ((List.range MAX_WORD_BUF_LEN).map fun k => hornerValue 10
        (((A ++ frac_digits ++ List.replicate 81 0).drop (9 * k)).take 9)).getD (wi + wf) 0
        = hornerValue 10 (((A ++ frac_digits ++ List.replicate 81 0).drop
            (9 * (wi + wf))).take 9) := by
      rw [List.getD_eq_getElem?_getD, List.getElem?_map,
        List.getElem?_range (by simp only [MAX_WORD_BUF_LEN]; omega)]
      rfl
    have hdrop : ((A ++ frac_digits ++ List.replicate 81 0).drop (9 * (wi + wf))).take 9
        = frac_digits.drop (9 * wf) ++ List.replicate (9 - t) 0 := by
      have h1 : 9 * (wi + wf) = A.length + 9 * wf := by omega
      rw [List.append_assoc, h1, List.drop_append,
        List.drop_append_of_le_length (by omega), List.take_append_eq_append_take,
        List.length_drop, List.take_replicate]
      have h2 : (frac_digits.drop (9 * wf)).take 9 = frac_digits.drop (9 * wf) := by
        apply List.take_of_length_le
        rw [List.length_drop]
        omega
      have h3 : min (9 - (frac_digits.length - 9 * wf)) 81 = 9 - t := by omega
      rw [h2, h3]
    rw [hget, hdrop, hornerValue_append, hornerValue_replicate_zero, List.length_replicate,
      add_zero, Int.mul_ediv_cancel _ (by positivity)]
    ring

theorem wireDecimalWords_magnitude (digits : List Int) (scale : Nat)
    (hS : scale ≤ digits.length)
    (hfit : (digits.length - scale + 8) / 9 + (scale + 8) / 9 ≤ 9) :
    decodedMagnitude (digits.length - scale) scale (wireDecimalWords digits scale)
      = digitSum digits := by
  have hlen_int : (digits.drop scale).reverse.length = digits.length - scale := by
    rw [List.length_reverse, List.length_drop]
  have hlen_frac : (digits.take scale).reverse.length = scale := by
    rw [List.length_reverse, List.length_take]
    omega
  have h := layout_magnitude (digits.drop scale).reverse (digits.take scale).reverse
    (by rw [hlen_int, hlen_frac]; exact hfit)
  rw [hlen_frac] at h
  have hrev : (digits.drop scale).reverse ++ (digits.take scale).reverse = digits.reverse := by
    rw [← List.reverse_append, List.take_append_drop]
  rw [hrev, hornerValue_reverse] at h
  rw [← h]
  simp only [decodedMagnitude, wireDecimalWords, hlen_int]
/-! ## Reading integers from the wire buffer -/

theorem littleEndianBytes_length (n x : Nat) : (littleEndianBytes n x).length = n := by
  induction n generalizing x with
  | zero => rfl
  | succ n ih => simp [littleEndianBytes, ih]

theorem littleEndianValue_bytes (n x : Nat) :
    littleEndianValue (littleEndianBytes n x) = x % 256 ^ n := by
  induction n generalizing x with
  | zero => simp [littleEndianBytes, littleEndianValue, Nat.mod_one]
  | succ n ih =>
    simp only [littleEndianBytes, littleEndianValue, ih]
    rw [pow_succ, Nat.mul_comm (256 ^ n) 256, Nat.mod_mul]

theorem littleEndianBytes_value (bs : List Byte) :
    littleEndianBytes bs.length (littleEndianValue bs) = bs := by
  induction bs with
  | nil => rfl
  | cons b bs ih =>
    simp only [List.length_cons, littleEndianBytes, littleEndianValue]
    have h1 : (b.val + 256 * littleEndianValue bs) % 256 = b.val := by
      have := b.isLt
      omega
    have h2 : (b.val + 256 * littleEndianValue bs) / 256 = littleEndianValue bs := by
      have := b.isLt
      omega
    rw [h2, ih]
    congr 1
    exact Fin.ext h1

theorem littleEndianValue_lt (bs : List Byte) : littleEndianValue bs < 256 ^ bs.length := by
  induction bs with
  | nil => simp [littleEndianValue]
  | cons b bs ih =>
    simp only [littleEndianValue, List.length_cons, pow_succ]
    have := b.isLt
    omega

/-- A read is the little-endian value of the bytes under the cursor, on either host. -/
theorem readUnsigned_eq (host : Endian) (buf : List Byte) (pos n : Nat)
    (h : pos + n ≤ buf.length) :
    readUnsigned host buf pos n = some (littleEndianValue ((buf.drop pos).take n)) := by
  have hlen : ((buf.drop pos).take n).length = n := by
    rw [List.length_take, List.length_drop]
    omega
  cases host with
  | little => simp [readUnsigned, loadNative, toLittleEndian, h]
  | big =>
    simp only [readUnsigned, loadNative, toLittleEndian, h, if_true, Option.map_some']
    have hrev : ((buf.drop pos).take n).reverse.length = n := by
      rw [List.length_reverse, hlen]
    have := littleEndianBytes_value ((buf.drop pos).take n).reverse
    rw [hrev] at this
    rw [this, List.reverse_reverse]

theorem readUnsigned_of_drop (host : Endian) (buf : List Byte) (pos : Nat)
    (bs rest : List Byte) (h : buf.drop pos = bs ++ rest) (hn : 0 < bs.length) :
    readUnsigned host buf pos bs.length = some (littleEndianValue bs) := by
  have hl : (buf.drop pos).length = bs.length + rest.length := by
    rw [h, List.length_append]
  rw [List.length_drop] at hl
  rw [readUnsigned_eq host buf pos bs.length (by omega), h, List.take_left]

theorem drop_add_of_drop {α : Type} (buf : List α) (pos : Nat) (l1 l2 : List α)
    (h : buf.drop pos = l1 ++ l2) : buf.drop (pos + l1.length) = l2 := by
  rw [← List.drop_drop, h, List.drop_left]

theorem wireDecimalWordBytes_append (ws : List Int) (w : Int) :
    wireDecimalWordBytes (ws ++ [w])
      = wireDecimalWordBytes ws ++ littleEndianBytes 4 (wrapUnsigned 32 w) := by
  induction ws with
  | nil => simp [wireDecimalWordBytes]
  | cons a ws ih => simp [wireDecimalWordBytes, ih]

theorem wireDecimalWordBytes_length (ws : List Int) :
    (wireDecimalWordBytes ws).length = 4 * ws.length := by
  induction ws with
  | nil => rfl
  | cons a ws ih =>
    simp only [wireDecimalWordBytes, List.length_append, littleEndianBytes_length, ih,
      List.length_cons]
    omega

theorem readSigned_word (host : Endian) (buf : List Byte) (pos : Nat) (w : Int)
    (rest : List Byte) (h : buf.drop pos = littleEndianBytes 4 (wrapUnsigned 32 w) ++ rest)
    (h0 : 0 ≤ w) (h1 : w < 10 ^ 9) : readSigned host buf pos 4 = some w := by
  have hr := readUnsigned_of_drop host buf pos _ rest h (by rw [littleEndianBytes_length]; decide)
  rw [littleEndianBytes_length, littleEndianValue_bytes] at hr
  have hu : wrapUnsigned 32 w = w.toNat := by
    unfold wrapUnsigned
    rw [Int.emod_eq_of_lt h0 (by omega)]
  have hlt : w.toNat < 2 ^ 31 := by omega
  have hc : Int.ofNat w.toNat = w := Int.toNat_of_nonneg h0
  have hs : wrapSigned 32 w = w := wrapSigned_eq_self 32 (by decide) w (by omega) (by omega)
  rw [readSigned, hr, Option.map_some', hu, Nat.mod_eq_of_lt (by omega), hc]
  exact congrArg some hs

theorem readSigned_words (host : Endian) (buf : List Byte) (pos : Nat) (ws : List Int)
    (hw : ∀ x ∈ ws, 0 ≤ x ∧ x < 10 ^ 9) (rest : List Byte)
    (h : buf.drop pos = wireDecimalWordBytes ws ++ rest) :
    (List.range ws.length).mapM (fun j => readSigned host buf (pos + 4 * j) 4) = some ws := by
  induction ws using List.reverseRecOn generalizing rest with
  | nil => rfl
  | append_singleton ws w ih =>
    rw [wireDecimalWordBytes_append, List.append_assoc] at h
    have hih := ih (fun x hx => hw x (List.mem_append_left _ hx)) _ h
    have hlast := drop_add_of_drop buf pos _ _ h
    rw [wireDecimalWordBytes_length] at hlast
    have hwb := hw w (List.mem_append_right _ (List.mem_singleton_self w))
    have hread := readSigned_word host buf (pos + 4 * ws.length) w rest hlast hwb.1 hwb.2
    rw [List.length_append, List.length_singleton, List.range_succ, List.mapM_append, hih,
      List.mapM_cons, List.mapM_nil, hread]
    rfl
/-! ## Decimal round trip -/

theorem decimalToVector_length_ge (v : Int) (scale : Nat) :
    scale ≤ (decimalToVector v [] scale).length := by
  rw [decimalToVector_eq, List.length_append, List.length_map, List.length_replicate]
  omega

theorem sign_mul_abs (v : Int) : (if decide (v < 0) = true then -1 else 1) * |v| = v := by
  by_cases h : v < 0
  · simp only [h, decide_True, if_true]
    rw [abs_of_neg h]
    ring
  · simp only [h, decide_False, Bool.false_eq_true, if_false]
    rw [abs_of_nonneg (not_lt.mp h)]
    ring

theorem toCHDecimal_wireDecimalWords (T : DecimalKind) (v : Int) (S : Nat)
    (hrange : |v| < (2 : Int) ^ (T.bits - 1))
    (hfit : ((decimalToVector v [] S).length - S + 8) / 9 + (S + 8) / 9 ≤ 9) :
    toCHDecimal T ((decimalToVector v [] S).length - S) S (decide (v < 0))
        (wireDecimalWords (decimalToVector v [] S) S) = some v := by
  have hS := decimalToVector_length_ge v S
  have hmag := wireDecimalWords_magnitude (decimalToVector v [] S) S hS hfit
  rw [digitSum_decimalToVector] at hmag
  have h := toCHDecimal_eq_magnitude T ((decimalToVector v [] S).length - S) S (decide (v < 0))
    (wireDecimalWords (decimalToVector v [] S) S) (by omega) (by omega)
    (wireDecimalWords_length _ _)
    (wireDecimalWords_bounds _ _ (decimalToVector_digit_range v S))
    (by split <;> omega) (by rw [hmag]; exact hrange)
  rw [h, hmag, sign_mul_abs]

theorem checkNull_zero_count (i : Nat) (null_bitmap : List Byte) (column : List Field) :
    checkNull i 0 null_bitmap column = Except.ok (false, column) := by
  simp [checkNull]

theorem arrowDecimalInsert_of_type (T : DecimalKind) (precision scale : Nat)
    (digits_int digits_frac negative : Nat) (word_buf : List Int) (column : List Field)
    (res : Int) (h : toCHDecimal T digits_int digits_frac (negative != 0) word_buf = some res) :
    arrowDecimalColToFlashColInsert (DataType.Decimal T precision scale) digits_int digits_frac
      negative word_buf column = Except.ok (column ++ [Field.Decimal T res scale]) := by
  cases T <;> simp [arrowDecimalColToFlashColInsert, DataType.checkDecimal, h]

theorem arrowDecimal_single_row (host : Endian) (buf : List Byte) (pos field_length : Nat)
    (null_bitmap : List Byte) (offsets : List Nat) (column : List Field) (col_type : DataType)
    (info : ColumnInfo) (T : DecimalKind) (precision scale : Nat)
    (b0 b1 b2 b3 : Byte) (ws : List Int) (rest : List Byte) (res : Int)
    (htype : (if col_type.isNullable then col_type.getNestedType else col_type)
      = DataType.Decimal T precision scale)
    (hbuf : buf.drop pos = [b0, b1, b2, b3] ++ wireDecimalWordBytes ws ++ rest)
    (hlen : ws.length = 9) (hw : ∀ x ∈ ws, 0 ≤ x ∧ x < 10 ^ 9)
    (hres : toCHDecimal T b0.val b1.val (b3.val != 0) ws = some res) :
    arrowDecimalColToFlashCol host buf pos field_length 0 null_bitmap offsets
        { column := column, type := col_type } info 1
      = Except.ok (pos + 40, column ++ [Field.Decimal T res scale]) := by
  have hd0 : buf.drop pos = [b0] ++ ([b1, b2, b3] ++ wireDecimalWordBytes ws ++ rest) := by
    rw [hbuf]
    rfl
  have hd1 : buf.drop (pos + 1) = [b1] ++ ([b2, b3] ++ wireDecimalWordBytes ws ++ rest) :=
    drop_add_of_drop buf pos [b0] _ hd0
  have hd2 : buf.drop (pos + 1 + 1) = [b2] ++ ([b3] ++ wireDecimalWordBytes ws ++ rest) :=
    drop_add_of_drop buf (pos + 1) [b1] _ hd1
  have hd3 : buf.drop (pos + 3) = [b3] ++ (wireDecimalWordBytes ws ++ rest) :=
    drop_add_of_drop buf (pos + 1 + 1) [b2] _ hd2
  have hd4 : buf.drop (pos + 4) = wireDecimalWordBytes ws ++ rest :=
    drop_add_of_drop buf (pos + 3) [b3] _ hd3
  have r0 : readUnsigned host buf pos 1 = some b0.val := by
    have := readUnsigned_of_drop host buf pos [b0] _ hd0 (Nat.zero_lt_succ 0)
    simpa [littleEndianValue] using this
  have r1 : readUnsigned host buf (pos + 1) 1 = some b1.val := by
    have := readUnsigned_of_drop host buf (pos + 1) [b1] _ hd1 (Nat.zero_lt_succ 0)
    simpa [littleEndianValue] using this
  have r3 : readUnsigned host buf (pos + 3) 1 = some b3.val := by
    have := readUnsigned_of_drop host buf (pos + 3) [b3] _ hd3 (Nat.zero_lt_succ 0)
    simpa [littleEndianValue] using this
  have rw9 : (List.range 9).mapM
      (fun j => readSigned host buf (pos + 4 + 4 * j) 4) = some ws := by
    have := readSigned_words host buf (pos + 4) ws hw rest hd4
    rw [hlen] at this
    exact this
  have hins := arrowDecimalInsert_of_type T precision scale b0.val b1.val b3.val ws column res
    hres
  have hr1 : List.range 1 = [0] := rfl
  simp only [arrowDecimalColToFlashCol, hr1, List.foldlM_cons, List.foldlM_nil,
    arrowDecimalColToFlashColRow, checkNull_zero_count, MAX_WORD_BUF_LEN, r0, r1, r3, rw9,
    htype, hins]
  rfl

theorem toByte_val (n : Nat) (h : n < 256) : (toByte n).val = n := by
  simp [toByte, Nat.mod_eq_of_lt h]
/-! ## The row loop of the encoders -/

theorem foldlM_rows (body : Nat → Option Row) (l : List Nat) (dag dag1 : TiDBColumn) :
    l.foldlM (fun dag i =>
        match body i with
        | some row => (Except.ok (dag ++ [row]) : EncodeResult TiDBColumn)
        | none => Except.error (Failure.undefinedBehaviour, dag)) dag = Except.ok dag1
      ↔ (∀ i ∈ l, (body i).isSome = true)
        ∧ dag1 = dag ++ l.map (fun i => (body i).getD Row.null) := by
  induction l generalizing dag with
  | nil =>
    simp only [List.foldlM_nil, List.map_nil, List.append_nil, List.not_mem_nil, false_implies,
      implies_true, true_and]
    constructor
    · intro h
      exact (Except.ok.inj h).symm
    · intro h
      rw [h]
      rfl
  | cons a l ih =>
    rw [List.foldlM_cons]
    cases hb : body a with
    | none =>
      simp only [List.mem_cons, forall_eq_or_imp, hb, Option.isSome_none, Bool.false_eq_true,
        false_and, iff_false]
      intro h
      cases h
    | some r =>
      have hstep : (Except.ok (dag ++ [r]) : EncodeResult TiDBColumn) >>= (fun s =>
          l.foldlM (fun dag i =>
            match body i with
            | some row => (Except.ok (dag ++ [row]) : EncodeResult TiDBColumn)
            | none => Except.error (Failure.undefinedBehaviour, dag)) s)
          = l.foldlM (fun dag i =>
            match body i with
            | some row => (Except.ok (dag ++ [row]) : EncodeResult TiDBColumn)
            | none => Except.error (Failure.undefinedBehaviour, dag)) (dag ++ [r]) := rfl
      simp only [hstep, ih (dag ++ [r]), List.mem_cons, forall_eq_or_imp, hb, Option.isSome_some,
        true_and, List.map_cons, Option.getD_some, List.append_assoc, List.singleton_append]

theorem appendRows_ok_iff (body : Nat → Option Row) (dag dag1 : TiDBColumn) (s e : Nat) :
    appendRows body dag s e = Except.ok dag1
      ↔ (∀ i, s ≤ i → i < e → (body i).isSome = true)
        ∧ dag1 = dag ++ (List.range' s (e - s)).map (fun i => (body i).getD Row.null) := by
  unfold appendRows
  rw [foldlM_rows]
  have hmem : (∀ i ∈ List.range' s (e - s), (body i).isSome = true)
      ↔ (∀ i, s ≤ i → i < e → (body i).isSome = true) := by
    constructor
    · intro h i h1 h2
      exact h i (List.mem_range'_1.mpr ⟨h1, by omega⟩)
    · intro h i hi
      have := List.mem_range'_1.mp hi
      exact h i this.1 (by omega)
  rw [hmem]

theorem foldlM_rows_error (body : Nat → Option Row) (l : List Nat) (dag : TiDBColumn)
    (err : Failure × TiDBColumn)
    (h : l.foldlM (fun dag i =>
        match body i with
        | some row => (Except.ok (dag ++ [row]) : EncodeResult TiDBColumn)
        | none => Except.error (Failure.undefinedBehaviour, dag)) dag = Except.error err) :
    err.1 = Failure.undefinedBehaviour := by
  induction l generalizing dag with
  | nil => cases h
  | cons a l ih =>
    rw [List.foldlM_cons] at h
    cases hb : body a with
    | none =>
      rw [hb] at h
      cases h
      rfl
    | some r =>
      rw [hb] at h
      exact ih (dag ++ [r]) h

theorem appendRows_error (body : Nat → Option Row) (dag : TiDBColumn) (s e : Nat)
    (err : Failure × TiDBColumn) (h : appendRows body dag s e = Except.error err) :
    err.1 = Failure.undefinedBehaviour :=
  foldlM_rows_error body _ dag err h

/-! ## The leaf encoders on a matching container -/

theorem probe_hit (x : EncodeResult TiDBColumn)
    (k : TiDBColumn → EncodeResult TiDBColumn) :
    (match x.map (fun dag => (true, dag)) with
      | Except.ok (true, dag1) => Except.ok dag1
      | Except.ok (false, dag1) => k dag1
      | Except.error e => Except.error e) = x := by
  cases x <;> rfl

theorem flashIntegerColToArrowCol_of_vector (b : Bool) (dag : TiDBColumn) (col : IColumn)
    (s e : Nat) (T : NumberKind) (data : List Int)
    (hcol : getNestedCol col = IColumn.Vector T data) (hT : T.is_integral = true) :
    flashIntegerColToArrowCol b dag col s e
      = appendRows (fun i => nullOr b col i ((data[i]?).map fun x =>
          if T.is_unsigned then Row.u64 (wrapUnsigned 64 x) else Row.i64 (wrapSigned 64 x)))
        dag s e := by
  cases T <;> first
    | (exact absurd hT (by decide))
    | (simp only [flashIntegerColToArrowCol, firstProbe, flashIntegerColToArrowColInternal, hcol,
        IColumn.checkAndGetVector, reduceCtorEq, if_false, if_true]
       exact probe_hit _ _)

theorem flashDecimalColToArrowCol_of_decimal (b : Bool) (dag : TiDBColumn) (col : IColumn)
    (s e : Nat) (T : DecimalKind) (data : List Int) (precision scale : Nat)
    (hcol : getNestedCol col = IColumn.Decimal T data) :
    flashDecimalColToArrowCol b dag col s e (DataType.Decimal T precision scale)
      = appendRows (fun i => nullOr b col i ((data[i]?).map fun dec =>
          Row.decimal { scale := scale, digits := decimalToVector dec [] scale,
                        negative := decide (dec < 0) }))
        dag s e := by
  cases T <;>
    (simp only [flashDecimalColToArrowCol, firstProbe, flashDecimalColToArrowColInternal, hcol,
        IColumn.checkAndGetDecimal, DataType.checkDecimal, reduceCtorEq, if_false, if_true]
     exact probe_hit _ _)

theorem flashDoubleColToArrowCol_of_vector (b : Bool) (dag : TiDBColumn) (col : IColumn)
    (s e : Nat) (T : NumberKind) (data : List Int)
    (hcol : getNestedCol col = IColumn.Vector T data) :
    flashDoubleColToArrowCol T b dag col s e
      = appendRows (fun i => nullOr b col i ((data[i]?).map fun x =>
          if T = NumberKind.Float32 then Row.f32 x else Row.f64 x))
        dag s e := by
  simp only [flashDoubleColToArrowCol, hcol, IColumn.checkAndGetVector, if_true]

theorem flashDateOrDateTimeColToArrowCol_of_vector (b : Bool) (dag : TiDBColumn) (col : IColumn)
    (s e : Nat) (field_type : FieldType) (data : List Int)
    (hcol : getNestedCol col = IColumn.Vector NumberKind.UInt64 data) :
    flashDateOrDateTimeColToArrowCol b dag col s e field_type
      = appendRows (fun i => nullOr b col i ((data[i]?).map fun x =>
          Row.time { packed := x, field_type := field_type }))
        dag s e := by
  simp only [flashDateOrDateTimeColToArrowCol, hcol, IColumn.checkAndGetVector, if_true,
    Option.some_bind]

theorem flashStringColToArrowCol_of_string (b : Bool) (dag : TiDBColumn) (col : IColumn)
    (s e : Nat) (data : List (List Byte))
    (hcol : getNestedCol col = IColumn.String data) :
    flashStringColToArrowCol b dag col s e
      = appendRows (fun i => nullOr b col i ((data[i]?).map fun x => Row.bytes x)) dag s e := by
  simp only [flashStringColToArrowCol, hcol, IColumn.checkAndGetString, Option.some_bind]

theorem nullOr_eq (b : Bool) (col : IColumn) (i : Nat) (value : Option Row)
    (h : b = false → col.isColumnNullable = false) :
    nullOr b col i value
      = (col.isNullAt i).bind fun is_null => if is_null then some Row.null else value := by
  cases b with
  | true => rfl
  | false =>
    have hc := h rfl
    cases col <;> simp_all [nullOr, IColumn.isNullAt, IColumn.isColumnNullable]

theorem wrapUnsigned_of_inRange (x : Int) (h0 : 0 ≤ x) (h1 : x < 2 ^ 64) :
    wrapUnsigned 64 x = x.toNat := by
  unfold wrapUnsigned
  rw [Int.emod_eq_of_lt h0 h1]

theorem cast_of_inRange (T : NumberKind) (hT : T.is_integral = true) (x : Int)
    (h : T.inRange x = true) :
    (if T.is_unsigned then Row.u64 (wrapUnsigned 64 x) else Row.i64 (wrapSigned 64 x))
      = (if T.is_unsigned then Row.u64 x.toNat else Row.i64 x) := by
  cases T <;> first
    | (exact absurd hT (by decide))
    | (simp only [NumberKind.inRange, NumberKind.is_integral, NumberKind.is_unsigned,
        NumberKind.bits, Bool.not_true, Bool.and_false, Bool.false_eq_true, if_false,
        decide_eq_true_eq] at h
       simp only [NumberKind.is_unsigned, if_true]
       rw [wrapUnsigned_of_inRange x h.1 (by omega)])
    | (simp only [NumberKind.inRange, NumberKind.is_integral, NumberKind.is_unsigned,
        NumberKind.bits, Bool.not_false, Bool.and_true, if_true, decide_eq_true_eq] at h
       simp only [NumberKind.is_unsigned, Bool.false_eq_true, if_false]
       rw [wrapSigned_eq_self 64 (by decide) x (by omega) (by omega)])
/-! ## The dispatcher by family -/

theorem flashColToArrowCol_family (dag : TiDBColumn) (c : ColumnWithTypeAndName)
    (ft : FieldType) (s e : Nat) :
    flashColToArrowCol dag c ft s e
      = if c.type.isNullable && (fieldTypeToColumnInfo ft).hasNotNullFlag then
          Except.error (Failure.exception ErrorCode.LOGICAL_ERROR, dag)
        else dispatchFamily ft.tp.family dag c.column
          (if c.type.isNullable then c.type.getNestedType else c.type)
          (fieldTypeToColumnInfo ft) ft s e := by
  obtain ⟨tp, flag⟩ := ft
  cases tp <;> rfl

theorem strip_eq (type : DataType) :
    (if type.isNullable then type.getNestedType else type) = type.getNestedType := by
  cases type <;> rfl

theorem family_facts (tp : TP) :
    (tp.isIntegerFamily = true ↔ tp.family = WireFamily.integer)
    ∧ (tp = TP.TypeFloat ↔ tp.family = WireFamily.float)
    ∧ (tp = TP.TypeDouble ↔ tp.family = WireFamily.double)
    ∧ (tp.isTimeFamily = true ↔ tp.family = WireFamily.time)
    ∧ (tp = TP.TypeNewDecimal ↔ tp.family = WireFamily.decimal)
    ∧ (tp.isStringFamily = true ↔ tp.family = WireFamily.string)
    ∧ (tp.isSupported = false ↔ tp.family = WireFamily.unsupported) := by
  cases tp <;> decide

theorem wellFormed_facts (c : ColumnWithTypeAndName) (h : c.wellFormed = true) :
    (getNestedCol c.column).matchesElementType c.type.getNestedType = true
    ∧ c.column.isColumnNullable = c.type.isNullable := by
  obtain ⟨col, type⟩ := c
  cases col <;> cases type <;>
    simp_all [ColumnWithTypeAndName.wellFormed, IColumn.matchesElementType, getNestedCol,
      DataType.getNestedType, IColumn.isColumnNullable, DataType.isNullable] <;>
    (obtain ⟨rfl, h2⟩ := h
     exact h2)

theorem leaf_choice (notnull : Bool) (nullable : Bool) (leaf : Bool → EncodeResult TiDBColumn)
    (R : EncodeResult TiDBColumn) (hn : (nullable && notnull) = false)
    (key : ∀ b : Bool, (b = false → nullable = false) → leaf b = R) :
    (if notnull = true then leaf false else leaf true) = R := by
  cases notnull with
  | true =>
    rw [if_pos rfl]
    apply key
    intro _
    cases nullable with
    | true => cases hn
    | false => rfl
  | false =>
    rw [if_neg (by decide)]
    apply key
    intro h
    cases h

theorem appendRows_congr (f g : Nat → Option Row) (dag : TiDBColumn) (s e : Nat)
    (h : ∀ i, f i = g i) : appendRows f dag s e = appendRows g dag s e := by
  have : f = g := funext h
  rw [this]

theorem map_congr_of_mem {α β : Type} (l : List α) (i : Nat) (f g : α → β)
    (h : ∀ x ∈ l, f x = g x) : (l[i]?).map f = (l[i]?).map g := by
  cases hx : l[i]? with
  | none => rfl
  | some x =>
    have hm : x ∈ l := List.getElem?_mem hx
    simp only [Option.map_some', h x hm]

theorem flashColToArrowCol_compatible (dag : TiDBColumn) (c : ColumnWithTypeAndName)
    (ft : FieldType) (s e : Nat) (hwf : c.wellFormed = true)
    (hc : ¬ incompatible c.type ft) :
    flashColToArrowCol dag c ft s e = appendRows (encodedRow c ft) dag s e := by
  rw [flashColToArrowCol_family, strip_eq]
  simp only [incompatible, not_or, not_and] at hc
  obtain ⟨h1, h2, h3, h4, h5, h6, h7, h8⟩ := hc
  obtain ⟨hm, hnul⟩ := wellFormed_facts c hwf
  have hnn : (c.type.isNullable && (fieldTypeToColumnInfo ft).hasNotNullFlag) = false := by
    cases hA : c.type.isNullable
    · rfl
    · simpa using h1 hA
  rw [hnn]
  simp only [Bool.false_eq_true, if_false]
  obtain ⟨fI, fF, fD, fT, fN, fS, fU⟩ := family_facts ft.tp
  generalize hst : c.type.getNestedType = stripped at *
  generalize hbase : getNestedCol c.column = base at *
  cases hfam : ft.tp.family with
  | integer =>
    have hI := h2 (fI.mpr hfam)
    simp only [not_or, ne_eq, Decidable.not_not, Bool.not_eq_false] at hI
    cases stripped with
    | Number U =>
      simp only [DataType.isInteger] at hI
      cases base with
      | Vector U2 data =>
        simp only [IColumn.matchesElementType, Bool.and_eq_true, decide_eq_true_eq] at hm
        obtain ⟨hUT, hall⟩ := hm
        subst hUT
        simp only [dispatchFamily, DataType.isInteger, hI.1, hI.2, Bool.not_true,
          Bool.false_eq_true, if_false, bne_self_eq_false]
        refine leaf_choice _ c.type.isNullable
          (fun b => flashIntegerColToArrowCol b dag c.column s e) _ hnn ?_
        intro b hb
        show flashIntegerColToArrowCol b dag c.column s e = _
        rw [flashIntegerColToArrowCol_of_vector b dag c.column s e U2 data hbase hI.1]
        apply appendRows_congr
        intro i
        rw [nullOr_eq b c.column i _ (by rw [hnul]; exact hb)]
        simp only [encodedRow, convertedValue, hst, hbase, hI.1, if_true]
        congr 1
        funext is_null
        congr 1
        apply map_congr_of_mem
        intro x hx
        exact cast_of_inRange U2 hI.1 x (List.all_eq_true.mp hall x hx)
      | _ => simp [IColumn.matchesElementType] at hm
    | _ => simp [DataType.isInteger] at hI
  | float =>
    have hF := h3 (fF.mpr hfam)
    simp only [ne_eq, Decidable.not_not] at hF
    subst hF
    cases base with
    | Vector U2 data =>
      simp only [IColumn.matchesElementType, Bool.and_eq_true, decide_eq_true_eq] at hm
      obtain ⟨hUT, hall⟩ := hm
      subst hUT
      simp only [dispatchFamily, DataType.checkNumber, decide_True, Bool.not_true,
        Bool.false_eq_true, if_false]
      refine leaf_choice _ c.type.isNullable
        (fun b => flashDoubleColToArrowCol NumberKind.Float32 b dag c.column s e) _ hnn ?_
      intro b hb
      show flashDoubleColToArrowCol NumberKind.Float32 b dag c.column s e = _
      rw [flashDoubleColToArrowCol_of_vector b dag c.column s e _ data hbase]
      apply appendRows_congr
      intro i
      rw [nullOr_eq b c.column i _ (by rw [hnul]; exact hb)]
      simp only [encodedRow, convertedValue, hst, hbase, NumberKind.is_integral,
        Bool.false_eq_true, if_false, if_true]
    | _ => simp [IColumn.matchesElementType] at hm
  | double =>
    have hF := h4 (fD.mpr hfam)
    simp only [ne_eq, Decidable.not_not] at hF
    subst hF
    cases base with
    | Vector U2 data =>
      simp only [IColumn.matchesElementType, Bool.and_eq_true, decide_eq_true_eq] at hm
      obtain ⟨hUT, hall⟩ := hm
      subst hUT
      simp only [dispatchFamily, DataType.checkNumber, decide_True, Bool.not_true,
        Bool.false_eq_true, if_false]
      refine leaf_choice _ c.type.isNullable
        (fun b => flashDoubleColToArrowCol NumberKind.Float64 b dag c.column s e) _ hnn ?_
      intro b hb
      show flashDoubleColToArrowCol NumberKind.Float64 b dag c.column s e = _
      rw [flashDoubleColToArrowCol_of_vector b dag c.column s e _ data hbase]
      apply appendRows_congr
      intro i
      rw [nullOr_eq b c.column i _ (by rw [hnul]; exact hb)]
      simp only [encodedRow, convertedValue, hst, hbase, NumberKind.is_integral,
        Bool.false_eq_true, if_false, reduceCtorEq]
    | _ => simp [IColumn.matchesElementType] at hm
  | time =>
    have hT := h5 (fT.mpr hfam)
    simp only [Bool.not_eq_false] at hT
    have hdate : ∀ data, base = IColumn.Vector NumberKind.UInt64 data →
        (∀ i, convertedValue c ft i
          = (data[i]?).map fun x => Row.time { packed := x, field_type := ft }) →
        dispatchFamily WireFamily.time dag c.column stripped (fieldTypeToColumnInfo ft) ft s e
          = appendRows (encodedRow c ft) dag s e := by
      intro data hb2 hconv
      rw [hb2] at hbase
      simp only [dispatchFamily, hT, Bool.not_true, Bool.false_eq_true, if_false]
      refine leaf_choice _ c.type.isNullable
        (fun b => flashDateOrDateTimeColToArrowCol b dag c.column s e ft) _ hnn ?_
      intro b hb
      show flashDateOrDateTimeColToArrowCol b dag c.column s e ft = _
      rw [flashDateOrDateTimeColToArrowCol_of_vector b dag c.column s e ft data hbase]
      apply appendRows_congr
      intro i
      rw [nullOr_eq b c.column i _ (by rw [hnul]; exact hb)]
      simp only [encodedRow, hconv]
    cases stripped with
    | MyDate =>
      cases base with
      | Vector U2 data =>
        simp only [IColumn.matchesElementType, Bool.and_eq_true, decide_eq_true_eq] at hm
        obtain ⟨hUT, hall⟩ := hm
        subst hUT
        exact hdate data rfl (fun i => by simp only [convertedValue, hst, hbase])
      | _ => simp [IColumn.matchesElementType] at hm
    | MyDateTime fraction =>
      cases base with
      | Vector U2 data =>
        simp only [IColumn.matchesElementType, Bool.and_eq_true, decide_eq_true_eq] at hm
        obtain ⟨hUT, hall⟩ := hm
        subst hUT
        exact hdate data rfl (fun i => by simp only [convertedValue, hst, hbase])
      | _ => simp [IColumn.matchesElementType] at hm
    | _ => simp [DataType.isDateOrDateTime] at hT
  | decimal =>
    have hN := h6 (fN.mpr hfam)
    simp only [Bool.not_eq_false] at hN
    cases stripped with
    | Decimal T precision scale =>
      cases base with
      | Decimal U2 data =>
        simp only [IColumn.matchesElementType, decide_eq_true_eq] at hm
        subst hm
        simp only [dispatchFamily, DataType.isDecimal, Bool.not_true, Bool.false_eq_true,
          if_false]
        refine leaf_choice _ c.type.isNullable
          (fun b => flashDecimalColToArrowCol b dag c.column s e
            (DataType.Decimal U2 precision scale)) _ hnn ?_
        intro b hb
        show flashDecimalColToArrowCol b dag c.column s e
          (DataType.Decimal U2 precision scale) = _
        rw [flashDecimalColToArrowCol_of_decimal b dag c.column s e U2 data precision scale
          hbase]
        apply appendRows_congr
        intro i
        rw [nullOr_eq b c.column i _ (by rw [hnul]; exact hb)]
        simp only [encodedRow, convertedValue, hst, hbase]
      | _ => simp [IColumn.matchesElementType] at hm
    | _ => simp [DataType.isDecimal] at hN
  | string =>
    have hS := h7 (fS.mpr hfam)
    simp only [ne_eq, Decidable.not_not] at hS
    subst hS
    cases base with
    | String data =>
      simp only [dispatchFamily, DataType.checkString, Bool.not_true, Bool.false_eq_true,
        if_false]
      refine leaf_choice _ c.type.isNullable
        (fun b => flashStringColToArrowCol b dag c.column s e) _ hnn ?_
      intro b hb
      show flashStringColToArrowCol b dag c.column s e = _
      rw [flashStringColToArrowCol_of_string b dag c.column s e data hbase]
      apply appendRows_congr
      intro i
      rw [nullOr_eq b c.column i _ (by rw [hnul]; exact hb)]
      simp only [encodedRow, convertedValue, hst, hbase]
    | _ => simp [IColumn.matchesElementType] at hm
  | unsupported => exact absurd (fU.mpr hfam) (by simpa using h8)

theorem flashColToArrowCol_incompatible (dag : TiDBColumn) (c : ColumnWithTypeAndName)
    (ft : FieldType) (s e : Nat) (h : incompatible c.type ft) :
    ∃ code, flashColToArrowCol dag c ft s e = Except.error (Failure.exception code, dag) := by
  rw [flashColToArrowCol_family, strip_eq]
  by_cases hn : (c.type.isNullable && (fieldTypeToColumnInfo ft).hasNotNullFlag) = true
  · exact ⟨ErrorCode.LOGICAL_ERROR, by rw [if_pos hn]⟩
  · rw [if_neg hn]
    obtain ⟨fI, fF, fD, fT, fN, fS, fU⟩ := family_facts ft.tp
    simp only [incompatible] at h
    rcases h with h | h | h | h | h | h | h | h
    · exact absurd (by simp [h.1, h.2]) hn
    · rw [fI.mp h.1]
      rcases h.2 with h2 | h2
      · exact ⟨ErrorCode.LOGICAL_ERROR, by simp [dispatchFamily, h2]⟩
      · by_cases h3 : c.type.getNestedType.isInteger = true
        · refine ⟨ErrorCode.LOGICAL_ERROR, ?_⟩
          have hne : (c.type.getNestedType.isUnsignedInteger
              != (fieldTypeToColumnInfo ft).hasUnsignedFlag) = true := by
            simpa using h2
          simp [dispatchFamily, h3, hne]
        · exact ⟨ErrorCode.LOGICAL_ERROR, by simp [dispatchFamily, h3]⟩
    · rw [fF.mp h.1]
      refine ⟨ErrorCode.LOGICAL_ERROR, ?_⟩
      have hck : c.type.getNestedType.checkNumber NumberKind.Float32 = false := by
        have h2 := h.2
        cases hst : c.type.getNestedType <;> simp_all [DataType.checkNumber]
      simp [dispatchFamily, hck]
    · rw [fD.mp h.1]
      refine ⟨ErrorCode.LOGICAL_ERROR, ?_⟩
      have hck : c.type.getNestedType.checkNumber NumberKind.Float64 = false := by
        have h2 := h.2
        cases hst : c.type.getNestedType <;> simp_all [DataType.checkNumber]
      simp [dispatchFamily, hck]
    · rw [fT.mp h.1]
      exact ⟨ErrorCode.LOGICAL_ERROR, by simp [dispatchFamily, h.2]⟩
    · rw [fN.mp h.1]
      exact ⟨ErrorCode.LOGICAL_ERROR, by simp [dispatchFamily, h.2]⟩
    · rw [fS.mp h.1]
      refine ⟨ErrorCode.LOGICAL_ERROR, ?_⟩
      have hck : c.type.getNestedType.checkString = false := by
        have h2 := h.2
        cases hst : c.type.getNestedType <;> simp_all [DataType.checkString]
      simp [dispatchFamily, hck]
    · rw [fU.mp h]
      exact ⟨ErrorCode.NOT_IMPLEMENTED, rfl⟩

theorem wellFormed_isNullAt (c : ColumnWithTypeAndName) (h : c.wellFormed = true) (i : Nat)
    (hi : i < c.column.size) : ∃ b, c.column.isNullAt i = some b := by
  obtain ⟨col, type⟩ := c
  cases col with
  | Nullable nested null_map =>
    cases type with
    | Nullable t =>
      simp only [ColumnWithTypeAndName.wellFormed, Bool.and_eq_true, decide_eq_true_eq] at h
      simp only [IColumn.size] at hi
      have hlt : i < null_map.length := by omega
      exact ⟨null_map[i], by
        simp only [IColumn.isNullAt]
        exact List.getElem?_eq_getElem hlt⟩
    | _ => simp [ColumnWithTypeAndName.wellFormed, IColumn.matchesElementType] at h
  | _ => exact ⟨false, rfl⟩

theorem getNestedCol_size (col : IColumn) : (getNestedCol col).size = col.size := by
  cases col <;> rfl

theorem wellFormed_convertedValue (c : ColumnWithTypeAndName) (ft : FieldType)
    (h : c.wellFormed = true) (i : Nat) (hi : i < c.column.size) :
    ∃ r, convertedValue c ft i = some r := by
  obtain ⟨hm, _⟩ := wellFormed_facts c h
  rw [← getNestedCol_size] at hi
  unfold convertedValue
  generalize c.type.getNestedType = stripped at *
  generalize getNestedCol c.column = base at *
  cases base <;> cases stripped <;>
    simp only [IColumn.matchesElementType, Bool.false_eq_true] at hm <;>
    simp only [IColumn.size] at hi <;>
    simp only [List.getElem?_eq_getElem hi, Option.map_some'] <;>
    exact ⟨_, rfl⟩

theorem wellFormed_encodedRow (c : ColumnWithTypeAndName) (ft : FieldType)
    (h : c.wellFormed = true) (i : Nat) (hi : i < c.column.size) :
    (encodedRow c ft i).isSome = true := by
  obtain ⟨b, hb⟩ := wellFormed_isNullAt c h i hi
  obtain ⟨r, hr⟩ := wellFormed_convertedValue c ft h i hi
  cases b <;> simp [encodedRow, hb, hr]

theorem convertedValue_ne_null (c : ColumnWithTypeAndName) (ft : FieldType) (i : Nat) :
    convertedValue c ft i ≠ some Row.null := by
  unfold convertedValue
  split <;> simp only [ne_eq, Option.map_eq_some', not_exists, not_and, reduceCtorEq,
    not_false_eq_true, implies_true]
  intro x _ h
  split at h
  · split at h <;> cases h
  · split at h <;> cases h
/-! ## Rows appended by a successful encoder call -/

theorem appendRows_appended (body : Nat → Option Row) (dag dag1 : TiDBColumn) (s e : Nat)
    (h : appendRows body dag s e = Except.ok dag1) :
    ∃ rows, dag1 = dag ++ rows ∧ rows.length = e - s := by
  obtain ⟨_, h2⟩ := (appendRows_ok_iff body dag dag1 s e).mp h
  exact ⟨_, h2, by rw [List.length_map, List.length_range']⟩

theorem firstProbe_ok {K : Type} (probe : K → TiDBColumn → EncodeResult (Bool × TiDBColumn))
    (n : Nat)
    (hprobe : ∀ T d r, probe T d = Except.ok r →
      (r.1 = true → ∃ rows, r.2 = d ++ rows ∧ rows.length = n) ∧ (r.1 = false → r.2 = d))
    (l : List K) (d d1 : TiDBColumn) (h : firstProbe probe l d = Except.ok d1) :
    ∃ rows, d1 = d ++ rows ∧ rows.length = n := by
  induction l with
  | nil => cases h
  | cons T rest ih =>
    unfold firstProbe at h
    cases hp : probe T d with
    | error err =>
      rw [hp] at h
      cases h
    | ok r =>
      obtain ⟨flag, d2⟩ := r
      have hpr := hprobe T d (flag, d2) hp
      rw [hp] at h
      cases flag with
      | true =>
        cases h
        exact hpr.1 rfl
      | false =>
        have hd : d2 = d := hpr.2 rfl
        subst hd
        exact ih h

theorem map_true_ok (x : EncodeResult TiDBColumn) (r : Bool × TiDBColumn)
    (h : x.map (fun dag => (true, dag)) = Except.ok r) : r.1 = true ∧ x = Except.ok r.2 := by
  cases x with
  | error err => cases h
  | ok d =>
    cases h
    exact ⟨rfl, rfl⟩

theorem flashIntegerColToArrowCol_appended (b : Bool) (dag dag1 : TiDBColumn) (col : IColumn)
    (s e : Nat) (h : flashIntegerColToArrowCol b dag col s e = Except.ok dag1) :
    ∃ rows, dag1 = dag ++ rows ∧ rows.length = e - s := by
  refine firstProbe_ok _ (e - s) ?_ _ dag dag1 h
  intro T d r hr
  simp only [flashIntegerColToArrowColInternal] at hr
  split at hr
  · obtain ⟨h1, h2⟩ := map_true_ok _ r hr
    refine ⟨fun _ => appendRows_appended _ d r.2 s e h2, fun hf => ?_⟩
    rw [h1] at hf
    cases hf
  · cases hr
    exact ⟨fun hf => (by cases hf), fun _ => rfl⟩

theorem flashDecimalColToArrowCol_appended (b : Bool) (dag dag1 : TiDBColumn) (col : IColumn)
    (s e : Nat) (type : DataType)
    (h : flashDecimalColToArrowCol b dag col s e type = Except.ok dag1) :
    ∃ rows, dag1 = dag ++ rows ∧ rows.length = e - s := by
  refine firstProbe_ok _ (e - s) ?_ _ dag dag1 h
  intro T d r hr
  simp only [flashDecimalColToArrowColInternal] at hr
  split at hr
  · obtain ⟨h1, h2⟩ := map_true_ok _ r hr
    refine ⟨fun _ => appendRows_appended _ d r.2 s e h2, fun hf => ?_⟩
    rw [h1] at hf
    cases hf
  · cases hr
    exact ⟨fun hf => (by cases hf), fun _ => rfl⟩

theorem flashDoubleColToArrowCol_appended (T : NumberKind) (b : Bool) (dag dag1 : TiDBColumn)
    (col : IColumn) (s e : Nat)
    (h : flashDoubleColToArrowCol T b dag col s e = Except.ok dag1) :
    ∃ rows, dag1 = dag ++ rows ∧ rows.length = e - s := by
  simp only [flashDoubleColToArrowCol] at h
  split at h
  · exact appendRows_appended _ dag dag1 s e h
  · cases h

theorem dispatchFamily_appended (fam : WireFamily) (dag dag1 : TiDBColumn) (col : IColumn)
    (type : DataType) (info : ColumnInfo) (ft : FieldType) (s e : Nat)
    (h : dispatchFamily fam dag col type info ft s e = Except.ok dag1) :
    ∃ rows, dag1 = dag ++ rows ∧ rows.length = e - s := by
  cases fam <;> simp only [dispatchFamily] at h
  · split at h
    · cases h
    · split at h
      · cases h
      · split at h
        · exact flashIntegerColToArrowCol_appended _ dag dag1 col s e h
        · exact flashIntegerColToArrowCol_appended _ dag dag1 col s e h
  · split at h
    · cases h
    · split at h
      · exact flashDoubleColToArrowCol_appended _ _ dag dag1 col s e h
      · exact flashDoubleColToArrowCol_appended _ _ dag dag1 col s e h
  · split at h
    · cases h
    · split at h
      · exact flashDoubleColToArrowCol_appended _ _ dag dag1 col s e h
      · exact flashDoubleColToArrowCol_appended _ _ dag dag1 col s e h
  · split at h
    · cases h
    · split at h
      · exact appendRows_appended _ dag dag1 s e h
      · exact appendRows_appended _ dag dag1 s e h
  · split at h
    · cases h
    · split at h
      · exact flashDecimalColToArrowCol_appended _ dag dag1 col s e type h
      · exact flashDecimalColToArrowCol_appended _ dag dag1 col s e type h
  · split at h
    · cases h
    · split at h
      · exact appendRows_appended _ dag dag1 s e h
      · exact appendRows_appended _ dag dag1 s e h
  · cases h

theorem flashColToArrowCol_appended (dag dag1 : TiDBColumn) (c : ColumnWithTypeAndName)
    (ft : FieldType) (s e : Nat) (h : flashColToArrowCol dag c ft s e = Except.ok dag1) :
    ∃ rows, dag1 = dag ++ rows ∧ rows.length = e - s := by
  rw [flashColToArrowCol_family] at h
  split at h
  · cases h
  · exact dispatchFamily_appended _ dag dag1 _ _ _ ft s e h
/-! ## Indexing the appended rows, the null bitmap -/

theorem appended_row_at (dag : TiDBColumn) (f : Nat → Row) (s n k : Nat) (hk : k < n) :
    (dag ++ (List.range' s n).map f)[dag.length + k]? = some (f (s + k)) := by
  rw [List.getElem?_append_right (by omega), Nat.add_sub_cancel_left, List.getElem?_map,
    List.getElem?_range' s 1 hk]
  simp

theorem inRange_bounds (T : NumberKind) (hT : T.is_integral = true) (x : Int)
    (h : T.inRange x = true) :
    if T.is_unsigned = true then 0 ≤ x ∧ x < 2 ^ 64 else -(2 : Int) ^ 63 ≤ x ∧ x < 2 ^ 63 := by
  cases T <;> first
    | (exact absurd hT (by decide))
    | (simp only [NumberKind.inRange, NumberKind.is_integral, NumberKind.is_unsigned,
        NumberKind.bits, Bool.not_true, Bool.and_false, Bool.false_eq_true, if_false,
        decide_eq_true_eq] at h
       simp only [NumberKind.is_unsigned, if_true]
       omega)
    | (simp only [NumberKind.inRange, NumberKind.is_integral, NumberKind.is_unsigned,
        NumberKind.bits, Bool.not_false, Bool.and_true, if_true, decide_eq_true_eq] at h
       simp only [NumberKind.is_unsigned, Bool.false_eq_true, if_false]
       omega)

theorem and_shift_eq_zero_iff (b p : Nat) : b &&& (1 <<< p) = 0 ↔ b.testBit p = false := by
  rw [Nat.one_shiftLeft]
  constructor
  · intro h
    have h2 := congrArg (fun n => n.testBit p) h
    simpa [Nat.testBit_and, Nat.testBit_two_pow_self] using h2
  · intro h
    apply Nat.eq_of_testBit_eq
    intro j
    rw [Nat.testBit_and, Nat.testBit_two_pow, Nat.zero_testBit]
    by_cases hj : p = j
    · subst hj
      simp [h]
    · simp [hj]

theorem checkNull_eq (i null_count : Nat) (null_bitmap : List Byte) (column : List Field)
    (b : Byte) (hcount : null_count > 0) (hb : null_bitmap[i / 8]? = some b) :
    checkNull i null_count null_bitmap column
      = if b.val.testBit (i % 8) = false then Except.ok (true, column ++ [Field.Null])
        else Except.ok (false, column) := by
  have h1 : i >>> 3 = i / 8 := Nat.shiftRight_eq_div_pow i 3
  have h2 : i &&& 7 = i % 8 := Nat.and_pow_two_sub_one_eq_mod i 3
  simp only [checkNull, hcount, if_true, h1, h2, hb, and_shift_eq_zero_iff]
/-! ## The integer decoder -/

theorem littleEndianValue_take_drop (buf : List Byte) (n pos : Nat) (h : pos + n ≤ buf.length) :
    littleEndianValue ((buf.drop pos).take n) = littleEndianAt buf pos n := by
  induction n generalizing pos with
  | zero => simp [littleEndianValue, littleEndianAt]
  | succ n ih =>
    have hlt : pos < buf.length := by omega
    have hd : buf.drop pos = buf[pos] :: buf.drop (pos + 1) := List.drop_eq_getElem_cons hlt
    rw [hd, List.take_succ_cons, littleEndianValue, ih (pos + 1) (by omega)]
    unfold littleEndianAt
    rw [Finset.sum_range_succ', Finset.mul_sum]
    have h0 : buf.getD (pos + 0) 0 = buf[pos] := by
      rw [Nat.add_zero, List.getD_eq_getElem buf 0 hlt]
    rw [h0, pow_zero, Nat.mul_one, Nat.add_comm]
    congr 1
    apply Finset.sum_congr rfl
    intro j _
    have hidx : pos + 1 + j = pos + (j + 1) := by omega
    rw [hidx, pow_succ]
    ring

theorem littleEndianAt_lt (buf : List Byte) (pos n : Nat) (h : pos + n ≤ buf.length) :
    littleEndianAt buf pos n < 256 ^ n := by
  rw [← littleEndianValue_take_drop buf n pos h]
  have := littleEndianValue_lt ((buf.drop pos).take n)
  rw [List.length_take, List.length_drop] at this
  have hmin : min n (buf.length - pos) = n := by omega
  rw [hmin] at this
  exact this

theorem wrapSigned_natCast (v : Nat) (h : v < 2 ^ 64) :
    wrapSigned 64 (Int.ofNat v) = twosComplement64 v := by
  unfold wrapSigned twosComplement64
  rw [Int.bmod_def]
  have hv : (Int.ofNat v) % ((2 ^ 64 : Nat) : Int) = (v : Int) := by
    apply Int.emod_eq_of_lt (Int.ofNat_nonneg v)
    exact_mod_cast h
  rw [hv]
  by_cases h2 : v < 2 ^ 63
  · rw [if_pos h2, if_pos (by norm_num; omega)]
  · rw [if_neg h2, if_neg (by norm_num; omega)]
    norm_num

theorem checkNull_rowIsNull (i null_count : Nat) (null_bitmap : List Byte)
    (column : List Field) (hb : null_count = 0 ∨ i / 8 < null_bitmap.length) :
    checkNull i null_count null_bitmap column
      = if rowIsNull null_count null_bitmap i = true then Except.ok (true, column ++ [Field.Null])
        else Except.ok (false, column) := by
  by_cases hc : null_count = 0
  · subst hc
    rw [checkNull_zero_count]
    simp [rowIsNull]
  · have hpos : null_count > 0 := Nat.pos_of_ne_zero hc
    have hlt : i / 8 < null_bitmap.length := by
      rcases hb with h | h
      · exact absurd h hc
      · exact h
    have hget : null_bitmap[i / 8]? = some null_bitmap[i / 8] := List.getElem?_eq_getElem hlt
    rw [checkNull_eq i null_count null_bitmap column _ hpos hget]
    have hD : null_bitmap.getD (i / 8) 0 = null_bitmap[i / 8] :=
      List.getD_eq_getElem null_bitmap 0 hlt
    simp only [rowIsNull, hD, hpos, decide_True, Bool.true_and, Bool.not_eq_true']

theorem arrowNumInsert_integer (host : Endian) (buf : List Byte) (p : Nat)
    (col_info : ColumnInfo) (column : List Field)
    (hfam : col_info.tp.isIntegerFamily = true) (hbuf : p + 8 ≤ buf.length) :
    arrowNumColToFlashColInsert host buf p col_info column
      = Except.ok (column ++ [if col_info.hasUnsignedFlag = true
          then Field.UInt64 (littleEndianAt buf p 8)
          else Field.Int64 (twosComplement64 (littleEndianAt buf p 8))]) := by
  have hr := readUnsigned_eq host buf p 8 hbuf
  rw [littleEndianValue_take_drop buf 8 p hbuf] at hr
  have hlt := littleEndianAt_lt buf p 8 hbuf
  have hs : readSigned host buf p 8
      = some (twosComplement64 (littleEndianAt buf p 8)) := by
    rw [readSigned, hr, Option.map_some']
    exact congrArg some (wrapSigned_natCast _ (by omega))
  obtain ⟨tp, flag⟩ := col_info
  have hfam2 : tp.isIntegerFamily = true := hfam
  by_cases hu : flag &&& ColumnFlagUnsigned = 0
  · have hflag : (ColumnInfo.hasUnsignedFlag { tp := tp, flag := flag }) = false := by
      simp [ColumnInfo.hasUnsignedFlag, hu]
    cases tp <;> simp only [TP.isIntegerFamily, Bool.false_eq_true] at hfam2 <;>
      simp only [arrowNumColToFlashColInsert, hu, ne_eq, not_true_eq_false, if_false, hs,
        hflag, Bool.false_eq_true]
  · have hflag : (ColumnInfo.hasUnsignedFlag { tp := tp, flag := flag }) = true := by
      simp [ColumnInfo.hasUnsignedFlag, hu]
    cases tp <;> simp only [TP.isIntegerFamily, Bool.false_eq_true] at hfam2 <;>
      simp only [arrowNumColToFlashColInsert, hu, ne_eq, not_false_eq_true, if_true, hr,
        hflag]

theorem arrowNumRow_integer (host : Endian) (buf : List Byte) (pos field_length null_count : Nat)
    (null_bitmap : List Byte) (col_info : ColumnInfo) (p : Nat) (column : List Field) (i : Nat)
    (hfam : col_info.tp.isIntegerFamily = true)
    (hp : p = pos + i * field_length)
    (hbuf : rowIsNull null_count null_bitmap i = false → p + 8 ≤ buf.length)
    (hb : null_count = 0 ∨ i / 8 < null_bitmap.length) :
    arrowNumColToFlashColRow host buf field_length null_count null_bitmap col_info (p, column) i
      = Except.ok (p + field_length,
          column ++ [decodedIntegerField buf pos field_length null_count null_bitmap col_info i]) := by
  unfold arrowNumColToFlashColRow
  rw [checkNull_rowIsNull i null_count null_bitmap column hb]
  cases hn : rowIsNull null_count null_bitmap i with
  | true => simp [decodedIntegerField, hn]
  | false =>
    simp only [Bool.false_eq_true, if_false]
    rw [arrowNumInsert_integer host buf p col_info column hfam (hbuf hn)]
    simp only [decodedIntegerField, hn, Bool.false_eq_true, if_false, hp]

theorem arrowNum_integer_loop (host : Endian) (buf : List Byte)
    (pos field_length null_count : Nat) (null_bitmap : List Byte) (col_info : ColumnInfo)
    (column : List Field) (length : Nat)
    (hfam : col_info.tp.isIntegerFamily = true)
    (hbuf : ∀ i, i < length → rowIsNull null_count null_bitmap i = false →
      pos + i * field_length + 8 ≤ buf.length)
    (hb : null_count = 0 ∨ ∀ i, i < length → i / 8 < null_bitmap.length) :
    (List.range length).foldlM
        (arrowNumColToFlashColRow host buf field_length null_count null_bitmap col_info)
        (pos, column)
      = Except.ok (pos + length * field_length,
          column ++ (List.range length).map
            (decodedIntegerField buf pos field_length null_count null_bitmap col_info)) := by
  induction length with
  | zero =>
    simp only [List.range_zero, List.foldlM_nil, Nat.zero_mul, Nat.add_zero, List.map_nil,
      List.append_nil]
    rfl
  | succ n ih =>
    have hih := ih (fun i hi => hbuf i (by omega))
      (hb.imp id (fun h i hi => h i (by omega)))
    rw [List.range_succ, List.foldlM_append, hih]
    have hrow := arrowNumRow_integer host buf pos field_length null_count null_bitmap col_info
      (pos + n * field_length)
      (column ++ (List.range n).map
        (decodedIntegerField buf pos field_length null_count null_bitmap col_info))
      n hfam rfl (hbuf n (by omega)) (hb.imp id (fun h => h n (by omega)))
    simp only [List.foldlM_cons, List.foldlM_nil, List.map_append, List.map_cons, List.map_nil]
    show (arrowNumColToFlashColRow host buf field_length null_count null_bitmap col_info
      (pos + n * field_length, _) n >>= pure) = _
    rw [hrow]
    simp only [List.append_assoc]
    have : pos + n * field_length + field_length = pos + (n + 1) * field_length := by ring
    rw [this]
    rfl
/-! ## The cursor of the decoders -/

theorem except_bind_ok {ε α β : Type} (x : Except ε α) (f : α → Except ε β) (r : β)
    (h : x >>= f = Except.ok r) : ∃ a, x = Except.ok a ∧ f a = Except.ok r := by
  cases x with
  | error err => cases h
  | ok a => exact ⟨a, rfl, h⟩

theorem foldlM_range_succ_ok {σ : Type} (step : σ → Nat → Except Failure σ) (n : Nat)
    (st st1 : σ) (h : (List.range (n + 1)).foldlM step st = Except.ok st1) :
    ∃ mid, (List.range n).foldlM step st = Except.ok mid ∧ step mid n = Except.ok st1 := by
  rw [List.range_succ, List.foldlM_append] at h
  obtain ⟨mid, h1, h2⟩ := except_bind_ok _ _ _ h
  refine ⟨mid, h1, ?_⟩
  rw [List.foldlM_cons] at h2
  obtain ⟨a, h3, h4⟩ := except_bind_ok _ _ _ h2
  have h5 : (Except.ok a : Except Failure σ) = Except.ok st1 := h4
  cases h5
  exact h3

theorem foldlM_cursor (step : Nat × List Field → Nat → DecodeResult) (isNull : Nat → Bool)
    (W fl : Nat)
    (hstep : ∀ st i st1, step st i = Except.ok st1 →
      st1.1 = st.1 + (if isNull i = true then fl else W))
    (n : Nat) (st st1 : Nat × List Field)
    (h : (List.range n).foldlM step st = Except.ok st1) :
    st1.1 = st.1 + W * (List.range n).countP (fun i => !isNull i)
      + fl * (List.range n).countP (fun i => isNull i) := by
  induction n generalizing st1 with
  | zero =>
    cases h
    simp
  | succ n ih =>
    obtain ⟨mid, h1, h2⟩ := foldlM_range_succ_ok step n st st1 h
    have hm := ih mid h1
    have hs := hstep mid n st1 h2
    rw [hs, hm, List.range_succ, List.countP_append, List.countP_append]
    cases hn : isNull n <;> simp [hn] <;> ring

theorem foldlM_cursor_const (step : Nat × List Field → Nat → DecodeResult) (fl : Nat)
    (hstep : ∀ st i st1, step st i = Except.ok st1 → st1.1 = st.1 + fl)
    (n : Nat) (st st1 : Nat × List Field)
    (h : (List.range n).foldlM step st = Except.ok st1) :
    st1.1 = st.1 + n * fl := by
  induction n generalizing st1 with
  | zero =>
    cases h
    simp
  | succ n ih =>
    obtain ⟨mid, h1, h2⟩ := foldlM_range_succ_ok step n st st1 h
    rw [hstep mid n st1 h2, ih mid h1]
    ring

theorem checkNull_ok (i null_count : Nat) (null_bitmap : List Byte) (column column1 : List Field)
    (flag : Bool) (h : checkNull i null_count null_bitmap column = Except.ok (flag, column1)) :
    flag = rowIsNull null_count null_bitmap i
      ∧ column1 = (if flag = true then column ++ [Field.Null] else column)
      ∧ (null_count = 0 ∨ i / 8 < null_bitmap.length) := by
  by_cases hb : null_count = 0 ∨ i / 8 < null_bitmap.length
  · rw [checkNull_rowIsNull i null_count null_bitmap column hb] at h
    cases hn : rowIsNull null_count null_bitmap i with
    | true =>
      rw [hn] at h
      simp only [if_true] at h
      cases h
      exact ⟨rfl, rfl, hb⟩
    | false =>
      rw [hn] at h
      simp only [Bool.false_eq_true, if_false] at h
      cases h
      exact ⟨rfl, rfl, hb⟩
  · exfalso
    simp only [not_or, not_lt] at hb
    have hpos : null_count > 0 := Nat.pos_of_ne_zero hb.1
    have h1 : i >>> 3 = i / 8 := Nat.shiftRight_eq_div_pow i 3
    have hnone : null_bitmap[i / 8]? = none := List.getElem?_eq_none hb.2
    simp only [checkNull, hpos, if_true, h1, hnone] at h
    cases h

theorem arrowDateRow_cursor (host : Endian) (buf : List Byte) (field_length null_count : Nat)
    (null_bitmap : List Byte) (st st1 : Nat × List Field) (i : Nat)
    (h : arrowDateColToFlashColRow host buf field_length null_count null_bitmap st i
      = Except.ok st1) :
    st1.1 = st.1 + (if rowIsNull null_count null_bitmap i = true then field_length else 20) := by
  unfold arrowDateColToFlashColRow at h
  cases hc : checkNull i null_count null_bitmap st.2 with
  | error err =>
    rw [hc] at h
    cases h
  | ok r =>
    obtain ⟨flag, column⟩ := r
    obtain ⟨hflag, _, _⟩ := checkNull_ok i null_count null_bitmap st.2 column flag hc
    rw [hc] at h
    cases flag with
    | true =>
      simp only at h
      cases h
      rw [← hflag]
      rfl
    | false =>
      simp only at h
      rw [← hflag]
      split at h
      · cases h
        rfl
      · cases h

theorem arrowDecimalRow_cursor (host : Endian) (buf : List Byte) (field_length null_count : Nat)
    (null_bitmap : List Byte) (col_type : DataType) (st st1 : Nat × List Field) (i : Nat)
    (h : arrowDecimalColToFlashColRow host buf field_length null_count null_bitmap col_type st i
      = Except.ok st1) :
    st1.1 = st.1 + (if rowIsNull null_count null_bitmap i = true then field_length else 40) := by
  unfold arrowDecimalColToFlashColRow at h
  cases hc : checkNull i null_count null_bitmap st.2 with
  | error err =>
    rw [hc] at h
    cases h
  | ok r =>
    obtain ⟨flag, column⟩ := r
    obtain ⟨hflag, _, _⟩ := checkNull_ok i null_count null_bitmap st.2 column flag hc
    rw [hc] at h
    cases flag with
    | true =>
      simp only at h
      cases h
      rw [← hflag]
      rfl
    | false =>
      simp only at h
      rw [← hflag]
      split at h
      · split at h
        · cases h
          simp only [MAX_WORD_BUF_LEN, Bool.false_eq_true, if_false]
        · cases h
      · cases h

theorem arrowNumRow_cursor (host : Endian) (buf : List Byte) (field_length null_count : Nat)
    (null_bitmap : List Byte) (col_info : ColumnInfo) (st st1 : Nat × List Field) (i : Nat)
    (h : arrowNumColToFlashColRow host buf field_length null_count null_bitmap col_info st i
      = Except.ok st1) :
    st1.1 = st.1 + field_length := by
  unfold arrowNumColToFlashColRow at h
  cases hc : checkNull i null_count null_bitmap st.2 with
  | error err =>
    rw [hc] at h
    cases h
  | ok r =>
    obtain ⟨flag, column⟩ := r
    rw [hc] at h
    cases flag with
    | true =>
      simp only at h
      cases h
      rfl
    | false =>
      simp only at h
      split at h
      · cases h
        rfl
      · cases h
/-! ## The date-time decoder and the decimal cursor -/

theorem readUnsigned_at (host : Endian) (buf : List Byte) (pos n : Nat)
    (h : pos + n ≤ buf.length) :
    readUnsigned host buf pos n = some (littleEndianAt buf pos n) := by
  rw [readUnsigned_eq host buf pos n h, littleEndianValue_take_drop buf n pos h]

theorem littleEndianAt_one (buf : List Byte) (pos : Nat) :
    littleEndianAt buf pos 1 = (buf.getD pos 0).val := by
  simp [littleEndianAt]

theorem littleEndianAt_congr (buf1 buf2 : List Byte) (pos n : Nat)
    (h : ∀ j, j < n → buf1.getD (pos + j) 0 = buf2.getD (pos + j) 0) :
    littleEndianAt buf1 pos n = littleEndianAt buf2 pos n := by
  unfold littleEndianAt
  apply Finset.sum_congr rfl
  intro j hj
  rw [h j (Finset.mem_range.mp hj)]

theorem arrowDateRow_eq (host : Endian) (buf : List Byte) (field_length null_count : Nat)
    (null_bitmap : List Byte) (p : Nat) (column : List Field) (i : Nat)
    (hbuf : p + 14 ≤ buf.length) :
    arrowDateColToFlashColRow host buf field_length null_count null_bitmap (p, column) i
      = match checkNull i null_count null_bitmap column with
        | Except.error e => Except.error e
        | Except.ok (true, column1) => Except.ok (p + field_length, column1)
        | Except.ok (false, column1) =>
          Except.ok (p + 20, column1 ++ [decodedDateField buf p]) := by
  unfold arrowDateColToFlashColRow
  simp only [readUnsigned_at host buf p 4 (by omega),
    readUnsigned_at host buf (p + 4) 4 (by omega),
    readUnsigned_at host buf (p + 8) 2 (by omega),
    readUnsigned_at host buf (p + 10) 1 (by omega),
    readUnsigned_at host buf (p + 11) 1 (by omega),
    readUnsigned_at host buf (p + 12) 1 (by omega),
    readUnsigned_at host buf (p + 13) 1 (by omega), littleEndianAt_one, decodedDateField]

theorem getD_append_middle (before head tail : List Byte) (k : Nat) (hk : k < head.length) :
    (before ++ head ++ tail).getD (before.length + k) 0 = head.getD k 0 := by
  rw [List.append_assoc, List.getD_eq_getElem?_getD, List.getD_eq_getElem?_getD,
    List.getElem?_append_right (by omega), Nat.add_sub_cancel_left,
    List.getElem?_append_left hk]

theorem decodedDateField_reserved (before head tail1 tail2 : List Byte)
    (hhead : head.length = 14) :
    decodedDateField (before ++ head ++ tail1) before.length
      = decodedDateField (before ++ head ++ tail2) before.length := by
  have hg : ∀ k, k < 14 → (before ++ head ++ tail1).getD (before.length + k) 0
      = (before ++ head ++ tail2).getD (before.length + k) 0 := by
    intro k hk
    rw [getD_append_middle before head tail1 k (by omega),
      getD_append_middle before head tail2 k (by omega)]
  have hle : ∀ q n, q + n ≤ 14 →
      littleEndianAt (before ++ head ++ tail1) (before.length + q) n
        = littleEndianAt (before ++ head ++ tail2) (before.length + q) n := by
    intro q n hqn
    apply littleEndianAt_congr
    intro j hj
    rw [Nat.add_assoc]
    exact hg (q + j) (by omega)
  unfold decodedDateField
  rw [hle 8 2 (by omega), hg 10 (by omega), hg 11 (by omega), hg 12 (by omega),
    hg 13 (by omega), hle 4 4 (by omega)]
  have h0 := hle 0 4 (by omega)
  rw [Nat.add_zero] at h0
  rw [h0]

theorem foldlM_range_fields (step : Nat × List Field → Nat → DecodeResult) (f : Nat → Field)
    (pos adv n : Nat)
    (hstep : ∀ i, i < n → ∀ column,
      step (pos + i * adv, column) i = Except.ok (pos + i * adv + adv, column ++ [f i]))
    (column : List Field) :
    (List.range n).foldlM step (pos, column)
      = Except.ok (pos + n * adv, column ++ (List.range n).map f) := by
  induction n with
  | zero =>
    simp only [List.range_zero, List.foldlM_nil, Nat.zero_mul, Nat.add_zero, List.map_nil,
      List.append_nil]
    rfl
  | succ n ih =>
    rw [List.range_succ, List.foldlM_append, ih (fun i hi => hstep i (by omega))]
    have hrow := hstep n (by omega) (column ++ (List.range n).map f)
    simp only [List.foldlM_cons, List.foldlM_nil, List.map_append, List.map_cons, List.map_nil]
    show (step (pos + n * adv, _) n >>= pure) = _
    rw [hrow]
    have : pos + n * adv + adv = pos + (n + 1) * adv := by ring
    rw [this, List.append_assoc]
    rfl

theorem arrowDate_loop (host : Endian) (buf : List Byte) (pos null_count : Nat)
    (null_bitmap : List Byte) (column : List Field) (length : Nat)
    (hbuf : ∀ i, i < length → rowIsNull null_count null_bitmap i = false →
      pos + i * 20 + 20 ≤ buf.length)
    (hb : null_count = 0 ∨ ∀ i, i < length → i / 8 < null_bitmap.length) :
    (List.range length).foldlM
        (arrowDateColToFlashColRow host buf 20 null_count null_bitmap) (pos, column)
      = Except.ok (pos + length * 20,
          column ++ (List.range length).map (fun i =>
            if rowIsNull null_count null_bitmap i = true then Field.Null
            else decodedDateField buf (pos + i * 20))) := by
  apply foldlM_range_fields
  intro i hi col1
  have hbi : null_count = 0 ∨ i / 8 < null_bitmap.length := hb.imp id (fun h => h i hi)
  unfold arrowDateColToFlashColRow
  rw [checkNull_rowIsNull i null_count null_bitmap col1 hbi]
  cases hn : rowIsNull null_count null_bitmap i with
  | true => simp
  | false =>
    have h20 := hbuf i hi hn
    simp only [Bool.false_eq_true, if_false,
      readUnsigned_at host buf (pos + i * 20) 4 (by omega),
      readUnsigned_at host buf (pos + i * 20 + 4) 4 (by omega),
      readUnsigned_at host buf (pos + i * 20 + 8) 2 (by omega),
      readUnsigned_at host buf (pos + i * 20 + 10) 1 (by omega),
      readUnsigned_at host buf (pos + i * 20 + 11) 1 (by omega),
      readUnsigned_at host buf (pos + i * 20 + 12) 1 (by omega),
      readUnsigned_at host buf (pos + i * 20 + 13) 1 (by omega), littleEndianAt_one,
      decodedDateField]
/-! ## The bytes decoder -/

theorem offsets_monotone (offsets : List Nat) (n : Nat)
    (hmono : ∀ i, i < n → offsets.getD i 0 ≤ offsets.getD (i + 1) 0) (i j : Nat)
    (hij : i ≤ j) (hj : j ≤ n) : offsets.getD i 0 ≤ offsets.getD j 0 := by
  induction j with
  | zero =>
    have : i = 0 := by omega
    rw [this]
  | succ j ih =>
    by_cases h : i = j + 1
    · rw [h]
    · exact le_trans (ih (by omega) (by omega)) (hmono j (by omega))

theorem arrowStringRow_eq (buf : List Byte) (pos null_count : Nat) (null_bitmap : List Byte)
    (offsets : List Nat) (column : List Field) (i : Nat)
    (hb : null_count = 0 ∨ i / 8 < null_bitmap.length)
    (hlen : i + 1 < offsets.length)
    (hle : offsets.getD i 0 ≤ offsets.getD (i + 1) 0)
    (hbuf : pos + offsets.getD (i + 1) 0 ≤ buf.length) :
    arrowStringColToFlashColRow buf pos null_count null_bitmap offsets column i
      = Except.ok (column ++ [decodedStringField buf pos null_count null_bitmap offsets i]) := by
  unfold arrowStringColToFlashColRow
  rw [checkNull_rowIsNull i null_count null_bitmap column hb]
  cases hn : rowIsNull null_count null_bitmap i with
  | true => simp [decodedStringField, hn]
  | false =>
    have h1 : offsets[i]? = some (offsets.getD i 0) := by
      rw [List.getD_eq_getElem offsets 0 (by omega), List.getElem?_eq_getElem (by omega)]
    have h2 : offsets[i + 1]? = some (offsets.getD (i + 1) 0) := by
      rw [List.getD_eq_getElem offsets 0 hlen, List.getElem?_eq_getElem hlen]
    simp only [Bool.false_eq_true, if_false, h1, h2, hle, hbuf, and_self, if_true,
      decodedStringField, hn]

theorem foldlM_range_column (step : List Field → Nat → Except Failure (List Field))
    (f : Nat → Field) (n : Nat)
    (hstep : ∀ i, i < n → ∀ column, step column i = Except.ok (column ++ [f i]))
    (column : List Field) :
    (List.range n).foldlM step column = Except.ok (column ++ (List.range n).map f) := by
  induction n with
  | zero =>
    simp only [List.range_zero, List.foldlM_nil, List.map_nil, List.append_nil]
    rfl
  | succ n ih =>
    rw [List.range_succ, List.foldlM_append, ih (fun i hi => hstep i (by omega))]
    have hrow := hstep n (by omega) (column ++ (List.range n).map f)
    simp only [List.foldlM_cons, List.foldlM_nil, List.map_append, List.map_cons, List.map_nil]
    show (step _ n >>= pure) = _
    rw [hrow, List.append_assoc]
    rfl
/-! ## The integer wire column read back -/

theorem bitsValue_testBit (bits : List Bool) (p : Nat) :
    (bitsValue bits).testBit p = bits.getD p false := by
  induction bits generalizing p with
  | nil => simp [bitsValue]
  | cons b rest ih =>
    cases p with
    | zero =>
      rw [Nat.testBit_zero]
      cases b
      · simp [bitsValue]
      · simp only [bitsValue, if_true, List.getD_cons_zero, decide_eq_true_eq]
        omega
    | succ p =>
      rw [Nat.testBit_succ]
      have hdiv : bitsValue (b :: rest) / 2 = bitsValue rest := by
        cases b <;> (simp [bitsValue]; try omega)
      rw [hdiv, ih p]
      simp

theorem bitsValue_lt (bits : List Bool) : bitsValue bits < 2 ^ bits.length := by
  induction bits with
  | nil => simp [bitsValue]
  | cons b rest ih =>
    simp only [bitsValue, List.length_cons, pow_succ]
    cases b
    · simp only [Bool.false_eq_true, if_false]
      omega
    · simp only [if_true]
      omega

theorem wireNullBitmap_length (rows : List Row) :
    (wireNullBitmap rows).length = (rows.length + 7) / 8 := by
  simp [wireNullBitmap]

theorem wireNullBitmap_testBit (rows : List Row) (k : Nat) (hk : k < rows.length) :
    ((wireNullBitmap rows).getD (k / 8) 0).val.testBit (k % 8)
      = decide (rows[k] ≠ Row.null) := by
  have hj : k / 8 < (rows.length + 7) / 8 := by omega
  have hlen8 : (((rows.drop (8 * (k / 8))).take 8).map
      fun r => decide (r ≠ Row.null)).length ≤ 8 := by
    rw [List.length_map, List.length_take]
    omega
  have hlt : bitsValue (((rows.drop (8 * (k / 8))).take 8).map
      fun r => decide (r ≠ Row.null)) < 256 := by
    have h1 := bitsValue_lt (((rows.drop (8 * (k / 8))).take 8).map
      fun r => decide (r ≠ Row.null))
    have h2 : (2 : Nat) ^ (((rows.drop (8 * (k / 8))).take 8).map
        fun r => decide (r ≠ Row.null)).length ≤ 2 ^ 8 :=
      Nat.pow_le_pow_right (by decide) hlen8
    omega
  have hget : (wireNullBitmap rows).getD (k / 8) 0
      = toByte (bitsValue (((rows.drop (8 * (k / 8))).take 8).map
          fun r => decide (r ≠ Row.null))) := by
    rw [List.getD_eq_getElem?_getD]
    simp only [wireNullBitmap, List.getElem?_map, List.getElem?_range hj, Option.map_some',
      Option.getD_some]
  rw [hget, toByte_val _ hlt, bitsValue_testBit, List.getD_eq_getElem?_getD,
    List.getElem?_map, List.getElem?_take_of_lt (by omega), List.getElem?_drop]
  have hidx : 8 * (k / 8) + k % 8 = k := by omega
  rw [hidx, List.getElem?_eq_getElem hk]
  rfl

theorem wireIntegerSlot_length (r : Row) : (wireIntegerSlot r).length = 8 := by
  cases r <;> simp [wireIntegerSlot, littleEndianBytes_length]

theorem wireIntegerData_length (rows : List Row) :
    (wireIntegerData rows).length = 8 * rows.length := by
  induction rows with
  | nil => rfl
  | cons r rest ih =>
    simp only [wireIntegerData, List.length_append, wireIntegerSlot_length, ih, List.length_cons]
    omega

theorem wireIntegerData_slot (rows : List Row) (k : Nat) (hk : k < rows.length) :
    ((wireIntegerData rows).drop (8 * k)).take 8 = wireIntegerSlot rows[k] := by
  induction rows generalizing k with
  | nil => simp at hk
  | cons r rest ih =>
    cases k with
    | zero =>
      simp only [wireIntegerData, Nat.mul_zero, List.drop_zero, List.getElem_cons_zero]
      rw [List.take_append_of_le_length (by rw [wireIntegerSlot_length]),
        List.take_of_length_le (by rw [wireIntegerSlot_length])]
    | succ k =>
      have hk2 : k < rest.length := by simpa using hk
      have h8 : 8 * (k + 1) = (wireIntegerSlot r).length + 8 * k := by
        rw [wireIntegerSlot_length]
        omega
      simp only [wireIntegerData, List.getElem_cons_succ]
      rw [h8, List.drop_append, ih k hk2]

theorem map_range_getElem {α β : Type} (l : List α) (g : Nat → β) (f : α → β)
    (h : ∀ k (hk : k < l.length), g k = f l[k]) :
    (List.range l.length).map g = l.map f := by
  apply List.ext_getElem
  · simp
  · intro n h1 h2
    have hn : n < l.length := by simpa using h2
    rw [List.getElem_map, List.getElem_map, List.getElem_range, h n hn]

theorem twosComplement64_wrapUnsigned (x : Int) (h0 : -(2 : Int) ^ 63 ≤ x) (h1 : x < 2 ^ 63) :
    twosComplement64 (wrapUnsigned 64 x) = x := by
  unfold twosComplement64 wrapUnsigned
  by_cases hx : 0 ≤ x
  · have hm : x % (2 ^ 64 : Int) = x := Int.emod_eq_of_lt hx (by omega)
    rw [hm]
    have hlt : x.toNat < 2 ^ 63 := by omega
    rw [if_pos hlt]
    exact Int.toNat_of_nonneg hx
  · have hm : x % (2 ^ 64 : Int) = x + 2 ^ 64 := by
      have := Int.add_mul_emod_self_left x (2 ^ 64) 1
      rw [mul_one] at this
      rw [← this]
      exact Int.emod_eq_of_lt (by omega) (by omega)
    rw [hm]
    have hge : ¬ (x + 2 ^ 64).toNat < 2 ^ 63 := by omega
    rw [if_neg hge, Int.toNat_of_nonneg (by omega)]
    omega

theorem arrowNum_of_wire_rows (host : Endian) (rows : List Row) (before after : List Byte)
    (offsets : List Nat) (sink : MutableColumnWithType) (col_info : ColumnInfo)
    (hfam : col_info.tp.isIntegerFamily = true)
    (hrows : ∀ r ∈ rows, r = Row.null
      ∨ (∃ v, r = Row.u64 v ∧ v < 2 ^ 64 ∧ col_info.hasUnsignedFlag = true)
      ∨ (∃ x, r = Row.i64 x ∧ -(2 : Int) ^ 63 ≤ x ∧ x < 2 ^ 63
          ∧ col_info.hasUnsignedFlag = false)) :
    arrowNumColToFlashCol host (before ++ wireIntegerData rows ++ after) before.length 8
        (wireNullCount rows) (wireNullBitmap rows) offsets sink col_info rows.length
      = Except.ok (before.length + rows.length * 8, sink.column ++ rows.map rowField) := by
  have hloop := arrowNum_integer_loop host (before ++ wireIntegerData rows ++ after)
    before.length 8 (wireNullCount rows) (wireNullBitmap rows) col_info sink.column rows.length
    hfam
    (fun i hi _ => by
      simp only [List.length_append, wireIntegerData_length]
      omega)
    (Or.inr (fun i hi => by
      rw [wireNullBitmap_length]
      omega))
  unfold arrowNumColToFlashCol
  rw [hloop]
  congr 3
  apply map_range_getElem
  intro k hk
  have hbit := wireNullBitmap_testBit rows k hk
  have hslot : littleEndianAt (before ++ wireIntegerData rows ++ after) (before.length + k * 8) 8
      = littleEndianValue (wireIntegerSlot rows[k]) := by
    rw [← littleEndianValue_take_drop _ 8 _ (by
      simp only [List.length_append, wireIntegerData_length]
      omega)]
    rw [List.append_assoc, List.drop_append, Nat.mul_comm k 8,
      ← wireIntegerData_slot rows k hk]
    rw [List.drop_append_of_le_length (by rw [wireIntegerData_length]; omega),
      List.take_append_of_le_length (by
        rw [List.length_drop, wireIntegerData_length]
        omega)]
  have hmem : rows[k] ∈ rows := List.getElem_mem hk
  rcases hrows rows[k] hmem with hr | ⟨v, hr, hv, hu⟩ | ⟨x, hr, hx0, hx1, hu⟩
  · have hcount : 0 < wireNullCount rows := by
      unfold wireNullCount
      rw [List.countP_pos_iff]
      exact ⟨rows[k], hmem, by simp [hr]⟩
    have hnull : rowIsNull (wireNullCount rows) (wireNullBitmap rows) k = true := by
      unfold rowIsNull
      rw [hbit]
      simp [hr, hcount]
    simp only [decodedIntegerField, hnull, if_true, hr, rowField]
  · have hnull : rowIsNull (wireNullCount rows) (wireNullBitmap rows) k = false := by
      unfold rowIsNull
      rw [hbit]
      simp [hr]
    rw [hr] at hslot
    simp only [wireIntegerSlot, littleEndianValue_bytes] at hslot
    rw [Nat.mod_eq_of_lt (by omega)] at hslot
    simp only [decodedIntegerField, hnull, Bool.false_eq_true, if_false, hu, if_true, hslot, hr,
      rowField]
  · have hnull : rowIsNull (wireNullCount rows) (wireNullBitmap rows) k = false := by
      unfold rowIsNull
      rw [hbit]
      simp [hr]
    rw [hr] at hslot
    simp only [wireIntegerSlot, littleEndianValue_bytes] at hslot
    have hwu : wrapUnsigned 64 x < 2 ^ 64 := by
      unfold wrapUnsigned
      have := Int.emod_lt_of_pos x (by norm_num : (0 : Int) < 2 ^ 64)
      have := Int.emod_nonneg x (by norm_num : (2 ^ 64 : Int) ≠ 0)
      omega
    rw [Nat.mod_eq_of_lt (by omega)] at hslot
    simp only [decodedIntegerField, hnull, Bool.false_eq_true, if_false, hu, hslot, hr, rowField,
      twosComplement64_wrapUnsigned x hx0 hx1]
/-! ## Integer round trip -/

theorem integer_compat_facts (c : ColumnWithTypeAndName) (ft : FieldType) (T : NumberKind)
    (htype : c.type.getNestedType = DataType.Number T) (hT : T.is_integral = true)
    (hcomp : ¬ incompatible c.type ft) :
    ft.tp.isIntegerFamily = true ∧ (fieldTypeToColumnInfo ft).hasUnsignedFlag = T.is_unsigned := by
  simp only [incompatible, not_or, not_and, htype] at hcomp
  obtain ⟨_, h2, h3, h4, h5, h6, h7, h8⟩ := hcomp
  obtain ⟨fI, fF, fD, fT, fN, fS, fU⟩ := family_facts ft.tp
  have hfamily : ft.tp.isIntegerFamily = true := by
    cases hfam : ft.tp.family with
    | integer => exact fI.mpr hfam
    | float =>
      have := h3 (fF.mpr hfam)
      simp only [ne_eq, Decidable.not_not, DataType.Number.injEq] at this
      subst this
      cases hT
    | double =>
      have := h4 (fD.mpr hfam)
      simp only [ne_eq, Decidable.not_not, DataType.Number.injEq] at this
      subst this
      cases hT
    | time => exact absurd rfl (h5 (fT.mpr hfam))
    | decimal => exact absurd rfl (h6 (fN.mpr hfam))
    | string =>
      have := h7 (fS.mpr hfam)
      simp at this
    | unsupported => exact absurd (fU.mpr hfam) h8
  refine ⟨hfamily, ?_⟩
  have := h2 hfamily
  simp only [DataType.isInteger, DataType.isUnsignedInteger, hT, Bool.true_and, ne_eq,
    Decidable.not_not, Bool.true_eq_false, not_false_eq_true, true_and] at this
  exact this.symm

theorem arrowColToFlashCol_integer (host : Endian) (buf : List Byte)
    (pos field_length null_count : Nat) (null_bitmap : List Byte) (offsets : List Nat)
    (col : MutableColumnWithType) (col_info : ColumnInfo) (length : Nat)
    (hfam : col_info.tp.isIntegerFamily = true) :
    arrowColToFlashCol host buf pos field_length null_count null_bitmap offsets col col_info
        length
      = arrowNumColToFlashCol host buf pos field_length null_count null_bitmap offsets col
        col_info length := by
  obtain ⟨tp, flag⟩ := col_info
  have hfam2 : tp.isIntegerFamily = true := hfam
  cases tp <;> simp only [TP.isIntegerFamily, Bool.false_eq_true] at hfam2 <;> rfl

theorem encodedRow_integer (c : ColumnWithTypeAndName) (ft : FieldType) (T : NumberKind)
    (hwf : c.wellFormed = true) (htype : c.type.getNestedType = DataType.Number T)
    (hT : T.is_integral = true) (i : Nat) (hi : i < c.column.size) :
    ∃ r, encodedRow c ft i = some r
      ∧ rowField r = engineIntegerField c i
      ∧ (r = Row.null
        ∨ (∃ v, r = Row.u64 v ∧ v < 2 ^ 64 ∧ T.is_unsigned = true)
        ∨ (∃ x, r = Row.i64 x ∧ -(2 : Int) ^ 63 ≤ x ∧ x < 2 ^ 63 ∧ T.is_unsigned = false)) := by
  obtain ⟨hm, _⟩ := wellFormed_facts c hwf
  obtain ⟨b, hb⟩ := wellFormed_isNullAt c hwf i hi
  rw [htype] at hm
  rw [← getNestedCol_size] at hi
  cases hbase : getNestedCol c.column with
  | Vector U data =>
    rw [hbase] at hm hi
    simp only [IColumn.matchesElementType, Bool.and_eq_true, decide_eq_true_eq] at hm
    obtain ⟨hUT, hall⟩ := hm
    subst hUT
    simp only [IColumn.size] at hi
    have hx : data[i]? = some data[i] := List.getElem?_eq_getElem hi
    have hD : data.getD i 0 = data[i] := List.getD_eq_getElem data 0 hi
    have hrange := inRange_bounds U hT data[i]
      (List.all_eq_true.mp hall _ (List.getElem_mem hi))
    cases b with
    | true =>
      exact ⟨Row.null, by simp [encodedRow, hb], by simp [rowField, engineIntegerField, hb],
        Or.inl rfl⟩
    | false =>
      cases hu : U.is_unsigned with
      | true =>
        rw [hu] at hrange
        simp only [if_true] at hrange
        refine ⟨Row.u64 data[i].toNat, ?_, ?_, Or.inr (Or.inl ⟨_, rfl, by omega, rfl⟩)⟩
        · simp [encodedRow, convertedValue, hb, htype, hbase, hx, hT, hu]
        · simp [rowField, engineIntegerField, hb, hbase, hu, hx]
      | false =>
        rw [hu] at hrange
        simp only [Bool.false_eq_true, if_false] at hrange
        refine ⟨Row.i64 data[i], ?_, ?_,
          Or.inr (Or.inr ⟨_, rfl, hrange.1, hrange.2, rfl⟩)⟩
        · simp [encodedRow, convertedValue, hb, htype, hbase, hx, hT, hu]
        · simp [rowField, engineIntegerField, hb, hbase, hu, hx]
  | Decimal U data =>
    rw [hbase] at hm
    simp [IColumn.matchesElementType] at hm
  | String data =>
    rw [hbase] at hm
    simp [IColumn.matchesElementType] at hm
  | Nullable nested null_map =>
    rw [hbase] at hm
    simp [IColumn.matchesElementType] at hm
/-! ## Reads of the word buffer -/

theorem foldlM_read_isSome (w : List Int) (g : Int → Int → Int) (idx : Nat → Nat)
    (l : List Nat) (init : Int) :
    (l.foldlM (fun v i => (w[idx i]?).map (fun x => g v x)) init).isSome = true
      ↔ ∀ i ∈ l, idx i < w.length := by
  induction l generalizing init with
  | nil => simp
  | cons a l ih =>
    rw [List.foldlM_cons]
    by_cases h : idx a < w.length
    · rw [List.getElem?_eq_getElem h]
      simp only [Option.map_some', Option.some_bind, List.mem_cons, forall_eq_or_imp, h, true_and]
      exact ih _
    · rw [List.getElem?_eq_none (by omega)]
      simp [h]

theorem toCHDecimal_isSome_iff (T : DecimalKind) (digits_int digits_frac : Nat)
    (negative : Bool) (word_buf : List Int) :
    (toCHDecimal T digits_int digits_frac negative word_buf).isSome = true
      ↔ ∀ i ∈ toCHDecimalReads digits_int digits_frac, i < word_buf.length := by
  unfold toCHDecimal toCHDecimalReads
  simp only []
  generalize ((digits_int + DIGITS_PER_WORD - 1) / DIGITS_PER_WORD) % 256 = wi
  generalize (digits_frac / DIGITS_PER_WORD) % 256 = wf
  generalize (digits_frac % DIGITS_PER_WORD) % 256 = t
  have h1 := fun init => foldlM_read_isSome word_buf
    (fun v x => wrapSigned T.bits (v * word_max + x)) (fun i => i + 0) (List.range wi) init
  have h2 := fun init => foldlM_read_isSome word_buf
    (fun v x => wrapSigned T.bits (v * word_max + x)) (fun i => i + wi) (List.range wf) init
  simp only [List.mem_append, List.mem_map, or_imp, forall_and, forall_exists_index, and_imp,
    forall_apply_eq_imp_iff₂]
  cases hA : (List.range wi).foldlM
      (fun v i => (word_buf[i + 0]?).map (fun x => wrapSigned T.bits (v * word_max + x))) 0 with
  | none =>
    have := (h1 0).not
    rw [hA] at this
    simp only [Option.isSome_none, Bool.false_eq_true, not_false_eq_true, true_iff] at this
    simp only [Option.none_bind, Option.isSome_none, Bool.false_eq_true, false_iff]
    intro hall
    exact this hall.1.1
  | some v1 =>
    have hA1 := (h1 0).mp (by rw [hA]; rfl)
    simp only [Option.some_bind]
    cases hB : (List.range wf).foldlM
        (fun v i => (word_buf[i + wi]?).map (fun x => wrapSigned T.bits (v * word_max + x)))
        v1 with
    | none =>
      have := (h2 v1).not
      rw [hB] at this
      simp only [Option.isSome_none, Bool.false_eq_true, not_false_eq_true, true_iff] at this
      simp only [Option.none_bind, Option.isSome_none, Bool.false_eq_true, false_iff]
      intro hall
      exact this hall.1.2
    | some v2 =>
      have hB1 := (h2 v1).mp (by rw [hB]; rfl)
      simp only [Option.some_bind]
      by_cases ht : t > 0
      · simp only [ht, if_true, List.mem_singleton, forall_eq]
        by_cases hlt : wi + wf < word_buf.length
        · rw [List.getElem?_eq_getElem hlt]
          simp only [Option.map_some', Option.isSome_some, true_iff]
          exact ⟨⟨hA1, hB1⟩, hlt⟩
        · rw [List.getElem?_eq_none (by omega)]
          simp only [Option.map_none', Option.isSome_none, Bool.false_eq_true, false_iff]
          intro hall
          exact hlt hall.2
      · simp only [ht, if_false, List.not_mem_nil, false_imp_iff, implies_true, and_true,
          Option.isSome_some, true_iff]
        exact ⟨hA1, hB1⟩

theorem mapM_option_some {α : Type} (f : Nat → Option α) (l : List Nat)
    (h : ∀ j ∈ l, (f j).isSome = true) :
    ∃ r, l.mapM f = some r ∧ r.length = l.length := by
  induction l with
  | nil => exact ⟨[], rfl, rfl⟩
  | cons a l ih =>
    obtain ⟨r, hr, hlen⟩ := ih (fun j hj => h j (List.mem_cons_of_mem a hj))
    obtain ⟨x, hx⟩ := Option.isSome_iff_exists.mp (h a (List.mem_cons_self a l))
    refine ⟨x :: r, ?_, by simp [hlen]⟩
    rw [List.mapM_cons, hx, hr]
    rfl

theorem mem_toCHDecimalReads (digits_int digits_frac : Nat) (hint : digits_int < 256)
    (hfrac : digits_frac < 256) (i : Nat) :
    i ∈ toCHDecimalReads digits_int digits_frac
      ↔ i < wordsFor digits_int + wordsFor digits_frac := by
  have hwi : ((digits_int + 9 - 1) / 9) % 256 = (digits_int + 8) / 9 := by omega
  have hwf : (digits_frac / 9) % 256 = digits_frac / 9 := by omega
  have ht : (digits_frac % 9) % 256 = digits_frac % 9 := by omega
  simp only [toCHDecimalReads, DIGITS_PER_WORD, wordsFor, hwi, hwf, ht, List.mem_append,
    List.mem_map, List.mem_range, Nat.add_zero, exists_eq_right]
  constructor
  · rintro ((h | ⟨a, ha, rfl⟩) | h)
    · omega
    · omega
    · split at h
      · rw [List.mem_singleton] at h
        omega
      · cases h
  · intro h
    by_cases h1 : i < (digits_int + 8) / 9
    · exact Or.inl (Or.inl h1)
    · by_cases h2 : i < (digits_int + 8) / 9 + digits_frac / 9
      · exact Or.inl (Or.inr ⟨i - (digits_int + 8) / 9, by omega, by omega⟩)
      · refine Or.inr ?_
        have ht2 : digits_frac % 9 > 0 := by omega
        rw [if_pos ht2, List.mem_singleton]
        omega
/-! ## Failures of the decoders -/

theorem foldlM_error_of_step {σ : Type} (step : σ → Nat → Except Failure σ)
    (P : Failure → Prop) (hstep : ∀ st i e, step st i = Except.error e → P e)
    (l : List Nat) (init : σ) (e : Failure)
    (h : l.foldlM step init = Except.error e) : P e := by
  induction l generalizing init with
  | nil => cases h
  | cons a l ih =>
    rw [List.foldlM_cons] at h
    cases hs : step init a with
    | error e1 =>
      rw [hs] at h
      have h2 : (Except.error e1 : Except Failure σ) = Except.error e := h
      cases h2
      exact hstep init a e hs
    | ok st =>
      rw [hs] at h
      exact ih st h

theorem checkNull_error (i null_count : Nat) (null_bitmap : List Byte) (column : List Field)
    (e : Failure) (h : checkNull i null_count null_bitmap column = Except.error e) :
    e = Failure.undefinedBehaviour := by
  unfold checkNull at h
  simp only [] at h
  repeat' (split at h)
  all_goals first
    | (cases h; rfl)
    | cases h

theorem arrowStringRow_error (buf : List Byte) (pos null_count : Nat) (null_bitmap : List Byte)
    (offsets : List Nat) (column : List Field) (i : Nat) (e : Failure)
    (h : arrowStringColToFlashColRow buf pos null_count null_bitmap offsets column i
      = Except.error e) :
    e = Failure.undefinedBehaviour := by
  unfold arrowStringColToFlashColRow at h
  simp only [] at h
  repeat' (split at h)
  all_goals first
    | (cases h; rfl)
    | (cases h; exact checkNull_error _ _ _ _ _ (by assumption))
    | cases h

theorem arrowDateRow_error (host : Endian) (buf : List Byte) (field_length null_count : Nat)
    (null_bitmap : List Byte) (st : Nat × List Field) (i : Nat) (e : Failure)
    (h : arrowDateColToFlashColRow host buf field_length null_count null_bitmap st i
      = Except.error e) :
    e = Failure.undefinedBehaviour := by
  unfold arrowDateColToFlashColRow at h
  simp only [] at h
  repeat' (split at h)
  all_goals first
    | (cases h; rfl)
    | (cases h; exact checkNull_error _ _ _ _ _ (by assumption))
    | cases h

theorem arrowDecimalInsert_error (decimal_type : DataType) (digits_int digits_frac negative : Nat)
    (word_buf : List Int) (column : List Field) (e : Failure)
    (h : arrowDecimalColToFlashColInsert decimal_type digits_int digits_frac negative word_buf
      column = Except.error e) :
    e = Failure.undefinedBehaviour := by
  unfold arrowDecimalColToFlashColInsert at h
  simp only [] at h
  repeat' (split at h)
  all_goals first
    | (cases h; rfl)
    | cases h

theorem arrowDecimalRow_error (host : Endian) (buf : List Byte) (field_length null_count : Nat)
    (null_bitmap : List Byte) (col_type : DataType) (st : Nat × List Field) (i : Nat)
    (e : Failure)
    (h : arrowDecimalColToFlashColRow host buf field_length null_count null_bitmap col_type st i
      = Except.error e) :
    e = Failure.undefinedBehaviour := by
  unfold arrowDecimalColToFlashColRow at h
  simp only [] at h
  repeat' (split at h)
  all_goals first
    | (cases h; rfl)
    | (cases h; exact checkNull_error _ _ _ _ _ (by assumption))
    | (cases h; exact arrowDecimalInsert_error _ _ _ _ _ _ _ (by assumption))
    | cases h

theorem arrowNumInsert_default (host : Endian) (buf : List Byte) (pos : Nat)
    (col_info : ColumnInfo) (column : List Field) :
    arrowNumColToFlashColInsert host buf pos col_info column
        = Except.error (Failure.exception ErrorCode.LOGICAL_ERROR)
      ↔ col_info.tp.isPrimitive = false := by
  obtain ⟨tp, flag⟩ := col_info
  cases tp <;> simp only [TP.isPrimitive, arrowNumColToFlashColInsert, Bool.true_eq_false,
    iff_false, iff_true] <;>
  · intro h
    repeat' (split at h)
    all_goals cases h

theorem arrowNumInsert_error (host : Endian) (buf : List Byte) (pos : Nat)
    (col_info : ColumnInfo) (column : List Field) (e : Failure)
    (hprim : col_info.tp.isPrimitive = true)
    (h : arrowNumColToFlashColInsert host buf pos col_info column = Except.error e) :
    e = Failure.undefinedBehaviour := by
  obtain ⟨tp, flag⟩ := col_info
  cases tp <;> simp only [TP.isPrimitive, Bool.false_eq_true] at hprim <;>
  · simp only [arrowNumColToFlashColInsert] at h
    repeat' (split at h)
    all_goals first
      | (cases h; rfl)
      | cases h

theorem arrowNumRow_error (host : Endian) (buf : List Byte) (field_length null_count : Nat)
    (null_bitmap : List Byte) (col_info : ColumnInfo) (st : Nat × List Field) (i : Nat)
    (e : Failure) (hprim : col_info.tp.isPrimitive = true)
    (h : arrowNumColToFlashColRow host buf field_length null_count null_bitmap col_info st i
      = Except.error e) :
    e = Failure.undefinedBehaviour := by
  unfold arrowNumColToFlashColRow at h
  repeat' (split at h)
  all_goals first
    | (cases h; exact checkNull_error _ _ _ _ _ (by assumption))
    | (cases h; exact arrowNumInsert_error _ _ _ _ _ _ hprim (by assumption))
    | cases h

theorem arrowString_error (buf : List Byte) (pos field_length null_count : Nat)
    (null_bitmap : List Byte) (offsets : List Nat) (col : MutableColumnWithType)
    (col_info : ColumnInfo) (length : Nat) (e : Failure)
    (h : arrowStringColToFlashCol buf pos field_length null_count null_bitmap offsets col
      col_info length = Except.error e) :
    e = Failure.undefinedBehaviour := by
  unfold arrowStringColToFlashCol at h
  split at h
  · rename_i e1 hfold
    cases h
    exact foldlM_error_of_step _ (fun e => e = Failure.undefinedBehaviour)
      (fun st i e hs => arrowStringRow_error buf pos null_count null_bitmap offsets st i e hs)
      _ _ _ hfold
  · split at h
    · cases h
    · cases h
      rfl
/-! ## Thrown errors of the encoders -/

theorem appendRows_no_exception (body : Nat → Option Row) (dag : TiDBColumn) (s e : Nat)
    (code : ErrorCode) (dag1 : TiDBColumn) :
    appendRows body dag s e ≠ Except.error (Failure.exception code, dag1) := by
  intro h
  have := appendRows_error body dag s e _ h
  cases this

theorem map_hit_cases (x : EncodeResult TiDBColumn) :
    (∀ dag1, x.map (fun dag => (true, dag)) ≠ Except.ok (false, dag1))
    ∧ (∀ err, x.map (fun dag => (true, dag)) = Except.error err → x = Except.error err) := by
  cases x with
  | ok a =>
    refine ⟨fun dag1 h => ?_, fun err h => ?_⟩
    · have h2 : (Except.ok (true, a) : EncodeResult (Bool × TiDBColumn))
          = Except.ok (false, dag1) := h
      cases h2
    · have h2 : (Except.ok (true, a) : EncodeResult (Bool × TiDBColumn))
          = Except.error err := h
      cases h2
  | error e1 =>
    refine ⟨fun dag1 h => ?_, fun err h => ?_⟩
    · have h2 : (Except.error e1 : EncodeResult (Bool × TiDBColumn))
          = Except.ok (false, dag1) := h
      cases h2
    · have h2 : (Except.error e1 : EncodeResult (Bool × TiDBColumn))
          = Except.error err := h
      cases h2
      rfl

theorem firstProbe_atomic {K : Type}
    (probe : K → TiDBColumn → EncodeResult (Bool × TiDBColumn))
    (hmiss : ∀ T dag dag1, probe T dag = Except.ok (false, dag1) → dag1 = dag)
    (herr : ∀ T dag err, probe T dag = Except.error err → err.1 = Failure.undefinedBehaviour)
    (Ts : List K) (dag : TiDBColumn) (code : ErrorCode) (dag1 : TiDBColumn)
    (h : firstProbe probe Ts dag = Except.error (Failure.exception code, dag1)) :
    dag1 = dag := by
  induction Ts generalizing dag with
  | nil =>
    have h2 : (Except.error (Failure.exception ErrorCode.UNKNOWN_EXCEPTION, dag)
        : EncodeResult TiDBColumn) = Except.error (Failure.exception code, dag1) := h
    cases h2
    rfl
  | cons T rest ih =>
    unfold firstProbe at h
    cases hp : probe T dag with
    | error err =>
      rw [hp] at h
      have h2 : (Except.error err : EncodeResult TiDBColumn)
          = Except.error (Failure.exception code, dag1) := h
      cases h2
      have := herr T dag _ hp
      cases this
    | ok r =>
      obtain ⟨b, dag2⟩ := r
      rw [hp] at h
      cases b with
      | true =>
        have h2 : (Except.ok dag2 : EncodeResult TiDBColumn)
            = Except.error (Failure.exception code, dag1) := h
        cases h2
      | false =>
        have h2 : firstProbe probe rest dag2 = Except.error (Failure.exception code, dag1) := h
        rw [hmiss T dag dag2 hp] at h2
        exact ih dag h2

theorem flashIntegerColToArrowCol_atomic (b : Bool) (dag : TiDBColumn) (col : IColumn)
    (s e : Nat) (code : ErrorCode) (dag1 : TiDBColumn)
    (h : flashIntegerColToArrowCol b dag col s e = Except.error (Failure.exception code, dag1)) :
    dag1 = dag := by
  refine firstProbe_atomic _ ?_ ?_ _ dag code dag1 h
  · intro T dag2 dag3 hp
    simp only [flashIntegerColToArrowColInternal] at hp
    split at hp
    · exact absurd hp ((map_hit_cases _).1 dag3)
    · cases hp
      rfl
  · intro T dag2 err hp
    simp only [flashIntegerColToArrowColInternal] at hp
    split at hp
    · exact appendRows_error _ _ _ _ _ ((map_hit_cases _).2 err hp)
    · cases hp

theorem flashDecimalColToArrowCol_atomic (b : Bool) (dag : TiDBColumn) (col : IColumn)
    (s e : Nat) (type : DataType) (code : ErrorCode) (dag1 : TiDBColumn)
    (h : flashDecimalColToArrowCol b dag col s e type
      = Except.error (Failure.exception code, dag1)) :
    dag1 = dag := by
  refine firstProbe_atomic _ ?_ ?_ _ dag code dag1 h
  · intro T dag2 dag3 hp
    simp only [flashDecimalColToArrowColInternal] at hp
    split at hp
    · exact absurd hp ((map_hit_cases _).1 dag3)
    · cases hp
      rfl
  · intro T dag2 err hp
    simp only [flashDecimalColToArrowColInternal] at hp
    split at hp
    · exact appendRows_error _ _ _ _ _ ((map_hit_cases _).2 err hp)
    · cases hp

theorem flashDoubleColToArrowCol_atomic (T : NumberKind) (b : Bool) (dag : TiDBColumn)
    (col : IColumn) (s e : Nat) (code : ErrorCode) (dag1 : TiDBColumn)
    (h : flashDoubleColToArrowCol T b dag col s e
      = Except.error (Failure.exception code, dag1)) :
    dag1 = dag := by
  simp only [flashDoubleColToArrowCol] at h
  split at h
  · exact absurd h (appendRows_no_exception _ _ _ _ _ _)
  · cases h
    rfl

theorem dispatchFamily_atomic (fam : WireFamily) (dag : TiDBColumn) (col : IColumn)
    (type : DataType) (info : ColumnInfo) (ft : FieldType) (s e : Nat)
    (code : ErrorCode) (dag1 : TiDBColumn)
    (h : dispatchFamily fam dag col type info ft s e
      = Except.error (Failure.exception code, dag1)) :
    dag1 = dag := by
  cases fam <;> simp only [dispatchFamily] at h <;> repeat' (split at h)
  all_goals first
    | (cases h; rfl)
    | exact flashIntegerColToArrowCol_atomic _ _ _ _ _ _ _ h
    | exact flashDecimalColToArrowCol_atomic _ _ _ _ _ _ _ _ h
    | exact flashDoubleColToArrowCol_atomic _ _ _ _ _ _ _ _ h
    | exact absurd h (appendRows_no_exception _ _ _ _ _ _)
/-! ## C1: the value computed by `toCHDecimal` -/

/-- C1: `toCHDecimal` computes the unscaled decimal integer from the wire words.  For
`digits_int`, `digits_frac` in `0..255`, a 9-word buffer `w` with `0 <= w[k] < 10^9`,
`wi = ceil(digits_int/9)`, `wf = floor(digits_frac/9)`, `t = digits_frac mod 9`: when
`wi + wf + (1 if t > 0 else 0) <= 9` and the magnitude `V` fits the target width (the
words are not negative, so every intermediate value is at most `V`), the result is
`s * V` with `s = -1` for a negative value and `1` otherwise, `V = H` for `t = 0` and
`V = H * 10^t + floor(w[wi + wf] / 10^(9 - t))` for `t > 0`. -/
theorem toCHDecimal_value (T : DecimalKind) (digits_int digits_frac : Nat)
    (negative : Bool) (w : List Int) (hdi : digits_int < 256) (hdf : digits_frac < 256)
    (hlen : w.length = 9) (hw : ∀ x ∈ w, 0 ≤ x ∧ x < 10 ^ 9)
    (hfit : (digits_int + 8) / 9 + digits_frac / 9
      + (if digits_frac % 9 > 0 then 1 else 0) ≤ 9)
    (hov : decodedMagnitude digits_int digits_frac w < (2 : Int) ^ (T.bits - 1)) :
    toCHDecimal T digits_int digits_frac negative w
      = some ((if negative then -1 else 1) * decodedMagnitude digits_int digits_frac w) :=
  toCHDecimal_eq_magnitude T digits_int digits_frac negative w hdi hdf hlen hw hfit hov

/-- Witness of C1: `digits_int = 5`, `digits_frac = 4`, not negative, words
`[12345, 678900000, 0, ...]` decode to `123456789`. -/
theorem toCHDecimal_value_witness :
    toCHDecimal DecimalKind.Decimal64 5 4 false [12345, 678900000, 0, 0, 0, 0, 0, 0, 0]
      = some 123456789 :=
  (toCHDecimal_value DecimalKind.Decimal64 5 4 false [12345, 678900000, 0, 0, 0, 0, 0, 0, 0]
    (by decide) (by decide) (by decide) (by decide) (by decide) (by decide)).trans (by decide)


/-! ## C2: the digits emitted by `decimalToVector` -/

/-- C2: `decimalToVector`, started on an empty vector, emits the decimal digits of the
absolute value of `v`, least significant first: every digit lies in `0..9` and the sum of
`d[i] * 10^i` is `|v|`; the wire decimal appended by `flashDecimalColToArrowColInternal`
for that row carries the scale `S` of the engine type, these digits, and
`negative = (v < 0)`.  The value `-1234500` at scale 3 gives the digits
`[0,0,5,4,3,2,1]` and `negative = true`. -/
theorem decimalToVector_emits_digits (T : DecimalKind) (v : Int) (S : Nat) :
    (∀ d ∈ decimalToVector v [] S, 0 ≤ d ∧ d ≤ 9)
    ∧ digitSum (decimalToVector v [] S) = |v|
    ∧ (∀ (is_nullable : Bool) (dag : TiDBColumn) (before after : List Int) (precision : Nat),
        flashDecimalColToArrowColInternal T is_nullable dag
            (IColumn.Decimal T (before ++ v :: after)) before.length (before.length + 1)
            (DataType.Decimal T precision S)
          = Except.ok (true, dag ++ [Row.decimal
              { scale := S, digits := decimalToVector v [] S, negative := decide (v < 0) }]))
    ∧ decimalToVector (-1234500) [] 3 = [0, 0, 5, 4, 3, 2, 1]
    ∧ decide ((-1234500 : Int) < 0) = true :=
  ⟨decimalToVector_digit_range v S, digitSum_decimalToVector v S,
    fun is_nullable dag before after precision =>
      decimalInternal_single T is_nullable dag before after v precision S,
    by rw [decimalToVector_eq]; norm_num, by decide⟩

/-! ## C3: decimal round trip -/

/-- C3: decimal round trip.  For a signed integer `v` at scale `S` that fits the native
type of the decimal width `T` and whose digits fit the nine words of the wire record:
the digits and the sign produced by `decimalToVector` for `(v, S)`, laid out as the wire
decimal record (`digits_frac = S`, `digits_int = digits.len - S`, base-10^9 words, the
trailing fraction digits left-aligned in their word), are decoded by `toCHDecimal` to `v`;
and `arrowDecimalColToFlashCol`, reading the 40 bytes of that record on either host,
inserts `DecimalField<T>(v, scale)` with the scale of the engine type, whatever `S` is,
and returns the cursor 40 bytes further. -/
theorem decimal_round_trip (T : DecimalKind) (v : Int) (S : Nat)
    (hrange : |v| < (2 : Int) ^ (T.bits - 1))
    (hfit : ((decimalToVector v [] S).length - S + 8) / 9 + (S + 8) / 9 ≤ 9) :
    toCHDecimal T ((decimalToVector v [] S).length - S) S (decide (v < 0))
        (wireDecimalWords (decimalToVector v [] S) S) = some v
    ∧ ∀ (host : Endian) (before after : List Byte) (result_frac : Byte) (field_length : Nat)
        (null_bitmap : List Byte) (offsets : List Nat) (column : List Field)
        (precision scale : Nat) (nullable : Bool) (info : ColumnInfo),
        arrowDecimalColToFlashCol host
            (before ++ wireDecimalRecord (decimalToVector v [] S) S (decide (v < 0)) result_frac
              ++ after)
            before.length field_length 0 null_bitmap offsets
            { column := column,
              type := if nullable then DataType.Nullable (DataType.Decimal T precision scale)
                else DataType.Decimal T precision scale }
            info 1
          = Except.ok (before.length + 40, column ++ [Field.Decimal T v scale]) := by
  have hcore := toCHDecimal_wireDecimalWords T v S hrange hfit
  refine ⟨hcore, ?_⟩
  intro host before after result_frac field_length null_bitmap offsets column precision scale
    nullable info
  have hS := decimalToVector_length_ge v S
  apply arrowDecimal_single_row host _ before.length field_length null_bitmap offsets column _
    info T precision scale (toByte ((decimalToVector v [] S).length - S)) (toByte S) result_frac
    (toByte (if decide (v < 0) = true then 1 else 0))
    (wireDecimalWords (decimalToVector v [] S) S) after v
  · cases nullable <;> rfl
  · rw [List.append_assoc, List.drop_left]
    rfl
  · exact wireDecimalWords_length _ _
  · exact wireDecimalWords_bounds _ _ (decimalToVector_digit_range v S)
  · rw [toByte_val _ (by omega), toByte_val _ (by omega)]
    have hneg : ((toByte (if decide (v < 0) = true then 1 else 0)).val != 0) = decide (v < 0) := by
      by_cases h : v < 0 <;> simp [h, toByte]
    rw [hneg]
    exact hcore

/-- Witness of C3: the value `123456789` at scale 4 as a `Decimal64`. -/
theorem decimal_round_trip_witness :
    toCHDecimal DecimalKind.Decimal64 ((decimalToVector 123456789 [] 4).length - 4) 4
        (decide ((123456789 : Int) < 0))
        (wireDecimalWords (decimalToVector 123456789 [] 4) 4) = some 123456789 :=
  (decimal_round_trip DecimalKind.Decimal64 123456789 4 (by decide)
    (by rw [decimalToVector_eq]; norm_num)).1
/-! ## C4: the encode dispatcher rejects exactly the incompatible pairs -/

/-- C4: for an engine column whose container matches its declared type, every wire field
type and flags, and a slice that lies inside the column, `flashColToArrowCol` fails if and
only if the pair is incompatible (nullable engine type against a `NOT NULL` wire field;
integer wire family against a non-integer engine type or a different signedness; `FLOAT`
against a type other than `Float32`; `DOUBLE` against a type other than `Float64`; time
family against a type that is no date/datetime; `NEWDECIMAL` against a type that is no
decimal; string family against a type other than `String`; an unsupported wire type), and
it succeeds in every other case. -/
theorem dispatcher_rejects_exactly (dag : TiDBColumn) (c : ColumnWithTypeAndName)
    (ft : FieldType) (s e : Nat) (hwf : c.wellFormed = true) (hslice : e ≤ c.column.size) :
    ((∃ err, flashColToArrowCol dag c ft s e = Except.error err) ↔ incompatible c.type ft)
    ∧ ((∃ dag1, flashColToArrowCol dag c ft s e = Except.ok dag1) ↔ ¬ incompatible c.type ft) := by
  by_cases hi : incompatible c.type ft
  · obtain ⟨code, h⟩ := flashColToArrowCol_incompatible dag c ft s e hi
    refine ⟨⟨fun _ => hi, fun _ => ⟨_, h⟩⟩, ⟨fun hok => ?_, fun hn => absurd hi hn⟩⟩
    obtain ⟨dag1, h1⟩ := hok
    rw [h] at h1
    cases h1
  · have hm := flashColToArrowCol_compatible dag c ft s e hwf hi
    have hok : flashColToArrowCol dag c ft s e
        = Except.ok (dag ++ (List.range' s (e - s)).map
            (fun i => (encodedRow c ft i).getD Row.null)) := by
      rw [hm]
      exact (appendRows_ok_iff _ dag _ s e).mpr
        ⟨fun i _ hie => wellFormed_encodedRow c ft hwf i (by omega), rfl⟩
    refine ⟨⟨fun herr => ?_, fun h => absurd h hi⟩, ⟨fun _ => hi, fun _ => ⟨_, hok⟩⟩⟩
    obtain ⟨err, h1⟩ := herr
    rw [hok] at h1
    cases h1

/-- Witness of C4: an unsigned 8-bit column against `TINY` with the flags `UNSIGNED` and
`NOT NULL`. -/
theorem dispatcher_rejects_exactly_witness :
    (∃ dag1, flashColToArrowCol []
        { column := IColumn.Vector NumberKind.UInt8 [255, 128],
          type := DataType.Number NumberKind.UInt8 }
        { tp := TP.TypeTiny, flag := 33 } 0 2 = Except.ok dag1)
      ↔ ¬ incompatible (DataType.Number NumberKind.UInt8) { tp := TP.TypeTiny, flag := 33 } :=
  (dispatcher_rejects_exactly []
    { column := IColumn.Vector NumberKind.UInt8 [255, 128],
      type := DataType.Number NumberKind.UInt8 }
    { tp := TP.TypeTiny, flag := 33 } 0 2 (by decide) (by decide)).2
/-! ## C5: the null test -/

/-- C5: `checkNull` returns true if and only if `null_count > 0` and bit `i & 7` of
`bitmap[i >> 3]` is clear; with `null_count == 0` it returns false and leaves the column
unchanged without consulting the bitmap (also for an empty bitmap); when it returns true
it has inserted exactly one null into the engine column, and when it returns false the
column is unchanged.  The bitmap byte of row `i` exists whenever it is consulted. -/
theorem checkNull_spec (i null_count : Nat) (null_bitmap : List Byte) (column : List Field)
    (hbitmap : null_count = 0 ∨ i / 8 < null_bitmap.length) :
    ∃ flag column1, checkNull i null_count null_bitmap column = Except.ok (flag, column1)
      ∧ (flag = true ↔ (null_count > 0
          ∧ ∃ b, null_bitmap[i / 8]? = some b ∧ b.val.testBit (i % 8) = false))
      ∧ (flag = true → column1 = column ++ [Field.Null])
      ∧ (flag = false → column1 = column)
      ∧ (null_count = 0 → checkNull i null_count [] column = Except.ok (false, column)) := by
  by_cases hc : null_count = 0
  · subst hc
    refine ⟨false, column, checkNull_zero_count i null_bitmap column, ?_, ?_, ?_, ?_⟩
    · simp
    · intro h
      cases h
    · intro _
      rfl
    · intro _
      exact checkNull_zero_count i [] column
  · have hpos : null_count > 0 := Nat.pos_of_ne_zero hc
    have hlt : i / 8 < null_bitmap.length := by
      rcases hbitmap with h | h
      · exact absurd h hc
      · exact h
    have hb : null_bitmap[i / 8]? = some null_bitmap[i / 8] := List.getElem?_eq_getElem hlt
    have heq := checkNull_eq i null_count null_bitmap column _ hpos hb
    by_cases hbit : (null_bitmap[i / 8]).val.testBit (i % 8) = false
    · rw [if_pos hbit] at heq
      refine ⟨true, column ++ [Field.Null], heq, ?_, ?_, ?_, ?_⟩
      · exact ⟨fun _ => ⟨hpos, _, hb, hbit⟩, fun _ => rfl⟩
      · intro _
        rfl
      · intro h
        cases h
      · intro h
        exact absurd h hc
    · rw [if_neg hbit] at heq
      refine ⟨false, column, heq, ?_, ?_, ?_, ?_⟩
      · constructor
        · intro h
          cases h
        · intro h
          obtain ⟨_, b, hb2, hbit2⟩ := h
          rw [hb] at hb2
          cases hb2
          exact absurd hbit2 hbit
      · intro h
        cases h
      · intro _
        rfl
      · intro h
        exact absurd h hc

/-- Witness of C5: row 1 against the bitmap byte `0b101` with one null in the column. -/
theorem checkNull_spec_witness :
    ∃ flag column1, checkNull 1 1 [5] [Field.String [97]] = Except.ok (flag, column1)
      ∧ (flag = true ↔ ((1 : Nat) > 0
          ∧ ∃ b, ([5] : List Byte)[1 / 8]? = some b ∧ b.val.testBit (1 % 8) = false))
      ∧ (flag = true → column1 = [Field.String [97]] ++ [Field.Null])
      ∧ (flag = false → column1 = [Field.String [97]])
      ∧ ((1 : Nat) = 0 → checkNull 1 1 [] [Field.String [97]] = Except.ok (false, [Field.String [97]])) :=
  checkNull_spec 1 1 [5] [Field.String [97]] (Or.inr (by decide))
/-! ## C6: null preservation and order on encode -/

/-- C6: for a successful `flashColToArrowCol` call over the slice `[start, end)` of an
engine column whose container matches its declared type, the call appends `end - start`
rows, and for every `k < end - start` the `k`-th appended row is a null if and only if the
engine row `start + k` is null, and otherwise it is the converted value of the engine row
`start + k`.  The statement covers every leaf encoder and both the `NOT NULL` and the
nullable wire declaration, since it holds for every wire field. -/
theorem encode_preserves_nulls_and_order (dag dag1 : TiDBColumn) (c : ColumnWithTypeAndName)
    (ft : FieldType) (s e : Nat) (hwf : c.wellFormed = true)
    (hok : flashColToArrowCol dag c ft s e = Except.ok dag1) :
    ∃ rows, dag1 = dag ++ rows ∧ rows.length = e - s
      ∧ ∀ k, k < e - s →
        (rows[k]? = some Row.null ↔ c.column.isNullAt (s + k) = some true)
        ∧ (c.column.isNullAt (s + k) ≠ some true →
            (convertedValue c ft (s + k)).isSome = true
            ∧ rows[k]? = convertedValue c ft (s + k)) := by
  have hcomp : ¬ incompatible c.type ft := by
    intro hi
    obtain ⟨code, h⟩ := flashColToArrowCol_incompatible dag c ft s e hi
    rw [h] at hok
    cases hok
  rw [flashColToArrowCol_compatible dag c ft s e hwf hcomp] at hok
  obtain ⟨hsome, hrows⟩ := (appendRows_ok_iff _ dag dag1 s e).mp hok
  refine ⟨_, hrows, by rw [List.length_map, List.length_range'], ?_⟩
  intro k hk
  have hrow : ((List.range' s (e - s)).map (fun i => (encodedRow c ft i).getD Row.null))[k]?
      = encodedRow c ft (s + k) := by
    rw [List.getElem?_map, List.getElem?_range' s 1 hk]
    have h1 := hsome (s + k) (by omega) (by omega)
    obtain ⟨r, hr⟩ := Option.isSome_iff_exists.mp h1
    simp [hr]
  have hs := hsome (s + k) (by omega) (by omega)
  rw [hrow]
  unfold encodedRow at hs ⊢
  cases hnull : c.column.isNullAt (s + k) with
  | none =>
    rw [hnull] at hs
    cases hs
  | some b =>
    cases b with
    | true => simp
    | false =>
      rw [hnull] at hs
      have hne := convertedValue_ne_null c ft (s + k)
      simp only [Option.some_bind, Bool.false_eq_true, if_false] at hs ⊢
      exact ⟨⟨fun h => absurd h hne, fun h => by cases h⟩, fun _ => ⟨hs, trivial⟩⟩

/-- Witness of C6: the nullable 32-bit column `[-1, 0, 7, null]` against `LONGLONG`
without flags. -/
theorem encode_preserves_nulls_and_order_witness :
    ∃ rows, [Row.i64 (-1), Row.i64 0, Row.i64 7, Row.null] = [] ++ rows ∧ rows.length = 4 - 0
      ∧ ∀ k, k < 4 - 0 →
        (rows[k]? = some Row.null ↔
          (IColumn.Nullable (IColumn.Vector NumberKind.Int32 [-1, 0, 7, 0])
            [false, false, false, true]).isNullAt (0 + k) = some true)
        ∧ ((IColumn.Nullable (IColumn.Vector NumberKind.Int32 [-1, 0, 7, 0])
            [false, false, false, true]).isNullAt (0 + k) ≠ some true →
            (convertedValue
              { column := IColumn.Nullable (IColumn.Vector NumberKind.Int32 [-1, 0, 7, 0])
                  [false, false, false, true],
                type := DataType.Nullable (DataType.Number NumberKind.Int32) }
              { tp := TP.TypeLongLong, flag := 0 } (0 + k)).isSome = true
            ∧ rows[k]? = convertedValue
              { column := IColumn.Nullable (IColumn.Vector NumberKind.Int32 [-1, 0, 7, 0])
                  [false, false, false, true],
                type := DataType.Nullable (DataType.Number NumberKind.Int32) }
              { tp := TP.TypeLongLong, flag := 0 } (0 + k)) :=
  encode_preserves_nulls_and_order [] [Row.i64 (-1), Row.i64 0, Row.i64 7, Row.null]
    { column := IColumn.Nullable (IColumn.Vector NumberKind.Int32 [-1, 0, 7, 0])
        [false, false, false, true],
      type := DataType.Nullable (DataType.Number NumberKind.Int32) }
    { tp := TP.TypeLongLong, flag := 0 } 0 4 (by decide) (by decide)
/-! ## C7: row count on encode -/

/-- C7: for every successful `flashColToArrowCol` call with `start <= end`, the number of
rows appended to the wire column, nulls included, equals `end - start`.  No assumption is
made on the engine column. -/
theorem encode_row_count (dag dag1 : TiDBColumn) (c : ColumnWithTypeAndName)
    (ft : FieldType) (s e : Nat) (hse : s ≤ e)
    (hok : flashColToArrowCol dag c ft s e = Except.ok dag1) :
    ∃ rows, dag1 = dag ++ rows ∧ (rows.length : Int) = (e : Int) - (s : Int) := by
  obtain ⟨rows, h1, h2⟩ := flashColToArrowCol_appended dag dag1 c ft s e hok
  exact ⟨rows, h1, by omega⟩

/-- Witness of C7: rows 1 and 2 of the nullable 32-bit column `[-1, 0, 7, null]`. -/
theorem encode_row_count_witness :
    ∃ rows, [Row.i64 0, Row.i64 7] = [] ++ rows
      ∧ (rows.length : Int) = ((3 : Nat) : Int) - ((1 : Nat) : Int) :=
  encode_row_count [] [Row.i64 0, Row.i64 7]
    { column := IColumn.Nullable (IColumn.Vector NumberKind.Int32 [-1, 0, 7, 0])
        [false, false, false, true],
      type := DataType.Nullable (DataType.Number NumberKind.Int32) }
    { tp := TP.TypeLongLong, flag := 0 } 1 3 (by decide) (by decide)
/-! ## C9: integer encode -/

/-- C9: for an integer engine column (any width, signed or unsigned) that the dispatcher
accepts, and every row `x` of the slice that is not null, the appended wire value is a
64-bit integer numerically equal to `x`; it is appended through the unsigned appender if
and only if the wire field has the `UNSIGNED` flag, and through the signed appender
otherwise. -/
theorem integer_encode (dag dag1 : TiDBColumn) (c : ColumnWithTypeAndName) (ft : FieldType)
    (s e : Nat) (T : NumberKind) (data : List Int)
    (hwf : c.wellFormed = true) (hT : T.is_integral = true)
    (htype : c.type.getNestedType = DataType.Number T)
    (hcol : getNestedCol c.column = IColumn.Vector T data)
    (hok : flashColToArrowCol dag c ft s e = Except.ok dag1)
    (k : Nat) (hk : k < e - s) (x : Int) (hx : data[s + k]? = some x)
    (hnotnull : c.column.isNullAt (s + k) = some false) :
    dag1[dag.length + k]?
        = some (if (fieldTypeToColumnInfo ft).hasUnsignedFlag = true then Row.u64 x.toNat
            else Row.i64 x)
    ∧ (if (fieldTypeToColumnInfo ft).hasUnsignedFlag = true
        then ((x.toNat : Nat) : Int) = x ∧ x.toNat < 2 ^ 64
        else -(2 : Int) ^ 63 ≤ x ∧ x < 2 ^ 63) := by
  have hcomp : ¬ incompatible c.type ft := by
    intro hi
    obtain ⟨code, h⟩ := flashColToArrowCol_incompatible dag c ft s e hi
    rw [h] at hok
    cases hok
  have hflag : (fieldTypeToColumnInfo ft).hasUnsignedFlag = T.is_unsigned := by
    have hc := hcomp
    simp only [incompatible, not_or, not_and, htype] at hc
    obtain ⟨_, h2, h3, h4, h5, h6, h7, h8⟩ := hc
    obtain ⟨fI, fF, fD, fT, fN, fS, fU⟩ := family_facts ft.tp
    have hfamily : ft.tp.isIntegerFamily = true := by
      cases hfam : ft.tp.family with
      | integer => exact fI.mpr hfam
      | float =>
        have := h3 (fF.mpr hfam)
        simp only [ne_eq, Decidable.not_not, DataType.Number.injEq] at this
        subst this
        cases hT
      | double =>
        have := h4 (fD.mpr hfam)
        simp only [ne_eq, Decidable.not_not, DataType.Number.injEq] at this
        subst this
        cases hT
      | time => exact absurd rfl (h5 (fT.mpr hfam))
      | decimal => exact absurd rfl (h6 (fN.mpr hfam))
      | string =>
        have := h7 (fS.mpr hfam)
        simp at this
      | unsupported => exact absurd (fU.mpr hfam) h8
    have := h2 hfamily
    simp only [DataType.isInteger, DataType.isUnsignedInteger, hT, Bool.true_and, ne_eq,
      Decidable.not_not, Bool.true_eq_false, not_false_eq_true, true_and] at this
    exact this.symm
  rw [flashColToArrowCol_compatible dag c ft s e hwf hcomp] at hok
  obtain ⟨_, hrows⟩ := (appendRows_ok_iff _ dag dag1 s e).mp hok
  have hrange : T.inRange x = true := by
    obtain ⟨hm, _⟩ := wellFormed_facts c hwf
    rw [htype, hcol] at hm
    simp only [IColumn.matchesElementType, Bool.and_eq_true, decide_eq_true_eq] at hm
    exact List.all_eq_true.mp hm.2 x (List.getElem?_mem hx)
  have hb := inRange_bounds T hT x hrange
  constructor
  · rw [hrows, appended_row_at dag _ s (e - s) k hk]
    simp only [encodedRow, convertedValue, hnotnull, htype, hcol, hx, Option.some_bind,
      Bool.false_eq_true, if_false, Option.map_some', hT, if_true, Option.getD_some, hflag]
  · rw [hflag]
    cases hu : T.is_unsigned with
    | true =>
      rw [hu] at hb
      simp only [if_true] at hb ⊢
      exact ⟨Int.toNat_of_nonneg hb.1, by omega⟩
    | false =>
      rw [hu] at hb
      simpa using hb

/-- Witness of C9: the unsigned 8-bit column `[255, 128]` against `TINY` with the flags
`UNSIGNED` and `NOT NULL` appends `u64 255` then `u64 128`; this is the second row. -/
theorem integer_encode_witness :
    ([Row.u64 255, Row.u64 128] : TiDBColumn)[([] : TiDBColumn).length + 1]?
        = some (if (fieldTypeToColumnInfo { tp := TP.TypeTiny, flag := 33 }).hasUnsignedFlag = true
            then Row.u64 (128 : Int).toNat else Row.i64 128)
    ∧ (if (fieldTypeToColumnInfo { tp := TP.TypeTiny, flag := 33 }).hasUnsignedFlag = true
        then (((128 : Int).toNat : Nat) : Int) = 128 ∧ (128 : Int).toNat < 2 ^ 64
        else -(2 : Int) ^ 63 ≤ 128 ∧ (128 : Int) < 2 ^ 63) :=
  integer_encode [] [Row.u64 255, Row.u64 128]
    { column := IColumn.Vector NumberKind.UInt8 [255, 128],
      type := DataType.Number NumberKind.UInt8 }
    { tp := TP.TypeTiny, flag := 33 } 0 2 NumberKind.UInt8 [255, 128]
    (by decide) rfl rfl rfl (by decide) 1 (by decide) 128 rfl rfl
/-! ## C8: row count on decode -/

/-- C8, evaluation at the failing input: a successful decode call that inserts no row.
The wire type is `NEWDECIMAL`, the engine column is a 64-bit integer column, the column
has one row and no nulls, and the buffer holds the 40-byte record of `12345.6789`.  None
of the four decimal width probes of `arrowDecimalColToFlashCol` matches the engine type
and the function has no branch for that case: the call returns the cursor 40 bytes
further and the engine column is still empty, although `length` is 1. -/
theorem decode_drops_decimal_row (host : Endian) :
    arrowColToFlashCol host
        ([5, 4, 0, 0, 57, 48, 0, 0, 32, 49, 119, 40] ++ List.replicate 28 0)
        0 40 0 [] [] { column := [], type := DataType.Number NumberKind.Int64 }
        { tp := TP.TypeNewDecimal, flag := 0 } 1
      = Except.ok (40, []) := by
  cases host <;> decide
/-! ## C10: integer decode is little-endian and host-independent -/

/-- C10: for every integer-family wire type, every `field_length`, every null pattern and
either host byte order, `arrowNumColToFlashCol` inserts for each row `i` that is not null
the value of the 8 bytes at `pos + i * field_length` read little-endian (the sum of
`b_j * 256^j`), as an unsigned 64-bit integer when the column has the `UNSIGNED` flag and
as a two's-complement signed 64-bit integer otherwise, and a null for a null row; the
returned cursor is `pos + length * field_length` whatever the null pattern.  The 8 bytes
of every row that is not null lie inside the buffer and the bitmap covers the rows
whenever it is consulted. -/
theorem integer_decode_little_endian (host : Endian) (buf : List Byte)
    (pos field_length null_count : Nat) (null_bitmap : List Byte) (offsets : List Nat)
    (col : MutableColumnWithType) (col_info : ColumnInfo) (length : Nat)
    (hfam : col_info.tp.isIntegerFamily = true)
    (hbuf : ∀ i, i < length → rowIsNull null_count null_bitmap i = false →
      pos + i * field_length + 8 ≤ buf.length)
    (hbitmap : null_count = 0 ∨ ∀ i, i < length → i / 8 < null_bitmap.length) :
    arrowNumColToFlashCol host buf pos field_length null_count null_bitmap offsets col col_info
        length
      = Except.ok (pos + length * field_length,
          col.column ++ (List.range length).map
            (decodedIntegerField buf pos field_length null_count null_bitmap col_info))
    ∧ arrowNumColToFlashCol Endian.little buf pos field_length null_count null_bitmap offsets col
        col_info length
      = arrowNumColToFlashCol Endian.big buf pos field_length null_count null_bitmap offsets col
        col_info length := by
  have h := fun hst => arrowNum_integer_loop hst buf pos field_length null_count null_bitmap
    col_info col.column length hfam hbuf hbitmap
  refine ⟨h host, ?_⟩
  unfold arrowNumColToFlashCol
  rw [h Endian.little, h Endian.big]

/-- Witness of C10: two signed rows, `-1` and `7`, decoded on a big-endian host. -/
theorem integer_decode_little_endian_witness :
    arrowNumColToFlashCol Endian.big
        ([255, 255, 255, 255, 255, 255, 255, 255] ++ [7, 0, 0, 0, 0, 0, 0, 0])
        0 8 0 [] [] { column := [], type := DataType.Number NumberKind.Int64 }
        { tp := TP.TypeLongLong, flag := 0 } 2
      = Except.ok (0 + 2 * 8,
          [] ++ (List.range 2).map
            (decodedIntegerField
              ([255, 255, 255, 255, 255, 255, 255, 255] ++ [7, 0, 0, 0, 0, 0, 0, 0])
              0 8 0 [] { tp := TP.TypeLongLong, flag := 0 })) :=
  (integer_decode_little_endian Endian.big
    ([255, 255, 255, 255, 255, 255, 255, 255] ++ [7, 0, 0, 0, 0, 0, 0, 0])
    0 8 0 [] [] { column := [], type := DataType.Number NumberKind.Int64 }
    { tp := TP.TypeLongLong, flag := 0 } 2 rfl
    (fun i hi _ => by
      simp only [List.length_append, List.length_cons, List.length_nil]
      omega)
    (Or.inl rfl)).1
/-! ## C16: decimal sign symmetry -/

/-- C16, counterexample: for `v = 0` the value and its negation are the same value, and
the `negative` flag of both wire decimals is false, so the flag of `encode(-v)` is not the
negation of the flag of `encode(v)`. -/
theorem sign_symmetry_fails_at_zero :
    (encodeDecimal (-(0 : Int)) 0).negative ≠ !(encodeDecimal 0 0).negative := by
  decide

/-- C16, amended: for every `v` other than 0 and every scale `S`, the `negative` flag of
`encode(-v)` is the negation of the flag of `encode(v)`; and for every `v`, zero included,
the digit sequences of `encode(-v)` and `encode(v)` are equal.  `encode(v)` is the wire
decimal appended by `flashDecimalColToArrowColInternal` for that value. -/
theorem sign_symmetry (T : DecimalKind) (S : Nat) :
    (∀ v : Int, v ≠ 0 → (encodeDecimal (-v) S).negative = !(encodeDecimal v S).negative)
    ∧ (∀ v : Int, (encodeDecimal (-v) S).digits = (encodeDecimal v S).digits)
    ∧ (∀ (v : Int) (is_nullable : Bool) (dag : TiDBColumn) (before after : List Int)
        (precision : Nat),
        flashDecimalColToArrowColInternal T is_nullable dag
            (IColumn.Decimal T (before ++ v :: after)) before.length (before.length + 1)
            (DataType.Decimal T precision S)
          = Except.ok (true, dag ++ [Row.decimal (encodeDecimal v S)])) := by
  refine ⟨?_, ?_, ?_⟩
  · intro v hv
    simp only [encodeDecimal]
    by_cases h : v < 0
    · have h2 : ¬ (-v < 0) := by omega
      simp [h, h2]
    · have h2 : -v < 0 := by omega
      simp [h, h2]
  · intro v
    simp only [encodeDecimal]
    rw [decimalToVector_eq, decimalToVector_eq, Int.natAbs_neg]
  · intro v is_nullable dag before after precision
    exact decimalInternal_single T is_nullable dag before after v precision S

/-- Witness of C16, amended: the value 5 at scale 2 under the 32-bit representation. -/
theorem sign_symmetry_witness :
    (5 : Int) ≠ 0
      ∧ (encodeDecimal (-(5 : Int)) 2).negative = !(encodeDecimal 5 2).negative :=
  ⟨by decide, (sign_symmetry DecimalKind.Decimal32 2).1 5 (by decide)⟩
/-! ## C17: fractional padding -/

/-- C17: for every decimal value `v` and every scale `S`, the digit sequence produced by
`decimalToVector(v, S)` on an empty vector has at least `S` entries. -/
theorem fractional_padding (v : Int) (S : Nat) : S ≤ (decimalToVector v [] S).length :=
  decimalToVector_length_ge v S
/-! ## C18: unsupported wire types -/

/-- C18, counterexample: the wire type `JSON` is outside the supported set, the engine
column is nullable and the wire field declares `NOT NULL`; the call fails with
`LOGICAL_ERROR`, raised by the nullability guard before the `switch`, not with
`NOT_IMPLEMENTED`. -/
theorem unsupported_type_logical_error :
    TP.TypeJSON.isSupported = false
    ∧ flashColToArrowCol []
        { column := IColumn.Nullable (IColumn.Vector NumberKind.Int32 [7]) [false],
          type := DataType.Nullable (DataType.Number NumberKind.Int32) }
        { tp := TP.TypeJSON, flag := 1 } 0 1
      = Except.error (Failure.exception ErrorCode.LOGICAL_ERROR, []) := by
  decide

/-- C18, amended: for every wire field type outside the supported closed set, every
engine column and every flag combination, `flashColToArrowCol` fails and leaves the wire
column as it was; the error is `NOT_IMPLEMENTED`, except when the engine type is nullable
and the wire field declares `NOT NULL`, where the nullability guard raises `LOGICAL_ERROR`
first. -/
theorem unsupported_type_error (dag : TiDBColumn) (c : ColumnWithTypeAndName) (ft : FieldType)
    (s e : Nat) (hunsupported : ft.tp.isSupported = false) :
    flashColToArrowCol dag c ft s e
      = if c.type.isNullable = true ∧ (fieldTypeToColumnInfo ft).hasNotNullFlag = true then
          Except.error (Failure.exception ErrorCode.LOGICAL_ERROR, dag)
        else Except.error (Failure.exception ErrorCode.NOT_IMPLEMENTED, dag) := by
  rw [flashColToArrowCol_family, (family_facts ft.tp).2.2.2.2.2.2.mp hunsupported]
  by_cases h : c.type.isNullable = true ∧ (fieldTypeToColumnInfo ft).hasNotNullFlag = true
  · rw [if_pos h, if_pos (by simp [h.1, h.2])]
  · rw [if_neg h, if_neg (by simpa using h)]
    rfl

/-- Witness of C18: the wire type `JSON` against a 32-bit integer column. -/
theorem unsupported_type_error_witness :
    flashColToArrowCol []
        { column := IColumn.Vector NumberKind.Int32 [7], type := DataType.Number NumberKind.Int32 }
        { tp := TP.TypeJSON, flag := 0 } 0 1
      = if (DataType.Number NumberKind.Int32).isNullable = true
          ∧ (fieldTypeToColumnInfo { tp := TP.TypeJSON, flag := 0 }).hasNotNullFlag = true then
          Except.error (Failure.exception ErrorCode.LOGICAL_ERROR, [])
        else Except.error (Failure.exception ErrorCode.NOT_IMPLEMENTED, []) :=
  unsupported_type_error []
    { column := IColumn.Vector NumberKind.Int32 [7], type := DataType.Number NumberKind.Int32 }
    { tp := TP.TypeJSON, flag := 0 } 0 1 (by decide)
/-! ## C19: decimal width probe failure on decode -/

/-- C19, evaluation at the failing input: `arrowDecimalColToFlashCol` decodes one row that
is not null (the 40-byte record of `-1234.500`) into an engine column of type `String`,
which is none of `Decimal32`, `Decimal64`, `Decimal128`, `Decimal256`.  The call does not
fail: it returns the cursor 40 bytes further and an engine column without the row. -/
theorem decimal_probe_failure_is_silent (host : Endian) :
    arrowDecimalColToFlashCol host
        ([4, 3, 0, 1, 210, 4, 0, 0, 0, 101, 205, 29] ++ List.replicate 28 0)
        0 40 0 [] [] { column := [Field.String [97]], type := DataType.String }
        { tp := TP.TypeNewDecimal, flag := 0 } 1
      = Except.ok (40, [Field.String [97]]) := by
  cases host <;> decide
/-! ## C20: exact digit count of `decimalToVector` -/

/-- C20: for every `v` and scale `S`, started on an empty vector, the output of
`decimalToVector` has `max(d, S)` entries, where `d` is the number of decimal digits of
`|v|` (0 for `v = 0`); every position at an index `>= d` holds 0, and when `d > 0` the
digit at index `d - 1` is not zero.  In particular `v = 0` yields exactly `S` zeros, and
the empty sequence when `S = 0`. -/
theorem decimalToVector_digit_count (v : Int) (S : Nat) :
    (decimalToVector v [] S).length = max (decimalDigitCount v.natAbs) S
    ∧ (∀ i, decimalDigitCount v.natAbs ≤ i → i < max (decimalDigitCount v.natAbs) S →
        (decimalToVector v [] S)[i]? = some 0)
    ∧ (0 < decimalDigitCount v.natAbs →
        ∃ x, (decimalToVector v [] S)[decimalDigitCount v.natAbs - 1]? = some x ∧ x ≠ 0)
    ∧ decimalToVector 0 [] S = List.replicate S 0
    ∧ decimalToVector 0 [] 0 = [] := by
  have hd : (Nat.digits 10 v.natAbs).length = decimalDigitCount v.natAbs := by
    unfold decimalDigitCount
    by_cases h0 : v.natAbs = 0
    · rw [if_pos h0, h0, Nat.digits_zero]
      rfl
    · rw [if_neg h0, Nat.digits_len 10 _ (by decide) h0]
  have hzero : ∀ S1, decimalToVector 0 [] S1 = List.replicate S1 0 := by
    intro S1
    rw [decimalToVector_eq]
    simp
  refine ⟨?_, ?_, ?_, hzero S, hzero 0⟩
  · rw [decimalToVector_eq, List.length_append, List.length_map, List.length_replicate, hd]
    rcases le_total (decimalDigitCount v.natAbs) S with h | h
    · rw [max_eq_right h]
      omega
    · rw [max_eq_left h]
      omega
  · intro i h1 h2
    have h3 : i < S := by
      rcases lt_max_iff.mp h2 with h | h
      · omega
      · exact h
    rw [decimalToVector_eq, List.getElem?_append_right (by rw [List.length_map, hd]; exact h1),
      List.length_map, hd, List.getElem?_replicate, if_pos (by omega)]
  · intro hpos
    have hne : v.natAbs ≠ 0 := by
      intro h0
      simp [decimalDigitCount, h0] at hpos
    have hnil : Nat.digits 10 v.natAbs ≠ [] := Nat.digits_ne_nil_iff_ne_zero.mpr hne
    have hlast := Nat.getLast_digit_ne_zero 10 hne
    rw [List.getLast_eq_getElem] at hlast
    have hlt : decimalDigitCount v.natAbs - 1 < (Nat.digits 10 v.natAbs).length := by omega
    refine ⟨Int.ofNat ((Nat.digits 10 v.natAbs)[decimalDigitCount v.natAbs - 1]), ?_, ?_⟩
    · rw [decimalToVector_eq, List.getElem?_append_left (by rw [List.length_map]; exact hlt),
        List.getElem?_map, List.getElem?_eq_getElem hlt]
      rfl
    · intro hz
      apply hlast
      have h3 : (Nat.digits 10 v.natAbs)[decimalDigitCount v.natAbs - 1] = 0 :=
        Int.ofNat_eq_zero.mp hz
      simpa [hd] using h3
/-! ## C12: cursor discipline -/

/-- C12, counterexample: a `DATE` column with one row that is not null and
`field_length = 8`.  The date-time decoder consumes the 20 bytes of the record, so the
call returns the cursor `pos + 20`, not `pos + length * field_length = pos + 8`. -/
theorem date_cursor_ignores_field_length :
    arrowColToFlashCol Endian.little (List.replicate 20 0) 0 8 0 [] []
        { column := [], type := DataType.MyDate } { tp := TP.TypeDate, flag := 0 } 1
      = Except.ok (20, [Field.UInt64 0])
    ∧ (20 : Nat) ≠ 0 + 1 * 8 := by
  decide

/-- C12, amended: whenever `arrowColToFlashCol` returns for a fixed-width wire type, the
returned cursor is `pos + length * field_length`, for every null pattern: at every
`field_length` for the integer family, `FLOAT` and `DOUBLE`; for `DATE`/`DATETIME`/
`TIMESTAMP` when `field_length` is the record width 20; and for `NEWDECIMAL` when
`field_length` is the record width 40. -/
theorem fixed_width_cursor (host : Endian) (buf : List Byte) (pos field_length null_count : Nat)
    (null_bitmap : List Byte) (offsets : List Nat) (col : MutableColumnWithType)
    (col_info : ColumnInfo) (length cursor : Nat) (column : List Field)
    (hfixed : col_info.tp.isIntegerFamily = true ∨ col_info.tp = TP.TypeFloat
      ∨ col_info.tp = TP.TypeDouble ∨ col_info.tp.isTimeFamily = true
      ∨ col_info.tp = TP.TypeNewDecimal)
    (hdate : col_info.tp.isTimeFamily = true → field_length = 20)
    (hdecimal : col_info.tp = TP.TypeNewDecimal → field_length = 40)
    (hok : arrowColToFlashCol host buf pos field_length null_count null_bitmap offsets col
      col_info length = Except.ok (cursor, column)) :
    cursor = pos + length * field_length := by
  have hnum : arrowNumColToFlashCol host buf pos field_length null_count null_bitmap offsets col
      col_info length = Except.ok (cursor, column) → cursor = pos + length * field_length := by
    intro h
    exact foldlM_cursor_const _ field_length
      (fun st i st1 hs => arrowNumRow_cursor host buf field_length null_count null_bitmap
        col_info st st1 i hs) length (pos, col.column) (cursor, column) h
  have hdt : field_length = 20 →
      arrowDateColToFlashCol host buf pos field_length null_count null_bitmap offsets col
        col_info length = Except.ok (cursor, column) → cursor = pos + length * field_length := by
    intro hfl h
    refine foldlM_cursor_const _ field_length (fun st i st1 hs => ?_) length (pos, col.column)
      (cursor, column) h
    have := arrowDateRow_cursor host buf field_length null_count null_bitmap st st1 i hs
    rw [this, hfl]
    split <;> rfl
  have hdc : field_length = 40 →
      arrowDecimalColToFlashCol host buf pos field_length null_count null_bitmap offsets col
        col_info length = Except.ok (cursor, column) → cursor = pos + length * field_length := by
    intro hfl h
    refine foldlM_cursor_const _ field_length (fun st i st1 hs => ?_) length (pos, col.column)
      (cursor, column) h
    have := arrowDecimalRow_cursor host buf field_length null_count null_bitmap col.type st st1
      i hs
    rw [this, hfl]
    split <;> rfl
  obtain ⟨tp, flag⟩ := col_info
  cases tp <;> first
    | exact hnum hok
    | exact hdt (hdate rfl) hok
    | exact hdc (hdecimal rfl) hok
    | (simp [TP.isIntegerFamily, TP.isTimeFamily] at hfixed)

/-- Witness of C12: a `DATE` column with two rows, the first null, and `field_length = 20`. -/
theorem fixed_width_cursor_witness : (40 : Nat) = 0 + 2 * 20 :=
  fixed_width_cursor Endian.big (List.replicate 40 0) 0 20 1 [2] []
    { column := [], type := DataType.MyDate } { tp := TP.TypeDate, flag := 0 } 2 40
    [Field.Null, Field.UInt64 0]
    (by decide) (fun _ => rfl) (fun h => by cases h) (by decide)
/-! ## C14: date-time decode -/

/-- C14: the date-time decoder follows the 20-byte wire layout.  (1) For a row that is not
null whose record lies in the buffer, `arrowDateColToFlashCol` reads the hour as the
little-endian `u32` at offset 0, the microsecond as the little-endian `u32` at offset 4,
the year as the little-endian `u16` at offset 8 and month, day, minute, second as the
bytes at offsets 10, 11, 12, 13, inserts the packed value of
`MyDateTime(year, month, day, hour, minute, second, micro_second)` and advances the cursor
by exactly 20 bytes, on either host and at every `field_length`.  (2) Two buffers that
agree on the bytes 0..13 of the record, so two records that differ only in the reserved
bytes 14..19, decode the row to the same result.  (3) With `field_length = 20` the
returned cursor is `pos + 20 * length` for every null pattern, and the inserted fields
are the nulls and the decoded records in row order. -/
theorem date_decode_layout (host : Endian) (buf : List Byte) (pos field_length null_count : Nat)
    (null_bitmap : List Byte) (offsets : List Nat) (col : MutableColumnWithType)
    (col_info : ColumnInfo) (length : Nat) :
    (∀ (p : Nat) (column : List Field) (i : Nat),
        rowIsNull null_count null_bitmap i = false →
        (null_count = 0 ∨ i / 8 < null_bitmap.length) → p + 20 ≤ buf.length →
        arrowDateColToFlashColRow host buf field_length null_count null_bitmap (p, column) i
          = Except.ok (p + 20, column ++ [decodedDateField buf p]))
    ∧ (∀ (before head tail1 tail2 : List Byte) (column : List Field) (i : Nat),
        head.length = 14 →
        arrowDateColToFlashColRow host (before ++ head ++ tail1) field_length null_count
            null_bitmap (before.length, column) i
          = arrowDateColToFlashColRow host (before ++ head ++ tail2) field_length null_count
            null_bitmap (before.length, column) i)
    ∧ (field_length = 20 →
        (∀ i, i < length → rowIsNull null_count null_bitmap i = false →
          pos + i * 20 + 20 ≤ buf.length) →
        (null_count = 0 ∨ ∀ i, i < length → i / 8 < null_bitmap.length) →
        arrowDateColToFlashCol host buf pos field_length null_count null_bitmap offsets col
            col_info length
          = Except.ok (pos + 20 * length,
              col.column ++ (List.range length).map (fun i =>
                if rowIsNull null_count null_bitmap i = true then Field.Null
                else decodedDateField buf (pos + i * 20)))) := by
  refine ⟨?_, ?_, ?_⟩
  · intro p column i hnull hb hbuf
    rw [arrowDateRow_eq host buf field_length null_count null_bitmap p column i (by omega),
      checkNull_rowIsNull i null_count null_bitmap column hb, hnull]
    rfl
  · intro before head tail1 tail2 column i hhead
    rw [arrowDateRow_eq host _ field_length null_count null_bitmap before.length column i
        (by simp only [List.length_append]; omega),
      arrowDateRow_eq host _ field_length null_count null_bitmap before.length column i
        (by simp only [List.length_append]; omega),
      decodedDateField_reserved before head tail1 tail2 hhead]
  · intro hfl hbuf hb
    subst hfl
    have h := arrowDate_loop host buf pos null_count null_bitmap col.column length hbuf hb
    rw [Nat.mul_comm length 20] at h
    exact h

/-- Witness of C14: the record of `2023-07-15 13:45:30.123456` with reserved bytes that are
not zero, as the only row of a column, decoded on a big-endian host with
`field_length = 20`. -/
theorem date_decode_layout_witness :
    arrowDateColToFlashCol Endian.big
        [13, 0, 0, 0, 64, 226, 1, 0, 231, 7, 7, 15, 45, 30, 9, 9, 9, 9, 9, 9]
        0 20 0 [] [] { column := [], type := DataType.MyDateTime 6 }
        { tp := TP.TypeDatetime, flag := 0 } 1
      = Except.ok (0 + 20 * 1,
          [] ++ (List.range 1).map (fun i =>
            if rowIsNull 0 [] i = true then Field.Null
            else decodedDateField
              [13, 0, 0, 0, 64, 226, 1, 0, 231, 7, 7, 15, 45, 30, 9, 9, 9, 9, 9, 9]
              (0 + i * 20))) :=
  (date_decode_layout Endian.big
    [13, 0, 0, 0, 64, 226, 1, 0, 231, 7, 7, 15, 45, 30, 9, 9, 9, 9, 9, 9]
    0 20 0 [] [] { column := [], type := DataType.MyDateTime 6 }
    { tp := TP.TypeDatetime, flag := 0 } 1).2.2 rfl
    (fun i hi _ => by
      simp only [List.length_cons, List.length_nil]
      omega)
    (Or.inl rfl)
/-! ## C15: a decimal row that is not null consumes the whole 40-byte record -/

/-- C15: whenever `arrowDecimalColToFlashCol` returns, the returned cursor is
`pos + 40 * (number of rows that are not null) + field_length * (number of null rows)`;
and every loop iteration that completes advances the cursor by exactly the 4 header bytes
plus the `9 * 4 = 36` word bytes for a row that is not null, whatever the header bytes
`digits_int`, `digits_frac`, `result_frac` and the sign byte are, however many words the
value uses, whatever the engine type and whatever `field_length` is, and by
`field_length` for a null row. -/
theorem decimal_cursor (host : Endian) (buf : List Byte) (pos field_length null_count : Nat)
    (null_bitmap : List Byte) (offsets : List Nat) (col : MutableColumnWithType)
    (col_info : ColumnInfo) (length cursor : Nat) (column : List Field)
    (hok : arrowDecimalColToFlashCol host buf pos field_length null_count null_bitmap offsets
      col col_info length = Except.ok (cursor, column)) :
    cursor = pos + 40 * nonNullRows null_count null_bitmap length
        + field_length * nullRows null_count null_bitmap length
    ∧ ∀ (col_type : DataType) (st st1 : Nat × List Field) (i : Nat),
        arrowDecimalColToFlashColRow host buf field_length null_count null_bitmap col_type st i
          = Except.ok st1 →
        st1.1 = st.1
          + (if rowIsNull null_count null_bitmap i = true then field_length else 4 + 9 * 4) := by
  refine ⟨?_, ?_⟩
  · exact foldlM_cursor _ (fun i => rowIsNull null_count null_bitmap i) 40 field_length
      (fun st i st1 hs => arrowDecimalRow_cursor host buf field_length null_count null_bitmap
        col.type st st1 i hs) length (pos, col.column) (cursor, column) hok
  · intro col_type st st1 i hs
    exact arrowDecimalRow_cursor host buf field_length null_count null_bitmap col_type st st1 i hs

/-- Witness of C15: a null row with `field_length = 7` followed by the record of
`-1234.500`, which uses two of the nine words. -/
theorem decimal_cursor_witness :
    (47 : Nat) = 0 + 40 * nonNullRows 1 [2] 2 + 7 * nullRows 1 [2] 2
    ∧ ∀ (col_type : DataType) (st st1 : Nat × List Field) (i : Nat),
        arrowDecimalColToFlashColRow Endian.little
            (List.replicate 7 0 ++ [4, 3, 0, 1, 210, 4, 0, 0, 0, 101, 205, 29]
              ++ List.replicate 28 0)
            7 1 [2] col_type st i = Except.ok st1 →
        st1.1 = st.1 + (if rowIsNull 1 [2] i = true then 7 else 4 + 9 * 4) :=
  decimal_cursor Endian.little
    (List.replicate 7 0 ++ [4, 3, 0, 1, 210, 4, 0, 0, 0, 101, 205, 29] ++ List.replicate 28 0)
    0 7 1 [2] [] { column := [], type := DataType.Decimal DecimalKind.Decimal64 18 3 }
    { tp := TP.TypeNewDecimal, flag := 0 } 2 47
    [Field.Null, Field.Decimal DecimalKind.Decimal64 (-1234500) 3] (by decide)
/-! ## C13: bytes decode -/

/-- C13: for every `length`, every offsets vector of `length + 1` non-decreasing entries,
every `null_count` and bitmap, `arrowStringColToFlashCol` inserts for each row `i`, in
increasing order, either a null (when the null test reports row `i` null) or the byte
string `pos[offsets[i] .. offsets[i+1])`, and returns `pos + offsets[length]`.  The bytes
up to `pos + offsets[length]` lie in the buffer and the bitmap covers the rows whenever it
is consulted. -/
theorem bytes_decode (buf : List Byte) (pos field_length null_count : Nat)
    (null_bitmap : List Byte) (offsets : List Nat) (col : MutableColumnWithType)
    (col_info : ColumnInfo) (length : Nat)
    (hlen : offsets.length = length + 1)
    (hmono : ∀ i, i < length → offsets.getD i 0 ≤ offsets.getD (i + 1) 0)
    (hbuf : pos + offsets.getD length 0 ≤ buf.length)
    (hbitmap : null_count = 0 ∨ ∀ i, i < length → i / 8 < null_bitmap.length) :
    arrowStringColToFlashCol buf pos field_length null_count null_bitmap offsets col col_info
        length
      = Except.ok (pos + offsets.getD length 0,
          col.column ++ (List.range length).map
            (decodedStringField buf pos null_count null_bitmap offsets)) := by
  have hloop := foldlM_range_column
    (arrowStringColToFlashColRow buf pos null_count null_bitmap offsets)
    (decodedStringField buf pos null_count null_bitmap offsets) length
    (fun i hi column =>
      arrowStringRow_eq buf pos null_count null_bitmap offsets column i
        (hbitmap.imp id (fun h => h i hi)) (by omega) (hmono i hi)
        (le_trans (Nat.add_le_add_left
          (offsets_monotone offsets length hmono (i + 1) length (by omega) (le_refl _)) pos)
          hbuf))
    col.column
  have hlast : offsets[length]? = some (offsets.getD length 0) := by
    rw [List.getD_eq_getElem offsets 0 (by omega), List.getElem?_eq_getElem (by omega)]
  simp only [arrowStringColToFlashCol, hloop, hlast]

/-- Witness of C13: the bytes `abc`, offsets `[0,1,1,3]`, `null_count = 1` and the bitmap
byte `0b101` insert `a`, a null and `bc`, and the cursor returned is `pos + 3`. -/
theorem bytes_decode_witness :
    arrowStringColToFlashCol [97, 98, 99] 0 0 1 [5] [0, 1, 1, 3]
        { column := [], type := DataType.String } { tp := TP.TypeVarchar, flag := 0 } 3
      = Except.ok (0 + 3, [Field.String [97], Field.Null, Field.String [98, 99]]) :=
  (bytes_decode [97, 98, 99] 0 0 1 [5] [0, 1, 1, 3]
    { column := [], type := DataType.String } { tp := TP.TypeVarchar, flag := 0 } 3
    rfl (by decide) (by decide) (Or.inr (by decide))).trans (by decide)
/-! ## C11: round trip on integer primitives -/

/-- C11: for every engine integer column `c` whose container matches its type (signed or
unsigned, any width, with or without nulls), every compatible wire field and every slice
inside the column: `flashColToArrowCol` succeeds, and when the appended rows are written
as 8-byte little-endian slots with the null bitmap and the null count, `arrowColToFlashCol`
under the same wire type and flags, on either host, returns the cursor behind the slots
and inserts the rows of the slice, value for value and null for null. -/
theorem integer_round_trip (host : Endian) (c : ColumnWithTypeAndName) (ft : FieldType)
    (s e : Nat) (T : NumberKind) (sink : MutableColumnWithType) (before after : List Byte)
    (offsets : List Nat)
    (hwf : c.wellFormed = true) (htype : c.type.getNestedType = DataType.Number T)
    (hT : T.is_integral = true) (hslice : e ≤ c.column.size)
    (hcomp : ¬ incompatible c.type ft) :
    ∃ rows, flashColToArrowCol [] c ft s e = Except.ok rows
      ∧ arrowColToFlashCol host (before ++ wireIntegerData rows ++ after) before.length 8
          (wireNullCount rows) (wireNullBitmap rows) offsets sink (fieldTypeToColumnInfo ft)
          (e - s)
        = Except.ok (before.length + 8 * (e - s),
            sink.column ++ (List.range (e - s)).map (fun k => engineIntegerField c (s + k))) := by
  obtain ⟨hfam, hflag⟩ := integer_compat_facts c ft T htype hT hcomp
  have henc : flashColToArrowCol [] c ft s e
      = Except.ok ((List.range' s (e - s)).map (fun i => (encodedRow c ft i).getD Row.null)) := by
    rw [flashColToArrowCol_compatible [] c ft s e hwf hcomp]
    exact (appendRows_ok_iff _ [] _ s e).mpr
      ⟨fun i _ hie => wellFormed_encodedRow c ft hwf i (by omega), by simp⟩
  refine ⟨_, henc, ?_⟩
  have hlen : ((List.range' s (e - s)).map
      (fun i => (encodedRow c ft i).getD Row.null)).length = e - s := by
    rw [List.length_map, List.length_range']
  have hrows : ∀ r ∈ (List.range' s (e - s)).map (fun i => (encodedRow c ft i).getD Row.null),
      r = Row.null
      ∨ (∃ v, r = Row.u64 v ∧ v < 2 ^ 64 ∧ (fieldTypeToColumnInfo ft).hasUnsignedFlag = true)
      ∨ (∃ x, r = Row.i64 x ∧ -(2 : Int) ^ 63 ≤ x ∧ x < 2 ^ 63
          ∧ (fieldTypeToColumnInfo ft).hasUnsignedFlag = false) := by
    intro r hr
    obtain ⟨i, hi, rfl⟩ := List.mem_map.mp hr
    have hi2 := List.mem_range'_1.mp hi
    obtain ⟨r1, h1, _, h3⟩ := encodedRow_integer c ft T hwf htype hT i (by omega)
    rw [h1, Option.getD_some, hflag]
    exact h3
  have hdec := arrowNum_of_wire_rows host _ before after offsets sink (fieldTypeToColumnInfo ft)
    hfam hrows
  rw [hlen] at hdec
  rw [arrowColToFlashCol_integer _ _ _ _ _ _ _ _ _ _ hfam, hdec, Nat.mul_comm (e - s) 8]
  congr 3
  rw [List.map_map, List.range'_eq_map_range, List.map_map]
  apply List.map_congr_left
  intro k hk
  have hk2 : k < e - s := List.mem_range.mp hk
  obtain ⟨r1, h1, h2, _⟩ := encodedRow_integer c ft T hwf htype hT (s + k) (by omega)
  simp only [Function.comp_apply, h1, Option.getD_some, h2]

/-- Witness of C11: the nullable 32-bit column `[-1, 0, 7, null]` through `LONGLONG`
without flags, decoded on a big-endian host. -/
theorem integer_round_trip_witness :
    ∃ rows, flashColToArrowCol []
        { column := IColumn.Nullable (IColumn.Vector NumberKind.Int32 [-1, 0, 7, 0])
            [false, false, false, true],
          type := DataType.Nullable (DataType.Number NumberKind.Int32) }
        { tp := TP.TypeLongLong, flag := 0 } 0 4 = Except.ok rows
      ∧ arrowColToFlashCol Endian.big (([] : List Byte) ++ wireIntegerData rows ++ [])
          ([] : List Byte).length 8
          (wireNullCount rows) (wireNullBitmap rows) []
          { column := [], type := DataType.Nullable (DataType.Number NumberKind.Int32) }
          (fieldTypeToColumnInfo { tp := TP.TypeLongLong, flag := 0 }) (4 - 0)
        = Except.ok (([] : List Byte).length + 8 * (4 - 0),
            [] ++ (List.range (4 - 0)).map (fun k => engineIntegerField
              { column := IColumn.Nullable (IColumn.Vector NumberKind.Int32 [-1, 0, 7, 0])
                  [false, false, false, true],
                type := DataType.Nullable (DataType.Number NumberKind.Int32) } (0 + k))) :=
  integer_round_trip Endian.big
    { column := IColumn.Nullable (IColumn.Vector NumberKind.Int32 [-1, 0, 7, 0])
        [false, false, false, true],
      type := DataType.Nullable (DataType.Number NumberKind.Int32) }
    { tp := TP.TypeLongLong, flag := 0 } 0 4 NumberKind.Int32
    { column := [], type := DataType.Nullable (DataType.Number NumberKind.Int32) } [] [] []
    (by decide) rfl rfl (by decide) (by decide)
/-! ## C22: word-buffer index safety of `toCHDecimal` -/

/-- C22: for every `digits_int` and `digits_frac` with
`ceil(digits_int/9) + ceil(digits_frac/9) <= 9`: every index at which `toCHDecimal` reads
the word buffer is below 9 (`MAX_WORD_BUF_LEN`), and when the sum is positive the largest
index read is `ceil(digits_int/9) + ceil(digits_frac/9) - 1`.  The read indices are those
of the function: for every buffer, every read of `toCHDecimal` is inside the buffer
exactly when every listed index is below its length; so on a buffer of 9 words no read
leaves it, and the row decoder, which fills the 9 words from the 40-byte record, does not
fail on a row that is not null whose record lies in the wire buffer. -/
theorem toCHDecimal_index_safety (T : DecimalKind) (digits_int digits_frac : Nat)
    (negative : Bool)
    (hwords : wordsFor digits_int + wordsFor digits_frac ≤ MAX_WORD_BUF_LEN) :
    (∀ i ∈ toCHDecimalReads digits_int digits_frac, i < MAX_WORD_BUF_LEN)
    ∧ (0 < wordsFor digits_int + wordsFor digits_frac →
        wordsFor digits_int + wordsFor digits_frac - 1 ∈ toCHDecimalReads digits_int digits_frac
        ∧ ∀ i ∈ toCHDecimalReads digits_int digits_frac,
            i ≤ wordsFor digits_int + wordsFor digits_frac - 1)
    ∧ (∀ word_buf : List Int,
        (toCHDecimal T digits_int digits_frac negative word_buf).isSome = true
          ↔ ∀ i ∈ toCHDecimalReads digits_int digits_frac, i < word_buf.length)
    ∧ (∀ word_buf : List Int, word_buf.length = MAX_WORD_BUF_LEN →
        (toCHDecimal T digits_int digits_frac negative word_buf).isSome = true)
    ∧ (∀ (host : Endian) (buf : List Byte) (field_length null_count : Nat)
        (null_bitmap : List Byte) (col_type : DataType) (p : Nat) (column : List Field)
        (i : Nat),
        rowIsNull null_count null_bitmap i = false →
        (null_count = 0 ∨ i / 8 < null_bitmap.length) →
        p + 40 ≤ buf.length →
        readUnsigned host buf p 1 = some digits_int →
        readUnsigned host buf (p + 1) 1 = some digits_frac →
        ∃ column1, arrowDecimalColToFlashColRow host buf field_length null_count null_bitmap
          col_type (p, column) i = Except.ok (p + 40, column1)) := by
  have hw : wordsFor digits_int + wordsFor digits_frac ≤ 9 := hwords
  have hint : digits_int < 256 := by
    simp only [wordsFor] at hw
    omega
  have hfrac : digits_frac < 256 := by
    simp only [wordsFor] at hw
    omega
  have hmem := mem_toCHDecimalReads digits_int digits_frac hint hfrac
  have hbound : ∀ i ∈ toCHDecimalReads digits_int digits_frac, i < MAX_WORD_BUF_LEN := by
    intro i hi
    have := (hmem i).mp hi
    simp only [MAX_WORD_BUF_LEN]
    omega
  have hsome : ∀ (U : DecimalKind) (neg : Bool) (word_buf : List Int),
      word_buf.length = MAX_WORD_BUF_LEN →
      (toCHDecimal U digits_int digits_frac neg word_buf).isSome = true := by
    intro U neg word_buf hlen
    rw [toCHDecimal_isSome_iff, hlen]
    exact hbound
  refine ⟨hbound, ?_, ?_, hsome T negative, ?_⟩
  · intro hpos
    exact ⟨(hmem _).mpr (by omega), fun i hi => by have := (hmem i).mp hi; omega⟩
  · intro word_buf
    exact toCHDecimal_isSome_iff T digits_int digits_frac negative word_buf
  · intro host buf field_length null_count null_bitmap col_type p column i hnull hb hbuf hdi hdf
    obtain ⟨word_buf, hwb, hwlen⟩ := mapM_option_some
      (fun j => readSigned host buf (p + 4 + 4 * j) 4) (List.range MAX_WORD_BUF_LEN)
      (fun j hj => by
        have hj2 : j < 9 := List.mem_range.mp hj
        simp only [readSigned, readUnsigned_eq host buf (p + 4 + 4 * j) 4 (by omega),
          Option.map_some', Option.isSome_some])
    rw [List.length_range] at hwlen
    have hneg := readUnsigned_eq host buf (p + 3) 1 (by omega)
    simp only [arrowDecimalColToFlashColRow, checkNull_rowIsNull i null_count null_bitmap column hb,
      hnull, Bool.false_eq_true, if_false, hdi, hdf, hneg, hwb]
    have hins : ∀ (dt : DataType) (neg : Nat), ∃ column1,
        arrowDecimalColToFlashColInsert dt digits_int digits_frac neg word_buf column
          = Except.ok column1 := by
      intro dt neg
      unfold arrowDecimalColToFlashColInsert
      simp only []
      have hconv : ∀ U : DecimalKind, ∃ res,
          toCHDecimal U digits_int digits_frac (neg != 0) word_buf = some res :=
        fun U => Option.isSome_iff_exists.mp (hsome U (neg != 0) word_buf hwlen)
      cases h32 : dt.checkDecimal DecimalKind.Decimal32 with
      | some scale =>
        obtain ⟨res, hres⟩ := hconv DecimalKind.Decimal32
        exact ⟨_, by rw [hres]⟩
      | none =>
        cases h64 : dt.checkDecimal DecimalKind.Decimal64 with
        | some scale =>
          obtain ⟨res, hres⟩ := hconv DecimalKind.Decimal64
          exact ⟨_, by rw [hres]⟩
        | none =>
          cases h128 : dt.checkDecimal DecimalKind.Decimal128 with
          | some scale =>
            obtain ⟨res, hres⟩ := hconv DecimalKind.Decimal128
            exact ⟨_, by rw [hres]⟩
          | none =>
            cases h256 : dt.checkDecimal DecimalKind.Decimal256 with
            | some scale =>
              obtain ⟨res, hres⟩ := hconv DecimalKind.Decimal256
              exact ⟨_, by rw [hres]⟩
            | none => exact ⟨column, rfl⟩
    obtain ⟨column1, hc1⟩ := hins (if col_type.isNullable then col_type.getNestedType else col_type)
      (littleEndianValue ((buf.drop (p + 3)).take 1))
    refine ⟨column1, ?_⟩
    simp only [hc1, MAX_WORD_BUF_LEN]

/-- Witness of C22: `digits_int = 45` and `digits_frac = 30` need `5 + 4 = 9` words, the
whole buffer; the reads stay below 9 and the largest is at index 8. -/
theorem toCHDecimal_index_safety_witness :
    wordsFor 45 + wordsFor 30 ≤ MAX_WORD_BUF_LEN
    ∧ (∀ i ∈ toCHDecimalReads 45 30, i < MAX_WORD_BUF_LEN)
    ∧ (0 < wordsFor 45 + wordsFor 30 →
        wordsFor 45 + wordsFor 30 - 1 ∈ toCHDecimalReads 45 30
        ∧ ∀ i ∈ toCHDecimalReads 45 30, i ≤ wordsFor 45 + wordsFor 30 - 1) :=
  ⟨by decide,
    (toCHDecimal_index_safety DecimalKind.Decimal128 45 30 false (by decide)).1,
    (toCHDecimal_index_safety DecimalKind.Decimal128 45 30 false (by decide)).2.1⟩
/-! ## C21: the default branch of the primitive decoder is unreachable -/

/-- C21: the `Should not reach here` branch of the primitive decoder is unreachable
through the dispatcher.  For every column info and every other input: (1) the `switch` of
`arrowColToFlashCol` selects `arrowNumColToFlashCol` exactly for the wire types `TINY`,
`SHORT`, `INT24`, `LONG`, `LONGLONG`, `YEAR`, `FLOAT`, `DOUBLE`, and the dispatcher returns
what the selected decoder returns; (2) the `switch` inside `arrowNumColToFlashCol` takes
its `default` branch, which throws `LOGICAL_ERROR`, exactly for a wire type outside those
eight; (3) so no call of `arrowColToFlashCol` ends in `LOGICAL_ERROR`. -/
theorem primitive_default_unreachable (host : Endian) (buf : List Byte)
    (pos field_length null_count : Nat) (null_bitmap : List Byte) (offsets : List Nat)
    (flash_col : MutableColumnWithType) (col_info : ColumnInfo) (length : Nat) :
    (arrowColToFlashColCallee col_info.tp = some Decoder.Num ↔ col_info.tp.isPrimitive = true)
    ∧ arrowColToFlashCol host buf pos field_length null_count null_bitmap offsets flash_col
          col_info length
        = (match arrowColToFlashColCallee col_info.tp with
          | some Decoder.Num =>
            arrowNumColToFlashCol host buf pos field_length null_count null_bitmap offsets
              flash_col col_info length
          | some Decoder.Date =>
            arrowDateColToFlashCol host buf pos field_length null_count null_bitmap offsets
              flash_col col_info length
          | some Decoder.Decimal =>
            arrowDecimalColToFlashCol host buf pos field_length null_count null_bitmap offsets
              flash_col col_info length
          | some Decoder.String =>
            arrowStringColToFlashCol buf pos field_length null_count null_bitmap offsets
              flash_col col_info length
          | none => Except.error (Failure.exception ErrorCode.UNSPECIFIED))
    ∧ (∀ (p : Nat) (column : List Field),
        arrowNumColToFlashColInsert host buf p col_info column
            = Except.error (Failure.exception ErrorCode.LOGICAL_ERROR)
          ↔ col_info.tp.isPrimitive = false)
    ∧ arrowColToFlashCol host buf pos field_length null_count null_bitmap offsets flash_col
          col_info length
        ≠ Except.error (Failure.exception ErrorCode.LOGICAL_ERROR) := by
  refine ⟨?_, ?_, fun p column => arrowNumInsert_default host buf p col_info column, ?_⟩
  · obtain ⟨tp, flag⟩ := col_info
    cases tp <;> simp [arrowColToFlashColCallee, TP.isPrimitive]
  · obtain ⟨tp, flag⟩ := col_info
    cases tp <;> rfl
  · intro h
    have hnum : col_info.tp.isPrimitive = true →
        arrowNumColToFlashCol host buf pos field_length null_count null_bitmap offsets flash_col
          col_info length ≠ Except.error (Failure.exception ErrorCode.LOGICAL_ERROR) := by
      intro hprim h2
      have := foldlM_error_of_step _ (fun e => e = Failure.undefinedBehaviour)
        (fun st i e hs => arrowNumRow_error host buf field_length null_count null_bitmap
          col_info st i e hprim hs) _ _ _ h2
      cases this
    have hdate : arrowDateColToFlashCol host buf pos field_length null_count null_bitmap offsets
        flash_col col_info length ≠ Except.error (Failure.exception ErrorCode.LOGICAL_ERROR) := by
      intro h2
      have := foldlM_error_of_step _ (fun e => e = Failure.undefinedBehaviour)
        (fun st i e hs => arrowDateRow_error host buf field_length null_count null_bitmap
          st i e hs) _ _ _ h2
      cases this
    have hdec : arrowDecimalColToFlashCol host buf pos field_length null_count null_bitmap
        offsets flash_col col_info length
          ≠ Except.error (Failure.exception ErrorCode.LOGICAL_ERROR) := by
      intro h2
      have := foldlM_error_of_step _ (fun e => e = Failure.undefinedBehaviour)
        (fun st i e hs => arrowDecimalRow_error host buf field_length null_count null_bitmap
          flash_col.type st i e hs) _ _ _ h2
      cases this
    have hstr : arrowStringColToFlashCol buf pos field_length null_count null_bitmap
        offsets flash_col col_info length
          ≠ Except.error (Failure.exception ErrorCode.LOGICAL_ERROR) := by
      intro h2
      have := arrowString_error buf pos field_length null_count null_bitmap offsets flash_col
        col_info length _ h2
      cases this
    obtain ⟨tp, flag⟩ := col_info
    cases tp <;> first
      | exact hnum rfl h
      | exact hdate h
      | exact hdec h
      | exact hstr h
      | cases h
/-! ## C23: encode is atomic on error -/

/-- C23: whenever `flashColToArrowCol` fails with a thrown error, of whatever kind
(nullability mismatch, type mismatch, wire type outside the supported set, or a failed
integer, decimal or float width probe), the wire column at the throw is exactly the wire
column before the call: no row has been appended.  This holds for every engine column,
well formed or not, every wire field and every slice. -/
theorem encode_atomic_on_error (dag_column : TiDBColumn) (flash_col : ColumnWithTypeAndName)
    (field_type : FieldType) (start_index end_index : Nat) (code : ErrorCode)
    (dag_after : TiDBColumn)
    (hfail : flashColToArrowCol dag_column flash_col field_type start_index end_index
      = Except.error (Failure.exception code, dag_after)) :
    dag_after = dag_column := by
  rw [flashColToArrowCol_family] at hfail
  split at hfail
  · cases hfail
    rfl
  · exact dispatchFamily_atomic _ _ _ _ _ _ _ _ _ _ hfail

/-- Witness of C23: a failed width probe.  The declared type is `Int32` and the wire type
`LONG`, but the container is a string column, so all eight integer probes miss and
`UNKNOWN_EXCEPTION` is thrown; the wire column still holds its two earlier rows. -/
theorem encode_atomic_on_error_witness :
    flashColToArrowCol [Row.i64 5, Row.null]
        { column := IColumn.String [[97], [98]], type := DataType.Number NumberKind.Int32 }
        { tp := TP.TypeLong, flag := 0 } 0 2
      = Except.error (Failure.exception ErrorCode.UNKNOWN_EXCEPTION, [Row.i64 5, Row.null])
    ∧ [Row.i64 5, Row.null] = [Row.i64 5, Row.null] :=
  ⟨by decide,
    encode_atomic_on_error [Row.i64 5, Row.null]
      { column := IColumn.String [[97], [98]], type := DataType.Number NumberKind.Int32 }
      { tp := TP.TypeLong, flag := 0 } 0 2 ErrorCode.UNKNOWN_EXCEPTION [Row.i64 5, Row.null]
      (by decide)⟩
end DB
